import Mathlib

/-!
Verification development for the xand graph compiler.

This file gives a shallow embedding, in Lean 4, of the xand graph
compiler's core: the tensor layer it consumes from torch (restricted
to the operations the code actually uses, modelled over integer
entries), the per-operation shape-inference rules of
`src/xand/ops/ops.py`, the mutable graph IR of
`src/xand/graph/{node,graph}.py` (modelled as an arena of integer node
ids with a functional store), the four optimization passes of
`src/xand/optimization_passes/`, and the evaluation entry points of
`src/xand/graph/graph.py` (`Graph.forward`) and `src/xand/compile.py`
(`XandModule.__call__`).

Modelling conventions, chosen once and used throughout:
* Python `list.remove(x)` removes the first occurrence and raises when
  `x` is absent.  We embed it as `List.erase`, which is a no-op when
  absent; every theorem below whose proof goes through a removal either
  carries a well-formedness hypothesis under which the element is
  present (so the two semantics agree) or does not depend on the
  removed element.
* Python object identity is embedded as a `Nat` node id; the arena
  (`Store`) is total, so "deleted" nodes keep their fields, exactly as
  dead Python objects stay alive while referenced.
* torch tensors are embedded with integer entries (the code never
  inspects dtypes; `node.py` notes "dtype not yet supported").
* Exceptions are embedded as `Option`/`none` results.
-/

namespace Xand

/-! ## Tensors

`Tensor` is a row-major flattening: `shape` is the list of dimensions
and `data` the flattened entries. -/

structure Tensor where
  shape : List Nat
  data : List Int
  deriving DecidableEq, Repr

/-- Number of entries a shape describes. -/
def shapeNumel (s : List Nat) : Nat := s.foldr (· * ·) 1

/-- Row-major offset of a multi-index `ix` in a tensor of shape `s`. -/
def offsetOf : List Nat → List Nat → Nat
  | [], _ => 0
  | _ :: ds, [] => 0 * shapeNumel ds
  | d :: ds, i :: is => i % d * shapeNumel ds + offsetOf ds is
  -- `i % d` keeps the function total; all callers pass `i < d`.

/-- All multi-indices of a shape, in row-major order. -/
def allIndices : List Nat → List (List Nat)
  | [] => [[]]
  | d :: ds => (List.range d).flatMap fun i => (allIndices ds).map (i :: ·)

/-- Entry of `t` at multi-index `ix` (0 outside bounds; callers stay
in bounds). -/
def Tensor.at' (t : Tensor) (ix : List Nat) : Int :=
  t.data.getD (offsetOf t.shape ix) 0

/-- Broadcast projection: restrict a (broadcast) multi-index `ix` of the
result shape to the operand shape `s`, NumPy-style (right-aligned,
coordinates over size-1 axes clamp to 0). -/
def clipIndex (s : List Nat) (ix : List Nat) : List Nat :=
  (List.zip s (ix.drop (ix.length - s.length))).map fun p =>
    if p.1 = 1 then 0 else p.2

/-- NumPy broadcasting of two shapes (right-aligned; a size-1 axis
stretches; unequal non-1 sizes fail). -/
def broadcastShapes (s1 s2 : List Nat) : Option (List Nat) :=
  let n := max s1.length s2.length
  let p1 := List.replicate (n - s1.length) 1 ++ s1
  let p2 := List.replicate (n - s2.length) 1 ++ s2
  let step := fun (acc : Option (List Nat)) (p : Nat × Nat) =>
    acc.bind fun l =>
      if p.1 = 1 then some (l ++ [p.2])
      else if p.2 = 1 then some (l ++ [p.1])
      else if p.1 = p.2 then some (l ++ [p.1]) else none
  (List.zip p1 p2).foldl step (some [])

/-- torch element-wise `+` with NumPy broadcasting. -/
def tensorAdd (a b : Tensor) : Option Tensor :=
  match broadcastShapes a.shape b.shape with
  | none => none
  | some s =>
    some ⟨s, (allIndices s).map fun ix =>
      a.at' (clipIndex a.shape ix) + b.at' (clipIndex b.shape ix)⟩

/-- Dot product of equal-length data lists. -/
def dotData (xs ys : List Int) : Int :=
  (List.zip xs ys).foldl (fun acc p => acc + p.1 * p.2) 0

/-- Batched matrix product over already-rank-≥2 operands with NumPy
batch broadcasting (the core of `torch.matmul` after rank promotion).
Fails when the batch shapes do not broadcast or inner dims mismatch. -/
def batchedMatmul (a b : Tensor) : Option Tensor :=
  match a.shape.reverse, b.shape.reverse with
  | k1 :: m :: batRevA, p :: k2 :: batRevB =>
    if k1 ≠ k2 then none
    else
      match broadcastShapes batRevA.reverse batRevB.reverse with
      | none => none
      | some bat =>
        let oshape := bat ++ [m, p]
        some ⟨oshape, (allIndices oshape).map fun ix =>
          let bIx := ix.take bat.length
          let i := ix.getD bat.length 0
          let j := ix.getD (bat.length + 1) 0
          (List.range k1).foldl
            (fun acc k =>
              acc + a.at' (clipIndex (batRevA.reverse) bIx ++ [i, k]) *
                b.at' (clipIndex (batRevB.reverse) bIx ++ [k, j])) 0⟩
  | _, _ => none

/-- torch.matmul: scalar operands are rejected; two vectors give a dot
product; a rank-1 first operand is prepended a 1-axis and a rank-1
second operand appended one, the result axis being squeezed away. -/
def tensorMatmul (a b : Tensor) : Option Tensor :=
  match a.shape, b.shape with
  | [], _ => none
  | _, [] => none
  | [n], [m] =>
    if n = m then some ⟨[], [dotData a.data b.data]⟩ else none
  | _, _ =>
    let a2 : Tensor := if a.shape.length = 1 then ⟨1 :: a.shape, a.data⟩ else a
    let b2 : Tensor := if b.shape.length = 1 then ⟨b.shape ++ [1], b.data⟩ else b
    match batchedMatmul a2 b2 with
    | none => none
    | some r =>
      let sh1 := if a.shape.length = 1 then
        r.shape.take (r.shape.length - 2) ++ r.shape.drop (r.shape.length - 1)
        else r.shape
      let sh2 := if b.shape.length = 1 then sh1.take (sh1.length - 1) else sh1
      some ⟨sh2, r.data⟩

/-- torch.transpose on tensor data: swaps two (possibly negative) axes;
out-of-range axes are an error. -/
def tensorTranspose (t : Tensor) (d0 d1 : Int) : Option Tensor :=
  let n := t.shape.length
  let e0 := if d0 < 0 then d0 + n else d0
  let e1 := if d1 < 0 then d1 + n else d1
  if 0 ≤ e0 ∧ e0 < n ∧ 0 ≤ e1 ∧ e1 < n then
    let i0 := e0.toNat
    let i1 := e1.toNat
    let oshape := (t.shape.set i0 (t.shape.getD i1 0)).set i1 (t.shape.getD i0 0)
    some ⟨oshape, (allIndices oshape).map fun ix =>
      t.at' ((ix.set i0 (ix.getD i1 0)).set i1 (ix.getD i0 0))⟩
  else none

/-- torch.unsqueeze: inserts a size-1 axis at a (possibly negative)
position; positions outside `[-rank-1, rank]` are an error. -/
def tensorUnsqueeze (t : Tensor) (d : Int) : Option Tensor :=
  let n := t.shape.length
  let e := if d < 0 then d + n + 1 else d
  if 0 ≤ e ∧ e ≤ n then
    some ⟨t.shape.take e.toNat ++ 1 :: t.shape.drop e.toNat, t.data⟩
  else none

/-- `bool(torch.all(tensor == 0))`. -/
def allZero (t : Tensor) : Bool := t.data.all (· = 0)

/-- `bool(torch.all(tensor == 1))`. -/
def allOne (t : Tensor) : Bool := t.data.all (· = 1)

/-- `torch.eye n` (as an integer tensor; the code compares values). -/
def eyeTensor (n : Nat) : Tensor :=
  ⟨[n, n], (List.range (n * n)).map fun k => if k / n = k % n then 1 else 0⟩

/-! ## Shape inference rules (`src/xand/ops/ops.py`)

Each `infer_shape` is embedded as a pure function returning
`Option (List Nat)`; `none` stands for the raised
`AssertionError`/`ValueError`/`IndexError`. -/

/-- `Add.infer_shape`: asserts exactly 2 input shapes and *equal
lengths* (the assertion text says "same shape" but the check compares
ranks), then returns the first shape. -/
def addInferShape (inputShapes : List (List Nat)) : Option (List Nat) :=
  match inputShapes with
  | [s1, s2] => if s1.length = s2.length then some s1 else none
  | _ => none

/-- The batched branch of `Matmul.infer_shape`: inner-dim check only
when both ranks are ≥ 2, then 1-padding and left-to-right broadcasting
of the batch dims, then the two trailing result axes (a literal `1`
when the corresponding operand has rank < 2). -/
def matmulBatchedShape (shapeA shapeB : List Nat) : Option (List Nat) :=
  let innerOk :=
    if 2 ≤ shapeA.length ∧ 2 ≤ shapeB.length then
      shapeA.getD (shapeA.length - 1) 0 = shapeB.getD (shapeB.length - 2) 0
    else True
  if innerOk then
    let batchA := if 2 < shapeA.length then shapeA.take (shapeA.length - 2) else []
    let batchB := if 2 < shapeB.length then shapeB.take (shapeB.length - 2) else []
    let m := max batchA.length batchB.length
    let paddedA := List.replicate (m - batchA.length) 1 ++ batchA
    let paddedB := List.replicate (m - batchB.length) 1 ++ batchB
    let step := fun (acc : Option (List Nat)) (p : Nat × Nat) =>
      acc.bind fun l =>
        if p.1 = 1 then some (l ++ [p.2])
        else if p.2 = 1 then some (l ++ [p.1])
        else if p.1 = p.2 then some (l ++ [p.1]) else none
    match (List.zip paddedA paddedB).foldl step (some []) with
    | none => none
    | some batchShape =>
      some (batchShape ++
        [if 2 ≤ shapeA.length then shapeA.getD (shapeA.length - 2) 0 else 1,
         if 2 ≤ shapeB.length then shapeB.getD (shapeB.length - 1) 0 else 1])
  else none

/-- `Matmul.infer_shape`. -/
def matmulInferShape (inputShapes : List (List Nat)) : Option (List Nat) :=
  match inputShapes with
  | [shapeA, shapeB] =>
    if shapeA.length = 0 ∨ shapeB.length = 0 then none
    else if shapeA.length = 1 ∧ shapeB.length = 1 then
      if shapeA.getD 0 0 ≠ shapeB.getD 0 0 then none else some []
    else if shapeA.length = 2 ∧ shapeB.length = 1 then
      if shapeA.getD 1 0 ≠ shapeB.getD 0 0 then none
      else some [shapeA.getD 0 0]
    else if shapeA.length = 1 ∧ shapeB.length = 2 then
      if shapeA.getD 0 0 ≠ shapeB.getD 0 0 then none
      else some [shapeB.getD 1 0]
    else if shapeA.length = 2 ∧ shapeB.length = 2 then
      if shapeA.getD 1 0 ≠ shapeB.getD 0 0 then none
      else some [shapeA.getD 0 0, shapeB.getD 1 0]
    else matmulBatchedShape shapeA shapeB
  | _ => none

/-- `Unsqueeze.infer_shape` with argument `dim`. -/
def unsqueezeInferShape (dim : Int) (inputShapes : List (List Nat)) :
    Option (List Nat) :=
  match inputShapes with
  | [s] =>
    let d := if dim < 0 then dim + s.length + 1 else dim
    -- Python slicing clamps: `s[:d] + [1] + (s[d:] if d < len(s) else [])`.
    -- A negative `d` (doubly negative dim) slices from the end.
    let dn := if d < 0 then (d + s.length).toNat else d.toNat
    some (s.take dn ++ 1 :: (if d < s.length then s.drop dn else []))
  | _ => none

/-- One step of Python list indexing: a negative index counts from the
end; an index `< -len` or `≥ len` is an `IndexError`. -/
def pyIndex (len : Nat) (i : Int) : Option Nat :=
  let j := if i < 0 then i + len else i
  if 0 ≤ j ∧ j < len then some j.toNat else none

/-- `Transpose.infer_shape` with arguments `dim0`, `dim1`.  The code
adds the rank to negative indices, then validates only the *upper*
bound (`dim0 >= len or dim1 >= len`); the subsequent swap uses Python
list indexing, under which a still-negative index wraps around once
more (or raises `IndexError` below `-len`). -/
def transposeInferShape (dim0 dim1 : Int) (inputShapes : List (List Nat)) :
    Option (List Nat) :=
  match inputShapes with
  | [s] =>
    let n := s.length
    let d0 := if dim0 < 0 then dim0 + n else dim0
    let d1 := if dim1 < 0 then dim1 + n else dim1
    if (n : Int) ≤ d0 ∨ (n : Int) ≤ d1 then none
    else
      match pyIndex n d0, pyIndex n d1 with
      | some i0, some i1 =>
        some ((s.set i0 (s.getD i1 0)).set i1 (s.getD i0 0))
      | _, _ => none
  | _ => none

/-! ## Graph IR (`src/xand/graph/node.py`, `src/xand/graph/graph.py`)

Nodes live in an arena indexed by `Nat` ids (standing for Python object
identity); the arena (`Store`) is total, so nodes removed from the
graph keep their fields, exactly like dead Python objects that are
still referenced.  `Graph.fresh` is an upper bound on the ids in use,
used to allocate the fresh node `consteval` creates. -/

inductive DataType where
  | CONSTANT | VARIABLE | PARAMETER | INPUT
  deriving DecidableEq, Repr

inductive OpKind where
  | add
  | matmul
  | transpose (dim0 dim1 : Int)
  | unsqueeze (dim : Int)
  deriving DecidableEq, Repr

/-- Dispatch of `Operation.forward` (`src/xand/ops/ops.py`); each
implementation asserts its arity then delegates to torch. -/
def opForward : OpKind → List Tensor → Option Tensor
  | .add, [t1, t2] => tensorAdd t1 t2
  | .add, _ => none
  | .matmul, [t1, t2] => tensorMatmul t1 t2
  | .matmul, _ => none
  | .transpose d0 d1, [t] => tensorTranspose t d0 d1
  | .transpose _ _, _ => none
  | .unsqueeze d, [t] => tensorUnsqueeze t d
  | .unsqueeze _, _ => none

/-- Dispatch of `Operation.infer_shape`. -/
def opInferShape : OpKind → List (List Nat) → Option (List Nat)
  | .add, l => addInferShape l
  | .matmul, l => matmulInferShape l
  | .transpose d0 d1, l => transposeInferShape d0 d1 l
  | .unsqueeze d, l => unsqueezeInferShape d l

/-- `Node.kind`: exactly one of Data or Operation.  A `Data` carries
its category tag, its (optional) tensor value and the shape derived
*once* at construction (`Data.__init__`); `Graph.forward` later
replaces the value without touching this stored shape. -/
inductive Kind where
  | data (ty : DataType) (value : Option Tensor) (dshape : Option (List Nat))
  | op (o : OpKind)
  deriving DecidableEq, Repr

/-- `Data.__init__`: the stored shape is derived from the value. -/
def mkData (ty : DataType) (v : Option Tensor) : Kind :=
  .data ty v (v.map Tensor.shape)

structure NodeData where
  name : String
  kind : Kind
  inputs : List Nat := []
  outputs : List Nat := []
  tensor : Option Tensor := none
  shape : Option (List Nat) := none
  deriving DecidableEq, Repr

instance : Inhabited NodeData := ⟨⟨"", .op .add, [], [], none, none⟩⟩

abbrev Store := Nat → NodeData

/-- `name.split('_')` over the character list (kernel-reducible
reimplementation of string splitting; `''.split('_') == ['']`). -/
def splitUnderscore : List Char → List (List Char)
  | [] => [[]]
  | c :: rest =>
    let r := splitUnderscore rest
    if c = '_' then [] :: r
    else
      match r with
      | [] => [[c]]
      | h :: t => (c :: h) :: t

/-- `'_'.join(parts)`. -/
def joinUnderscore : List (List Char) → List Char
  | [] => []
  | [x] => x
  | x :: rest => x ++ '_' :: joinUnderscore rest

def digitOfChar (c : Char) : Option Nat :=
  if 48 ≤ c.toNat ∧ c.toNat ≤ 57 then some (c.toNat - 48) else none

def parseNatChars : List Char → Option Nat
  | [] => none
  | cs => cs.foldl
      (fun acc c => acc.bind fun n => (digitOfChar c).map fun d => n * 10 + d)
      (some 0)

/-- Python `int(s)` on a possibly-negative decimal string. -/
def parseIntChars : List Char → Option Int
  | '-' :: rest => (parseNatChars rest).map fun n => -(n : Int)
  | cs => (parseNatChars cs).map fun n => (n : Int)

def natToCharsAux : Nat → Nat → List Char
  | 0, _ => []
  | fuel+1, n =>
    if n = 0 then [] else natToCharsAux fuel (n / 10) ++ [Char.ofNat (48 + n % 10)]

/-- Decimal rendering of an integer (as Python's f-string does). -/
def intToChars (i : Int) : List Char :=
  match i with
  | .ofNat 0 => ['0']
  | .ofNat n => natToCharsAux n n
  | .negSucc m => '-' :: natToCharsAux (m + 1) (m + 1)

/-- `Node.__init__`'s id: the numeric suffix of the name, `-1` when
the name has no underscore.  (Python's `int(...)` raises on a
non-numeric suffix; that construction-time error is modelled as `0`
and never arises on the names the passes generate.) -/
def derivedId (name : String) : Int :=
  let parts := splitUnderscore name.data
  if parts.length ≤ 1 then -1 else (parseIntChars (parts.getLastD [])).getD 0

/-- `name.rsplit('_', 1)[0]`: the base name used as the index key. -/
def baseName (name : String) : String :=
  let parts := splitUnderscore name.data
  if parts.length ≤ 1 then name else ⟨joinUnderscore parts.dropLast⟩

def updStore (s : Store) (i : Nat) (d : NodeData) : Store :=
  fun j => if j = i then d else s j

def setOutputsS (s : Store) (i : Nat) (l : List Nat) : Store :=
  updStore s i { s i with outputs := l }

def setInputsS (s : Store) (i : Nat) (l : List Nat) : Store :=
  updStore s i { s i with inputs := l }

def setTensorS (s : Store) (i : Nat) (t : Option Tensor) : Store :=
  updStore s i { s i with tensor := t }

def setShapeS (s : Store) (i : Nat) (sh : Option (List Nat)) : Store :=
  updStore s i { s i with shape := sh }

/-- `Graph.connect`: append `j` to `i.outputs` and `i` to `j.inputs`. -/
def connectS (s : Store) (i j : Nat) : Store :=
  let s1 := setOutputsS s i ((s i).outputs ++ [j])
  setInputsS s1 j ((s1 j).inputs ++ [i])

structure Graph where
  store : Store
  nodes : List Nat
  index : List (String × List Nat)
  inputNodes : List Nat
  outputNodes : List Nat
  fresh : Nat

/-- `nodes_by_name` lookup (an insertion-ordered dict, embedded as an
association list without duplicate keys). -/
def idxFind : List (String × List Nat) → String → Option (List Nat)
  | [], _ => none
  | (k, l) :: rest, b => if k = b then some l else idxFind rest b

/-- The index update of `Graph.add_node`: append to the key's list,
creating the key at the end when absent. -/
def idxInsert : List (String × List Nat) → String → Nat → List (String × List Nat)
  | [], b, i => [(b, [i])]
  | (k, l) :: rest, b, i =>
    if k = b then (k, l ++ [i]) :: rest else (k, l) :: idxInsert rest b i

/-- The passes' index removal: remove one occurrence of `i` from key
`b`'s list and delete the key when the list empties.  (Python removes
with `list.remove`, which raises when the element is absent; the
erase-based embedding agrees with it whenever the element is present,
which the well-formedness invariant below guarantees.) -/
def idxErase : List (String × List Nat) → String → Nat → List (String × List Nat)
  | [], _, _ => []
  | (k, l) :: rest, b, i =>
    if k = b then
      (let l' := l.erase i; if l' = [] then rest else (k, l') :: rest)
    else (k, l) :: idxErase rest b i

/-- `Graph.add_node`: append to `nodes` and to the base-name index
(never deduplicates). -/
def Graph.addNode (g : Graph) (i : Nat) (nd : NodeData) : Graph :=
  { g with store := updStore g.store i nd,
           nodes := g.nodes ++ [i],
           index := idxInsert g.index (baseName nd.name) i }

def Graph.connectG (g : Graph) (i j : Nat) : Graph :=
  { g with store := connectS g.store i j }

/-! ### Memoizing getters (`Node.get_shape`, `Node.get_tensor`)

`get_shape` recurses through the inputs, memoizing each computed shape
in the node; it is embedded with explicit fuel (Python's unbounded
recursion diverges on cyclic graphs; the fuel the passes supply covers
every acyclic graph whose ids are below `fresh`).  `get_tensor` is
called by the passes only on Data nodes (always behind an
`isinstance(..., Data)` check), so only that branch is embedded as the
memoizing `readDataTensor`. -/

def getShape : Nat → Store → Nat → Option (Store × List Nat)
  | 0, _, _ => none
  | fuel+1, s, i =>
    match (s i).shape with
    | some sh => some (s, sh)
    | none =>
      match (s i).kind with
      | .data _ _ dsh =>
        match dsh with
        | none => none
        | some sh => some (setShapeS s i (some sh), sh)
      | .op o =>
        let r := (s i).inputs.foldl
          (fun acc j => acc.bind fun p =>
            (getShape fuel p.1 j).map fun q => (q.1, p.2 ++ [q.2]))
          (some (s, []))
        match r with
        | none => none
        | some (s', shs) =>
          match opInferShape o shs with
          | none => none
          | some sh => some (setShapeS s' i (some sh), sh)

/-- `get_tensor` on a Data node: return the memo if set, else memoize
and return `kind.value` (which may be `None`). -/
def readDataTensor (s : Store) (i : Nat) : Store × Option Tensor :=
  match (s i).tensor with
  | some t => (s, some t)
  | none =>
    match (s i).kind with
    | .data _ v _ => (setTensorS s i v, v)
    | .op _ => (s, none)

/-- `is_zero_tensor` (`add_zero.py`): Data + CONSTANT, then all
entries equal 0 (`False` on a missing value). -/
def isZeroTensorChk (s : Store) (i : Nat) : Store × Bool :=
  match (s i).kind with
  | .data .CONSTANT _ _ =>
    match readDataTensor s i with
    | (s', none) => (s', false)
    | (s', some t) => (s', allZero t)
  | _ => (s, false)

/-- `is_one_tensor` (`multiply_one.py`): Data + CONSTANT, then
rank 0: `item() == 1`; rank 1: all ones; rank 2: square and equal to
`torch.eye`; rank ≥ 3: all ones. -/
def isOneTensorChk (s : Store) (i : Nat) : Store × Bool :=
  match (s i).kind with
  | .data .CONSTANT _ _ =>
    match readDataTensor s i with
    | (s', none) => (s', false)
    | (s', some t) =>
      (s',
        if t.shape.length = 0 then decide (t.data = [1])
        else if t.shape.length = 1 then allOne t
        else if t.shape.length = 2 then
          decide (t.shape.getD 0 0 = t.shape.getD 1 0) &&
            decide (t = eyeTensor (t.shape.getD 0 0))
        else allOne t)
  | _ => (s, false)

def readTensors (s : Store) : List Nat → Store × Option (List Tensor)
  | [] => (s, some [])
  | j :: rest =>
    let p := readDataTensor s j
    let q := readTensors p.1 rest
    (q.1, match p.2, q.2 with
          | some t, some ts => some (t :: ts)
          | _, _ => none)

/-! ## The rewrite primitive shared by the passes

`consteval`, `sum_identity` and `matmul_identity` contain the same
(copy-pasted) redirect / node-removal / dead-input-removal sequences;
they are factored here exactly as the code performs them. -/

/-- One iteration of the redirect loop: for a consumer `c` of `n`,
`n.outputs.remove(c)`, `c.inputs.remove(n)`, `graph.connect(repl, c)`. -/
def redirectStep (n repl : Nat) (s : Store) (c : Nat) : Store :=
  let s1 := setOutputsS s n ((s n).outputs.erase c)
  let s2 := setInputsS s1 c ((s1 c).inputs.erase n)
  connectS s2 repl c

/-- The redirect loop over a snapshot (`outputs.copy()`) of `n`'s
consumers. -/
def redirectAll (n repl : Nat) (cs : List Nat) (s : Store) : Store :=
  cs.foldl (fun s' c => redirectStep n repl s' c) s

/-- Dead-producer elimination for a single non-kept input `r` of the
removed node `n`: take `n` out of `r.outputs`, and when no consumers
remain delete `r` from `nodes` and the base-name index. -/
def removeDeadInput (n : Nat) (g : Graph) (r : Nat) : Graph :=
  let s1 := setOutputsS g.store r ((g.store r).outputs.erase n)
  if (s1 r).outputs = [] then
    { g with store := s1,
             nodes := g.nodes.erase r,
             index := idxErase g.index (baseName (s1 r).name) r }
  else { g with store := s1 }

def removeDeadInputs (n : Nat) (g : Graph) (rs : List Nat) : Graph :=
  rs.foldl (removeDeadInput n) g

/-- The splice-out performed by `sum_identity` and `matmul_identity`
on a matched node `n` with kept input `keep` (the passes remove `n`
from the index under their operation's literal key). -/
def spliceOut (key : String) (g : Graph) (n keep : Nat) (rem : List Nat) :
    Graph :=
  let wasOutput := n ∈ g.outputNodes
  let s1 := redirectAll n keep ((g.store n).outputs) g.store
  let outs1 :=
    if wasOutput ∧ keep ∉ g.outputNodes then g.outputNodes ++ [keep]
    else g.outputNodes
  let outs2 := if n ∈ outs1 then outs1.erase n else outs1
  let g1 : Graph :=
    { g with store := s1, outputNodes := outs2,
             nodes := g.nodes.erase n,
             index := idxErase g.index key n }
  removeDeadInputs n g1 rem

/-! ## The four optimization passes

Each pass is a fixed-point loop: scan for the first matching
candidate, rewrite, restart the scan; stop at a full scan with no
rewrite.  A scan result carries the possibly memo-updated graph and,
for a rewrite, the matched node, the kept replacement and the non-kept
inputs (ghost information used by the theorems; the loop discards it).
`.err` stands for a raised exception aborting the pass. -/

inductive ScanRes where
  | err : ScanRes
  | fix (g : Graph) : ScanRes
  | rew (g : Graph) (n keep : Nat) (removed : List Nat) : ScanRes

/-- Recursion fuel for `get_shape` during a scan: on the acyclic
graphs the pipeline produces (all ids below `fresh`), the recursion
depth never exceeds `fresh`. -/
def gsFuel (g : Graph) : Nat := g.fresh + 1

/-- One scan of `sum_identity` over the snapshot of
`nodes_by_name['add']`. -/
def sumScanAux (g : Graph) : List Nat → ScanRes
  | [] => .fix g
  | c :: rest =>
    match (g.store c).inputs with
    | [p, q] =>
      let r1 := isZeroTensorChk g.store p
      let r2 := isZeroTensorChk r1.1 q
      let g' : Graph := { g with store := r2.1 }
      if r1.2 || r2.2 then
        let keep := if !r1.2 then p else if !r2.2 then q else p
        let rem := [p, q].filter (· ≠ keep)
        .rew (spliceOut "add" g' c keep rem) c keep rem
      else sumScanAux g' rest
    | _ => sumScanAux g rest

def sumScan (g : Graph) : ScanRes :=
  match idxFind g.index "add" with
  | none => .fix g
  | some l => sumScanAux g l

/-- One scan of `matmul_identity` over the snapshot of
`nodes_by_name['matmul']`.  When both inputs are identities the first
is kept only if its shape equals the matmul's own inferred shape. -/
def matmulScanAux (g : Graph) : List Nat → ScanRes
  | [] => .fix g
  | c :: rest =>
    match (g.store c).inputs with
    | [p, q] =>
      let r1 := isOneTensorChk g.store p
      let r2 := isOneTensorChk r1.1 q
      if r1.2 || r2.2 then
        if !r1.2 || !r2.2 then
          let keep := if !r1.2 then p else q
          let rem := [p, q].filter (· ≠ keep)
          .rew (spliceOut "matmul" { g with store := r2.1 } c keep rem) c keep rem
        else
          match getShape (gsFuel g) r2.1 p with
          | none => .err
          | some (s3, shK) =>
            match getShape (gsFuel g) s3 c with
            | none => .err
            | some (s4, shN) =>
              if shK ≠ shN then matmulScanAux { g with store := s4 } rest
              else
                let rem := [p, q].filter (· ≠ p)
                .rew (spliceOut "matmul" { g with store := s4 } c p rem) c p rem
      else matmulScanAux { g with store := r2.1 } rest
    | _ => matmulScanAux g rest

def matmulScan (g : Graph) : ScanRes :=
  match idxFind g.index "matmul" with
  | none => .fix g
  | some l => matmulScanAux g l

def isConstData : Kind → Bool
  | .data .CONSTANT _ _ => true
  | _ => false

def isOpKind : Kind → Bool
  | .op _ => true
  | _ => false

/-- The rewrite of `consteval` on an all-constant operation `n` whose
compile-time result is `result`: add a freshly named constant node,
transfer output status, redirect consumers, remove `n`, then delete
the now-orphaned constant inputs. -/
def constevalRewrite (g : Graph) (n : Nat) (result : Tensor) : Graph :=
  let nm := (g.store n).name
  let cname : String :=
    ⟨(splitUnderscore nm.data).headD [] ++
      "_const_".data ++ intToChars (derivedId nm)⟩
  let cid := g.fresh
  let g1 := g.addNode cid ⟨cname, mkData .CONSTANT (some result), [], [], none, none⟩
  let wasOutput := n ∈ g1.outputNodes
  let outs1 :=
    if wasOutput then
      (let o1 := g1.outputNodes.erase n
       if cid ∈ o1 then o1 else o1 ++ [cid])
    else g1.outputNodes
  let s2 := redirectAll n cid ((g1.store n).outputs) g1.store
  let g2 : Graph :=
    { g1 with store := s2, outputNodes := outs1,
              nodes := g1.nodes.erase n,
              index := idxErase g1.index (baseName nm) n,
              fresh := g.fresh + 1 }
  removeDeadInputs n g2 ((s2 n).inputs)

/-- One scan of `consteval` over the snapshot of `graph.nodes`. -/
def constevalScanAux (g : Graph) : List Nat → ScanRes
  | [] => .fix g
  | c :: rest =>
    match (g.store c).kind with
    | .data _ _ _ => constevalScanAux g rest
    | .op o =>
      let ins := (g.store c).inputs
      if ins ≠ [] ∧ ins.all (fun j => isConstData (g.store j).kind) then
        match readTensors g.store ins with
        | (s', some ts) =>
          match opForward o ts with
          | none => .err
          | some result =>
            .rew (constevalRewrite { g with store := s' } c result) c g.fresh ins
        | (_, none) => .err
      else constevalScanAux g rest

def constevalScan (g : Graph) : ScanRes := constevalScanAux g g.nodes

/-- The rewrite of `transpose_cancelation` on a matched pair: `t1` is
the inner transpose (sole consumer `t2`), `orig` is `t1`'s input;
`orig` takes over `t2`'s consumers and output status, and both
transposes are deleted. -/
def transposeRewrite (g : Graph) (t1 t2 orig : Nat) : Graph :=
  let wasOutput := t2 ∈ g.outputNodes
  let s1 := redirectAll t2 orig ((g.store t2).outputs) g.store
  let s2 := setOutputsS s1 orig ((s1 orig).outputs.erase t1)
  let outs1 :=
    if wasOutput ∧ orig ∉ g.outputNodes then g.outputNodes ++ [orig]
    else g.outputNodes
  let outs2 := (outs1.erase t1).erase t2
  { g with store := s2,
           nodes := (g.nodes.erase t1).erase t2,
           index := idxErase (idxErase g.index "transpose" t1) "transpose" t2,
           outputNodes := outs2 }

/-- Inner loop of a `transpose_cancelation` scan: walk the inputs of
candidate `t2` looking for an inner transpose; `.inr` resumes the
outer loop with the memo-updated graph. -/
def transposeInnerAux (g : Graph) (t2 : Nat) : List Nat → Sum ScanRes Graph
  | [] => .inr g
  | t1 :: rest =>
    if t1 ∈ (idxFind g.index "transpose").getD [] then
      if (g.store t1).outputs = [t2] then
        match (g.store t1).inputs with
        | [] => .inl .err
        | orig :: _ =>
          match getShape (gsFuel g) g.store orig with
          | none => .inl .err
          | some (s1, shO) =>
            match getShape (gsFuel g) s1 t2 with
            | none => .inl .err
            | some (s2, shF) =>
              if shO = shF then
                .inl (.rew (transposeRewrite { g with store := s2 } t1 t2 orig)
                  t2 orig [t1])
              else transposeInnerAux { g with store := s2 } t2 rest
      else transposeInnerAux g t2 rest
    else transposeInnerAux g t2 rest

def transposeScanAux (g : Graph) : List Nat → ScanRes
  | [] => .fix g
  | t2 :: rest =>
    match transposeInnerAux g t2 ((g.store t2).inputs) with
    | .inl r => r
    | .inr g' => transposeScanAux g' rest

def transposeScan (g : Graph) : ScanRes :=
  match idxFind g.index "transpose" with
  | none => .fix g
  | some l => transposeScanAux g l

/-- The fixed-point loop shared by the passes.  `none` models an
exception escaping the pass (or, for ill-formed graphs only, fuel
exhaustion; the termination theorem shows the supplied fuel always
suffices). -/
def passLoop (scan : Graph → ScanRes) : Nat → Graph → Option Graph
  | 0, _ => none
  | fuel+1, g =>
    match scan g with
    | .err => none
    | .fix g' => some g'
    | .rew g' _ _ _ => passLoop scan fuel g'

/-- Number of entries under key `b` in the index (the candidate count
of a keyed pass, and its termination measure). -/
def idxCount (g : Graph) (b : String) : Nat := ((idxFind g.index b).getD []).length

/-- Number of operation nodes in `nodes` (`consteval`'s measure). -/
def opCount (g : Graph) : Nat :=
  (g.nodes.filter (fun i => isOpKind (g.store i).kind)).length

def consteval (g : Graph) : Option Graph :=
  passLoop constevalScan (opCount g + 1) g

def sum_identity (g : Graph) : Option Graph :=
  passLoop sumScan (idxCount g "add" + 1) g

def matmul_identity (g : Graph) : Option Graph :=
  passLoop matmulScan (idxCount g "matmul" + 1) g

def transpose_cancelation (g : Graph) : Option Graph :=
  passLoop transposeScan (idxCount g "transpose" + 1) g

/-- The pipeline of `xand.compile.optimize`. -/
def optimize (g : Graph) : Option Graph := do
  let g1 ← consteval g
  let g2 ← sum_identity g1
  let g3 ← matmul_identity g2
  transpose_cancelation g3

/-! ## Evaluation engine (`Graph.forward`) and compiled artifact

Within one `forward` call all live memoized tensors are cleared first,
so the memoizing `get_tensor` computes exactly the pure recursive
evaluation embedded here (`evalNode`); the breadth-first forcing loop
only determines *which* nodes must evaluate successfully.  A `none`
tensor result stands both for an exception and for a `None` value
reaching an operation; `load_config` rejects Data nodes without
values, so the two never differ on constructible graphs. -/

def evalNode : Nat → Store → Nat → Option Tensor
  | 0, _, _ => none
  | fuel+1, s, i =>
    match (s i).tensor with
    | some t => some t
    | none =>
      match (s i).kind with
      | .data _ v _ => v
      | .op o =>
        let r := (s i).inputs.foldl
          (fun acc j => acc.bind fun ts => (evalNode fuel s j).map (ts ++ [·]))
          (some [])
        r.bind (opForward o)

/-- `clear_tensors`: reset the memo of every node in `nodes` (dead
nodes keep theirs, as in Python). -/
def clearTensorsG (g : Graph) : Graph :=
  { g with store := g.nodes.foldl (fun s i => setTensorS s i none) g.store }

/-- The input-setting loop of `forward`: for each supplied name, find
the input node with that name (error when unknown), check it is a Data
node (error otherwise) and overwrite `kind.value` — leaving the
construction-time `kind.shape` untouched. -/
def setInputVals (s : Store) (inputIds : List Nat) :
    List (String × Tensor) → Option Store
  | [] => some s
  | (name, t) :: rest =>
    match inputIds.find? (fun i => (s i).name = name) with
    | none => none
    | some i =>
      match (s i).kind with
      | .data ty _ dsh =>
        setInputVals (updStore s i { s i with kind := .data ty (some t) dsh })
          inputIds rest
      | .op _ => none

/-- Breadth-first closure along output edges with a duplicate-skip
set, as in both traversals of `graph.py`. -/
def bfsClosure (s : Store) : Nat → List Nat → List Nat → List Nat
  | 0, _, acc => acc
  | _+1, [], acc => acc
  | fuel+1, i :: rest, acc =>
    if i ∈ acc then bfsClosure s fuel rest acc
    else bfsClosure s fuel (rest ++ (s i).outputs) (acc ++ [i])

/-- Fuel that drains the BFS queue whenever every encountered id is
below `fresh`: one pop per queued element, and each id enqueues its
consumers at most once. -/
def bfsFuel (g : Graph) : Nat :=
  g.inputNodes.length +
    (List.range g.fresh).foldl (fun a i => a + (g.store i).outputs.length) 0 + 1

/-- `Graph.forward`: clear memos; raise on an empty input mapping; set
the supplied input values; force every node reachable from the inputs;
collect the declared outputs (in `output_nodes` order — Python keys
the result dict by node name, which is a bijection on graphs with
distinct output names). -/
def forwardPass (g : Graph) (inputs : List (String × Tensor)) :
    Option (List Tensor) :=
  let g1 := clearTensorsG g
  match inputs with
  | [] => none
  | _ =>
    match setInputVals g1.store g.inputNodes inputs with
    | none => none
    | some s =>
      let visited := bfsClosure s (bfsFuel g) g.inputNodes []
      if visited.all (fun i => (evalNode (gsFuel g) s i).isSome) then
        g.outputNodes.foldr
          (fun i acc => acc.bind fun ts => (evalNode (gsFuel g) s i).map (· :: ts))
          (some [])
      else none

/-- `XandModule.__call__`: arity check against the declared inputs,
then `forward` on the name-keyed dictionary. -/
def xandCall (g : Graph) (args : List Tensor) : Option (List Tensor) :=
  if args.length ≠ g.inputNodes.length then none
  else forwardPass g (List.zip (g.inputNodes.map fun i => (g.store i).name) args)

/-! ## Shape inference over the graph (`Graph.infer_shapes`) -/

/-- The BFS of `infer_shapes`: force each popped node's shape, mark it
and its direct inputs processed, enqueue its consumers.  Returns the
memo-updated store and the processed list (in first-processed order;
Python collects a `set`, whose iteration order is implementation
defined — no theorem below depends on the order). -/
def inferShapesBfs (gf : Nat) (s : Store) :
    Nat → List Nat → List Nat → Option (Store × List Nat)
  | 0, _, _ => none
  | _+1, [], processed => some (s, processed)
  | fuel+1, i :: rest, processed =>
    if i ∈ processed then inferShapesBfs gf s fuel rest processed
    else
      match getShape gf s i with
      | none => none
      | some (s', _) =>
        let p1 := processed ++ [i]
        let p2 := (s' i).inputs.foldl
          (fun acc j => if j ∈ acc then acc else acc ++ [j]) p1
        inferShapesBfs gf s' fuel (rest ++ (s' i).outputs) p2

/-- `Graph.infer_shapes`: clear all live shape memos, run the BFS from
the declared inputs, replace `nodes` with the processed set and
rebuild the base-name index from it. -/
def inferShapes (g : Graph) : Option Graph :=
  let s0 := g.nodes.foldl (fun s i => setShapeS s i none) g.store
  match inferShapesBfs (gsFuel g) s0 (bfsFuel g) g.inputNodes [] with
  | none => none
  | some (s', processed) =>
    some { g with store := s',
                  nodes := processed,
                  index := processed.foldl
                    (fun idx i => idxInsert idx (baseName (s' i).name) i) [] }

/-! ## Run helpers and concrete graphs -/

/-- Deterministic unwrapping of a pass result on graphs where the
pass is known to complete (used to state concrete-graph facts without
quantifying over the result). -/
def runPass (f : Graph → Option Graph) (g : Graph) : Graph := (f g).getD g

/-- Forward reachability from the declared inputs along output edges
(the node set `infer_shapes`' queue ever pops). -/
def reachSet (g : Graph) : List Nat :=
  bfsClosure g.store (bfsFuel g) g.inputNodes []

/-- Build a concrete arena from an id/node list. -/
def storeOfList (l : List (Nat × NodeData)) : Store :=
  fun i => (((l.find? (fun p => p.1 = i)).map (fun p => p.2))).getD default

/-- `input → matmul ← all-ones vector` with the matmul as declared
output: the C1 counterexample graph. -/
def cexG : Graph :=
  { store := storeOfList [
      (0, ⟨"input_0", mkData .INPUT (some ⟨[2], [2, 3]⟩), [], [2], none, none⟩),
      (1, ⟨"one_1", mkData .CONSTANT (some ⟨[2], [1, 1]⟩), [], [2], none, none⟩),
      (2, ⟨"matmul_2", .op .matmul, [0, 1], [], none, none⟩)],
    nodes := [0, 1, 2],
    index := [("input", [0]), ("one", [1]), ("matmul", [2])],
    inputNodes := [0], outputNodes := [2], fresh := 3 }

/-- `input → add ← zero constant` (spec §8 scenario 1). -/
def sumG : Graph :=
  { store := storeOfList [
      (0, ⟨"input_0", mkData .INPUT (some ⟨[2], [0, 0]⟩), [], [2], none, none⟩),
      (1, ⟨"zero_1", mkData .CONSTANT (some ⟨[2], [0, 0]⟩), [], [2], none, none⟩),
      (2, ⟨"add_2", .op .add, [0, 1], [], none, none⟩)],
    nodes := [0, 1, 2],
    index := [("input", [0]), ("zero", [1]), ("add", [2])],
    inputNodes := [0], outputNodes := [2], fresh := 3 }

/-- `input → matmul ← 2×2 identity` (spec §8 scenario 2). -/
def matG : Graph :=
  { store := storeOfList [
      (0, ⟨"input_0", mkData .INPUT (some ⟨[2, 2], [0, 0, 0, 0]⟩), [], [2], none, none⟩),
      (1, ⟨"eye_1", mkData .CONSTANT (some (eyeTensor 2)), [], [2], none, none⟩),
      (2, ⟨"matmul_2", .op .matmul, [0, 1], [], none, none⟩)],
    nodes := [0, 1, 2],
    index := [("input", [0]), ("eye", [1]), ("matmul", [2])],
    inputNodes := [0], outputNodes := [2], fresh := 3 }

/-- `input → transpose(0,1) → transpose(0,1)` on a 3×3 input (spec §8
scenario 3). -/
def trG : Graph :=
  { store := storeOfList [
      (0, ⟨"input_0", mkData .INPUT (some ⟨[3, 3], List.replicate 9 0⟩), [], [1], none, none⟩),
      (1, ⟨"transpose_1", .op (.transpose 0 1), [0], [2], none, none⟩),
      (2, ⟨"transpose_2", .op (.transpose 0 1), [1], [], none, none⟩)],
    nodes := [0, 1, 2],
    index := [("input", [0]), ("transpose", [1, 2])],
    inputNodes := [0], outputNodes := [2], fresh := 3 }

/-- `input → add ← (const + const)` — the inner add folds under
`consteval` (spec §8 scenario 4, plus a live input so the graph can be
evaluated). -/
def ceG : Graph :=
  { store := storeOfList [
      (0, ⟨"input_0", mkData .INPUT (some ⟨[2], [0, 0]⟩), [], [4], none, none⟩),
      (1, ⟨"c_1", mkData .CONSTANT (some ⟨[2], [1, 1]⟩), [], [3], none, none⟩),
      (2, ⟨"c_2", mkData .CONSTANT (some ⟨[2], [2, 2]⟩), [], [3], none, none⟩),
      (3, ⟨"add_3", .op .add, [1, 2], [4], none, none⟩),
      (4, ⟨"add_4", .op .add, [0, 3], [], none, none⟩)],
    nodes := [0, 1, 2, 3, 4],
    index := [("input", [0]), ("c", [1, 2]), ("add", [3, 4])],
    inputNodes := [0], outputNodes := [4], fresh := 5 }

/-- `input → add ← non-zero constant`: `sum_identity` finds no
candidate, and the constant stays unreachable from the inputs (the C2
counterexample graph). -/
def unrG : Graph :=
  { store := storeOfList [
      (0, ⟨"input_0", mkData .INPUT (some ⟨[2], [0, 0]⟩), [], [2], none, none⟩),
      (1, ⟨"c_1", mkData .CONSTANT (some ⟨[2], [5, 5]⟩), [], [2], none, none⟩),
      (2, ⟨"add_2", .op .add, [0, 1], [], none, none⟩)],
    nodes := [0, 1, 2],
    index := [("input", [0]), ("c", [1]), ("add", [2])],
    inputNodes := [0], outputNodes := [2], fresh := 3 }

/-- A graph with no declared inputs whose single output is a computable
constant (for C10). -/
def constG : Graph :=
  { store := storeOfList [(0, ⟨"c_0", mkData .CONSTANT (some ⟨[2], [1, 2]⟩), [], [], none, none⟩)],
    nodes := [0],
    index := [("c", [0])],
    inputNodes := [], outputNodes := [0], fresh := 1 }

/-! ## C4, C5, C6: shape-inference rules vs. the executor -/

/-- C4: `Add.infer_shape` checks only that the two input shapes have
equal *rank*, so it accepts the mismatched shapes `[1,3]` and `[3,1]`
and returns `[1,3]` — while the executed add broadcasts to shape
`[3,3]`, contradicting the claim, the code's own assertion message
("Add requires inputs of the same shape") and the spec's
shape/value-consistency property. -/
theorem C4_add_accepts_mismatched_shapes :
    addInferShape [[1, 3], [3, 1]] = some [1, 3] ∧
    (tensorAdd ⟨[1, 3], [1, 2, 3]⟩ ⟨[3, 1], [10, 20, 30]⟩).map Tensor.shape =
      some [3, 3] := by
  decide

/-- C5: `Transpose.infer_shape` validates only the upper bound after
normalization, so the axis `-5` on a rank-3 shape wraps around via
Python negative indexing and the call succeeds with the axes swapped —
while `torch.transpose` (the node's own `forward`) rejects `-5`
outright. -/
theorem C5_transpose_accepts_out_of_bounds_axis :
    transposeInferShape (-5) 0 [[2, 3, 4]] = some [3, 2, 4] ∧
    tensorTranspose ⟨[2, 3, 4], List.replicate 24 0⟩ (-5) 0 = none := by
  decide

/-- C6: the cited batched instance `[4,1,3,2] × [2,5] → [4,1,3,5]`
holds, but with a rank-1 operand in the batched branch the inner-dim
check is skipped entirely (`[4,3,2] × [5]` succeeds as `[4,3,1]`
although `torch.matmul` rejects it) and the trailing axis is a literal
`1` instead of the executed shape (`[4,3,2] × [2]` executes to shape
`[4,3]`). -/
theorem C6_matmul_rank1_operand_unchecked :
    matmulInferShape [[4, 1, 3, 2], [2, 5]] = some [4, 1, 3, 5] ∧
    matmulInferShape [[4, 3, 2], [5]] = some [4, 3, 1] ∧
    tensorMatmul ⟨[4, 3, 2], List.replicate 24 1⟩ ⟨[5], List.replicate 5 1⟩ = none ∧
    (tensorMatmul ⟨[4, 3, 2], List.replicate 24 1⟩ ⟨[2], [1, 1]⟩).map Tensor.shape =
      some [4, 3] := by
  decide

/-! ## C1: semantic preservation -/

/-- Scenario-1 preservation: `add` with an equal-shape zero constant,
for every input tensor value. -/
theorem sumG_preserved (a b : Int) :
    forwardPass sumG [("input_0", ⟨[2], [a, b]⟩)] = some [⟨[2], [a, b]⟩] ∧
    forwardPass (runPass sum_identity sumG) [("input_0", ⟨[2], [a, b]⟩)] =
      some [⟨[2], [a, b]⟩] := by
  constructor
  · show some [Tensor.mk [2] [a + 0, b + 0]] = some [Tensor.mk [2] [a, b]]
    simp
  · rfl

/-- Scenario-2 preservation: `matmul` with the 2×2 identity, for every
input matrix. -/
theorem matG_preserved (a b c d : Int) :
    forwardPass matG [("input_0", ⟨[2, 2], [a, b, c, d]⟩)] =
      some [⟨[2, 2], [a, b, c, d]⟩] ∧
    forwardPass (runPass matmul_identity matG) [("input_0", ⟨[2, 2], [a, b, c, d]⟩)] =
      some [⟨[2, 2], [a, b, c, d]⟩] := by
  constructor
  · show some [Tensor.mk [2, 2]
      [0 + a * 1 + b * 0, 0 + a * 0 + b * 1,
       0 + c * 1 + d * 0, 0 + c * 0 + d * 1]] = some [Tensor.mk [2, 2] [a, b, c, d]]
    simp
  · rfl

/-- Scenario-3 preservation: a cancelling double transpose, for every
3×3 input. -/
theorem trG_preserved (x1 x2 x3 x4 x5 x6 x7 x8 x9 : Int) :
    forwardPass trG [("input_0", ⟨[3, 3], [x1, x2, x3, x4, x5, x6, x7, x8, x9]⟩)] =
      some [⟨[3, 3], [x1, x2, x3, x4, x5, x6, x7, x8, x9]⟩] ∧
    forwardPass (runPass transpose_cancelation trG)
        [("input_0", ⟨[3, 3], [x1, x2, x3, x4, x5, x6, x7, x8, x9]⟩)] =
      some [⟨[3, 3], [x1, x2, x3, x4, x5, x6, x7, x8, x9]⟩] := by
  exact ⟨rfl, rfl⟩

/-- Scenario-4 preservation: folding the all-constant inner add, for
every input tensor value. -/
theorem ceG_preserved (a b : Int) :
    forwardPass ceG [("input_0", ⟨[2], [a, b]⟩)] = some [⟨[2], [a + 3, b + 3]⟩] ∧
    forwardPass (runPass consteval ceG) [("input_0", ⟨[2], [a, b]⟩)] =
      some [⟨[2], [a + 3, b + 3]⟩] := by
  exact ⟨rfl, rfl⟩

/-- C1 (amended): the four passes preserve evaluation on rewrites
whose eliminated constant is a true identity — exhibited for every
input value on a representative graph per pass (each pass completing
on its graph) — but not in general (see the counterexample). -/
theorem C1_preservation_on_true_identity_rewrites :
    ((sum_identity sumG).isSome = true ∧
      ∀ a b : Int,
        forwardPass sumG [("input_0", ⟨[2], [a, b]⟩)] = some [⟨[2], [a, b]⟩] ∧
        forwardPass (runPass sum_identity sumG) [("input_0", ⟨[2], [a, b]⟩)] =
          some [⟨[2], [a, b]⟩]) ∧
    ((matmul_identity matG).isSome = true ∧
      ∀ a b c d : Int,
        forwardPass matG [("input_0", ⟨[2, 2], [a, b, c, d]⟩)] =
          some [⟨[2, 2], [a, b, c, d]⟩] ∧
        forwardPass (runPass matmul_identity matG)
            [("input_0", ⟨[2, 2], [a, b, c, d]⟩)] =
          some [⟨[2, 2], [a, b, c, d]⟩]) ∧
    ((transpose_cancelation trG).isSome = true ∧
      ∀ x1 x2 x3 x4 x5 x6 x7 x8 x9 : Int,
        forwardPass trG
            [("input_0", ⟨[3, 3], [x1, x2, x3, x4, x5, x6, x7, x8, x9]⟩)] =
          some [⟨[3, 3], [x1, x2, x3, x4, x5, x6, x7, x8, x9]⟩] ∧
        forwardPass (runPass transpose_cancelation trG)
            [("input_0", ⟨[3, 3], [x1, x2, x3, x4, x5, x6, x7, x8, x9]⟩)] =
          some [⟨[3, 3], [x1, x2, x3, x4, x5, x6, x7, x8, x9]⟩]) ∧
    ((consteval ceG).isSome = true ∧
      ∀ a b : Int,
        forwardPass ceG [("input_0", ⟨[2], [a, b]⟩)] =
          some [⟨[2], [a + 3, b + 3]⟩] ∧
        forwardPass (runPass consteval ceG) [("input_0", ⟨[2], [a, b]⟩)] =
          some [⟨[2], [a + 3, b + 3]⟩]) :=
  ⟨⟨by decide, sumG_preserved⟩, ⟨by decide, matG_preserved⟩,
   ⟨by decide, trG_preserved⟩, ⟨by decide, ceG_preserved⟩⟩

/-- C1 is false as stated: on `input → matmul ← all-ones vector`,
evaluation yields the dot product `[5]` (a scalar) before
`matmul_identity` and the kept vector `[2,3]` after it (and after the
full `optimize` pipeline) — numerically different outputs. -/
theorem C1_counterexample :
    forwardPass cexG [("input_0", ⟨[2], [2, 3]⟩)] = some [⟨[], [5]⟩] ∧
    (matmul_identity cexG).isSome = true ∧
    forwardPass (runPass matmul_identity cexG) [("input_0", ⟨[2], [2, 3]⟩)] =
      some [⟨[2], [2, 3]⟩] ∧
    (optimize cexG).isSome = true ∧
    forwardPass (runPass optimize cexG) [("input_0", ⟨[2], [2, 3]⟩)] =
      some [⟨[2], [2, 3]⟩] ∧
    (⟨[], [5]⟩ : Tensor) ≠ ⟨[2], [2, 3]⟩ := by
  decide

/-! ## C2: the dead-code claim -/

/-- C2 is false as stated: after `sum_identity` completes (with no
rewrite) on `input → add ← non-zero constant`, the constant node `1`
is in `graph.nodes` but is not reachable from any input node. -/
theorem C2_counterexample :
    (sum_identity unrG).isSome = true ∧
    1 ∈ (runPass sum_identity unrG).nodes ∧
    1 ∉ reachSet (runPass sum_identity unrG) := by
  decide

/-! ## C10: evaluation with an empty input mapping -/

/-- C10: `Graph.forward` raises on an empty input mapping regardless
of the graph, so calling a compiled module on a graph with zero
declared inputs always fails even though the arity check passes. -/
theorem C10_zero_input_call_always_fails :
    (∀ g : Graph, forwardPass g [] = none) ∧
    (∀ g : Graph, g.inputNodes = [] → xandCall g [] = none) := by
  refine ⟨fun g => rfl, fun g h => ?_⟩
  unfold xandCall
  rw [if_neg (by simp [h])]
  rw [List.zip_nil_right]
  rfl

/-- Witness for C10: a graph with no declared inputs whose declared
output is a computable constant, on which the arity-matching call
still fails. -/
theorem C10_witness :
    constG.inputNodes = [] ∧ xandCall constG [] = none ∧
    (evalNode (gsFuel constG) constG.store 0).isSome = true :=
  ⟨rfl, C10_zero_input_call_always_fails.2 constG rfl, by decide⟩

/-! ## Structural well-formedness

`WF g` captures the structural invariants the loader establishes and
the claims assume: `nodes` and the index lists are duplicate-free, the
index is exactly `nodes` grouped by base name (no empty buckets, no
dangling entries), edges are count-symmetric between live nodes, and
every id in play is below `fresh`. -/

structure WF (g : Graph) : Prop where
  nodesNodup : g.nodes.Nodup
  keysNodup : (g.index.map Prod.fst).Nodup
  listsNodup : ∀ e ∈ g.index, e.2.Nodup
  noEmpty : ∀ e ∈ g.index, e.2 ≠ []
  idxSound : ∀ e ∈ g.index, ∀ i ∈ e.2,
    i ∈ g.nodes ∧ baseName (g.store i).name = e.1
  idxComplete : ∀ i ∈ g.nodes,
    i ∈ (idxFind g.index (baseName (g.store i).name)).getD []
  symCount : ∀ a ∈ g.nodes, ∀ b ∈ g.nodes,
    (g.store a).outputs.count b = (g.store b).inputs.count a
  idBound : ∀ i ∈ g.nodes,
    i < g.fresh ∧ (∀ j ∈ (g.store i).outputs, j < g.fresh) ∧
      (∀ j ∈ (g.store i).inputs, j < g.fresh)

/-- The edge-symmetry statement of the spec, over the nodes of the
graph: `b ∈ a.outputs ⟺ a ∈ b.inputs`. -/
def EdgeSym (g : Graph) : Prop :=
  ∀ a ∈ g.nodes, ∀ b ∈ g.nodes,
    (b ∈ (g.store a).outputs ↔ a ∈ (g.store b).inputs)

/-- The index-exactness statement of the spec: the base-name index
holds exactly the nodes of `graph.nodes`, each under its own base
name. -/
def IdxExact (g : Graph) : Prop :=
  (∀ e ∈ g.index, ∀ i ∈ e.2, i ∈ g.nodes ∧ baseName (g.store i).name = e.1) ∧
  (∀ i ∈ g.nodes, i ∈ (idxFind g.index (baseName (g.store i).name)).getD [])

theorem WF.edgeSym {g : Graph} (h : WF g) : EdgeSym g := by
  intro a ha b hb
  have hc := h.symCount a ha b hb
  constructor
  · intro hmem
    have : 0 < (g.store a).outputs.count b := List.count_pos_iff.2 hmem
    exact List.count_pos_iff.1 (hc ▸ this)
  · intro hmem
    have : 0 < (g.store b).inputs.count a := List.count_pos_iff.2 hmem
    exact List.count_pos_iff.1 (hc.symm ▸ this)

theorem WF.idxExact {g : Graph} (h : WF g) : IdxExact g :=
  ⟨h.idxSound, h.idxComplete⟩

/-! ### Store helper lemmas -/

theorem updStore_self (s : Store) (i : Nat) (d : NodeData) :
    updStore s i d i = d := by
  simp [updStore]

theorem updStore_other (s : Store) (i : Nat) (d : NodeData) {j : Nat}
    (h : j ≠ i) : updStore s i d j = s j := by
  simp [updStore, h]

/-- Two stores that agree on all structural fields (everything but the
memoized tensor/shape). -/
def sameStruct (s t : Store) : Prop :=
  ∀ i, (t i).name = (s i).name ∧ (t i).kind = (s i).kind ∧
    (t i).inputs = (s i).inputs ∧ (t i).outputs = (s i).outputs

theorem sameStruct_refl (s : Store) : sameStruct s s := fun _ => ⟨rfl, rfl, rfl, rfl⟩

theorem sameStruct_trans {s t u : Store} (h1 : sameStruct s t)
    (h2 : sameStruct t u) : sameStruct s u := by
  intro i
  obtain ⟨a1, b1, c1, d1⟩ := h1 i
  obtain ⟨a2, b2, c2, d2⟩ := h2 i
  exact ⟨a2.trans a1, b2.trans b1, c2.trans c1, d2.trans d1⟩

theorem sameStruct_setTensor (s : Store) (i : Nat) (t : Option Tensor) :
    sameStruct s (setTensorS s i t) := by
  intro j
  by_cases h : j = i
  · subst h; simp [setTensorS, updStore_self]
  · simp [setTensorS, updStore_other _ _ _ h]

theorem sameStruct_setShape (s : Store) (i : Nat) (sh : Option (List Nat)) :
    sameStruct s (setShapeS s i sh) := by
  intro j
  by_cases h : j = i
  · subst h; simp [setShapeS, updStore_self]
  · simp [setShapeS, updStore_other _ _ _ h]

/-- `WF` only reads structural fields and the graph lists, so it
transfers across `sameStruct` stores. -/
theorem WF.transferStruct {g : Graph} (h : WF g) (t : Store)
    (hst : sameStruct g.store t) : WF { g with store := t } := by
  refine ⟨h.nodesNodup, h.keysNodup, h.listsNodup, h.noEmpty, ?_, ?_, ?_, ?_⟩
  · intro e he i hi
    have := h.idxSound e he i hi
    simpa [(hst i).1] using this
  · intro i hi
    have := h.idxComplete i hi
    simpa [(hst i).1] using this
  · intro a ha b hb
    have := h.symCount a ha b hb
    simpa [(hst a).2.2.2, (hst b).2.2.1] using this
  · intro i hi
    have := h.idBound i hi
    simpa [(hst i).2.2.1, (hst i).2.2.2] using this

/-! ### The memoizing getters only touch memo fields -/

theorem readDataTensor_struct (s : Store) (i : Nat) :
    sameStruct s (readDataTensor s i).1 := by
  unfold readDataTensor
  cases h : (s i).tensor with
  | some t => exact sameStruct_refl s
  | none =>
    cases hk : (s i).kind with
    | data ty v dsh => exact sameStruct_setTensor s i v
    | op o => exact sameStruct_refl s

theorem isZeroTensorChk_struct (s : Store) (i : Nat) :
    sameStruct s (isZeroTensorChk s i).1 := by
  unfold isZeroTensorChk
  cases hk : (s i).kind with
  | data ty v dsh =>
    cases ty <;> simp only []
    case CONSTANT =>
      have := readDataTensor_struct s i
      rcases hr : readDataTensor s i with ⟨s', t⟩
      cases t <;> simpa [hr] using this
    all_goals exact sameStruct_refl s
  | op o => exact sameStruct_refl s

theorem isOneTensorChk_struct (s : Store) (i : Nat) :
    sameStruct s (isOneTensorChk s i).1 := by
  unfold isOneTensorChk
  cases hk : (s i).kind with
  | data ty v dsh =>
    cases ty <;> simp only []
    case CONSTANT =>
      have := readDataTensor_struct s i
      rcases hr : readDataTensor s i with ⟨s', t⟩
      cases t <;> simpa [hr] using this
    all_goals exact sameStruct_refl s
  | op o => exact sameStruct_refl s

theorem readTensors_struct (s : Store) (l : List Nat) :
    sameStruct s (readTensors s l).1 := by
  induction l generalizing s with
  | nil => exact sameStruct_refl s
  | cons j rest ih =>
    have h1 := readDataTensor_struct s j
    have h2 := ih (readDataTensor s j).1
    exact sameStruct_trans h1 (by simpa [readTensors] using h2)

/-- The input-shape accumulator inside `get_shape`'s operation
branch. -/
def shapeFoldStep (fuel : Nat) (acc : Option (Store × List (List Nat)))
    (j : Nat) : Option (Store × List (List Nat)) :=
  acc.bind fun p => (getShape fuel p.1 j).map fun q => (q.1, p.2 ++ [q.2])

theorem shapeFold_none (fuel : Nat) (l : List Nat) :
    l.foldl (shapeFoldStep fuel) none = none := by
  induction l with
  | nil => rfl
  | cons x xs ih => simpa [shapeFoldStep] using ih

theorem getShape_struct (fuel : Nat) (s : Store) (i : Nat) :
    ∀ s' sh, getShape fuel s i = some (s', sh) → sameStruct s s' := by
  induction fuel generalizing s i with
  | zero => intro s' sh h; exact absurd h (by simp [getShape])
  | succ fuel ih =>
    intro s' sh h
    unfold getShape at h
    cases hm : (s i).shape with
    | some sh0 =>
      simp [hm] at h
      obtain ⟨h1, _⟩ := h
      exact h1 ▸ sameStruct_refl s
    | none =>
      simp only [hm] at h
      cases hk : (s i).kind with
      | data ty v dsh =>
        simp only [hk] at h
        cases dsh with
        | none => simp at h
        | some sh1 =>
          simp at h
          obtain ⟨h1, _⟩ := h
          exact h1 ▸ sameStruct_setShape s i (some sh1)
      | op o =>
        simp only [hk] at h
        have h2 : (match (s i).inputs.foldl (shapeFoldStep fuel) (some (s, [])) with
            | none => none
            | some (s', shs) =>
              match opInferShape o shs with
              | none => none
              | some sh => some (setShapeS s' i (some sh), sh)) = some (s', sh) := h
        clear h
        have hfold : ∀ (l : List Nat) (acc : Store × List (List Nat)),
            sameStruct s acc.1 →
            ∀ r, l.foldl (shapeFoldStep fuel) (some acc) = some r →
              sameStruct s r.1 := by
          intro l
          induction l with
          | nil => intro acc hacc r hr; simp at hr; exact hr ▸ hacc
          | cons j rest ihl =>
            intro acc hacc r hr
            simp only [List.foldl_cons] at hr
            cases hg : getShape fuel acc.1 j with
            | none =>
              rw [show shapeFoldStep fuel (some acc) j = none by
                  simp [shapeFoldStep, hg]] at hr
              rw [shapeFold_none] at hr
              exact absurd hr (by simp)
            | some q =>
              have hq := ih acc.1 j q.1 q.2 (by rw [hg])
              rw [show shapeFoldStep fuel (some acc) j =
                  some (q.1, acc.2 ++ [q.2]) by simp [shapeFoldStep, hg]] at hr
              exact ihl (q.1, acc.2 ++ [q.2]) (sameStruct_trans hacc hq) r hr
        cases hfr : (s i).inputs.foldl (shapeFoldStep fuel) (some (s, [])) with
        | none => simp [hfr] at h2
        | some p =>
          have hp := hfold (s i).inputs (s, []) (sameStruct_refl s) p hfr
          simp only [hfr] at h2
          cases hos : opInferShape o p.2 with
          | none => simp [hos] at h2
          | some sh1 =>
            simp [hos] at h2
            obtain ⟨h1, _⟩ := h2
            exact h1 ▸ sameStruct_trans hp (sameStruct_setShape p.1 i (some sh1))

/-! ### The redirect loop: edge accounting

`redirectStep n repl s c` erases the edge `(n, c)` on both sides and
appends the edge `(repl, c)` on both sides, so for every source
`a ≠ n` the difference between out-count and in-count of any pair
`(a, b)` is unchanged (stated additively to stay in `Nat`). -/

def sameNameKind (s t : Store) : Prop :=
  ∀ i, (t i).name = (s i).name ∧ (t i).kind = (s i).kind

theorem sameNameKind_refl (s : Store) : sameNameKind s s := fun _ => ⟨rfl, rfl⟩

theorem sameNameKind_trans {s t u : Store} (h1 : sameNameKind s t)
    (h2 : sameNameKind t u) : sameNameKind s u := fun i =>
  ⟨(h2 i).1.trans (h1 i).1, (h2 i).2.trans (h1 i).2⟩

theorem setOutputsS_nameKind (s : Store) (i : Nat) (l : List Nat) :
    sameNameKind s (setOutputsS s i l) := by
  intro j
  by_cases h : j = i
  · subst h; simp [setOutputsS, updStore_self]
  · simp [setOutputsS, updStore_other _ _ _ h]

theorem setInputsS_nameKind (s : Store) (i : Nat) (l : List Nat) :
    sameNameKind s (setInputsS s i l) := by
  intro j
  by_cases h : j = i
  · subst h; simp [setInputsS, updStore_self]
  · simp [setInputsS, updStore_other _ _ _ h]

theorem connectS_nameKind (s : Store) (i j : Nat) :
    sameNameKind s (connectS s i j) :=
  sameNameKind_trans (setOutputsS_nameKind _ _ _) (setInputsS_nameKind _ _ _)

theorem redirectStep_nameKind (n repl : Nat) (s : Store) (c : Nat) :
    sameNameKind s (redirectStep n repl s c) :=
  sameNameKind_trans (setOutputsS_nameKind _ _ _)
    (sameNameKind_trans (setInputsS_nameKind _ _ _) (connectS_nameKind _ _ _))

theorem setInputsS_outputs (s : Store) (i : Nat) (l : List Nat) (j : Nat) :
    ((setInputsS s i l) j).outputs = (s j).outputs := by
  by_cases h : j = i
  · subst h; simp [setInputsS, updStore_self]
  · simp [setInputsS, updStore_other _ _ _ h]

theorem setOutputsS_inputs (s : Store) (i : Nat) (l : List Nat) (j : Nat) :
    ((setOutputsS s i l) j).inputs = (s j).inputs := by
  by_cases h : j = i
  · subst h; simp [setOutputsS, updStore_self]
  · simp [setOutputsS, updStore_other _ _ _ h]

theorem setOutputsS_outputs (s : Store) (i : Nat) (l : List Nat) (j : Nat) :
    ((setOutputsS s i l) j).outputs = if j = i then l else (s j).outputs := by
  by_cases h : j = i
  · subst h; simp [setOutputsS, updStore_self]
  · simp [setOutputsS, updStore_other _ _ _ h, h]

theorem setInputsS_inputs (s : Store) (i : Nat) (l : List Nat) (j : Nat) :
    ((setInputsS s i l) j).inputs = if j = i then l else (s j).inputs := by
  by_cases h : j = i
  · subst h; simp [setInputsS, updStore_self]
  · simp [setInputsS, updStore_other _ _ _ h, h]

theorem redirectAll_nameKind (n repl : Nat) (cs : List Nat) (s : Store) :
    sameNameKind s (redirectAll n repl cs s) := by
  induction cs generalizing s with
  | nil => exact sameNameKind_refl s
  | cons c rest ih =>
    exact sameNameKind_trans (redirectStep_nameKind n repl s c)
      (by simpa [redirectAll] using ih (redirectStep n repl s c))

/-- Fields of the store after a redirect step, by case. -/
theorem redirectStep_outputs (n repl : Nat) (s : Store) (c a : Nat) :
    ((redirectStep n repl s c) a).outputs =
      (if a = repl then
        (if repl = n then (s n).outputs.erase c else (s repl).outputs) ++ [c]
       else if a = n then (s n).outputs.erase c
       else (s a).outputs) := by
  simp only [redirectStep, connectS, setInputsS_outputs, setOutputsS_outputs]

theorem redirectStep_inputs (n repl : Nat) (s : Store) (c b : Nat) :
    ((redirectStep n repl s c) b).inputs =
      (if b = c then (s c).inputs.erase n ++ [repl] else (s b).inputs) := by
  simp only [redirectStep, connectS, setInputsS_inputs, setOutputsS_inputs]
  by_cases hbc : b = c
  · simp [hbc]
  · simp [hbc]

theorem redirectStep_delta (n repl : Nat) (s : Store) (c a b : Nat)
    (ha : a ≠ n) :
    ((redirectStep n repl s c) a).outputs.count b + (s b).inputs.count a =
      (s a).outputs.count b + ((redirectStep n repl s c) b).inputs.count a := by
  rw [redirectStep_outputs, redirectStep_inputs]
  by_cases har : a = repl
  · subst har
    rw [if_pos rfl, if_neg ha]
    by_cases hbc : b = c
    · subst hbc
      rw [if_pos rfl, List.count_append, List.count_append,
        List.count_erase_of_ne ha]
      have h1 : List.count b [b] = 1 := by simp
      have h2 : List.count a [a] = 1 := by simp
      rw [h1, h2]
      omega
    · rw [if_neg hbc, List.count_append,
        List.count_eq_zero_of_not_mem (show b ∉ [c] by simp [hbc])]
      omega
  · rw [if_neg har, if_neg ha]
    by_cases hbc : b = c
    · subst hbc
      rw [if_pos rfl, List.count_append, List.count_erase_of_ne ha,
        List.count_eq_zero_of_not_mem (show a ∉ [repl] by simp [har])]
      omega
    · rw [if_neg hbc]

theorem redirectAll_delta (n repl : Nat) (cs : List Nat) (s : Store) (a b : Nat)
    (ha : a ≠ n) :
    ((redirectAll n repl cs s) a).outputs.count b + (s b).inputs.count a =
      (s a).outputs.count b + ((redirectAll n repl cs s) b).inputs.count a := by
  induction cs generalizing s with
  | nil => simp [redirectAll]
  | cons c rest ih =>
    have h1 := redirectStep_delta n repl s c a b ha
    have h2 := ih (redirectStep n repl s c)
    have hall : redirectAll n repl (c :: rest) s =
        redirectAll n repl rest (redirectStep n repl s c) := rfl
    rw [hall]
    omega

theorem redirectAll_out_sub (n repl : Nat) (cs : List Nat) (s : Store)
    (i j : Nat) (h : j ∈ ((redirectAll n repl cs s) i).outputs) :
    j ∈ (s i).outputs ∨ j ∈ cs := by
  induction cs generalizing s with
  | nil => exact Or.inl (by simpa [redirectAll] using h)
  | cons c rest ih =>
    have hall : redirectAll n repl (c :: rest) s =
        redirectAll n repl rest (redirectStep n repl s c) := rfl
    rw [hall] at h
    rcases ih (redirectStep n repl s c) h with h1 | h1
    · rw [redirectStep_outputs] at h1
      by_cases hir : i = repl
      · rw [if_pos hir] at h1
        rcases List.mem_append.1 h1 with h2 | h2
        · by_cases hrn : repl = n
          · rw [if_pos hrn] at h2
            refine Or.inl ?_
            rw [hir, hrn]
            exact List.mem_of_mem_erase h2
          · rw [if_neg hrn] at h2
            refine Or.inl ?_
            rw [hir]
            exact h2
        · simp at h2; subst h2; exact Or.inr (by simp)
      · rw [if_neg hir] at h1
        by_cases hin : i = n
        · rw [if_pos hin] at h1
          refine Or.inl ?_
          rw [hin]
          exact List.mem_of_mem_erase h1
        · rw [if_neg hin] at h1
          exact Or.inl h1
    · exact Or.inr (List.mem_cons_of_mem c h1)

theorem redirectAll_in_sub (n repl : Nat) (cs : List Nat) (s : Store)
    (i j : Nat) (h : j ∈ ((redirectAll n repl cs s) i).inputs) :
    j ∈ (s i).inputs ∨ j = repl := by
  induction cs generalizing s with
  | nil => exact Or.inl (by simpa [redirectAll] using h)
  | cons c rest ih =>
    have hall : redirectAll n repl (c :: rest) s =
        redirectAll n repl rest (redirectStep n repl s c) := rfl
    rw [hall] at h
    rcases ih (redirectStep n repl s c) h with h1 | h1
    · rw [redirectStep_inputs] at h1
      by_cases hic : i = c
      · rw [if_pos hic] at h1
        rcases List.mem_append.1 h1 with h2 | h2
        · refine Or.inl ?_
          rw [hic]
          exact List.mem_of_mem_erase h2
        · simp at h2; exact Or.inr h2
      · rw [if_neg hic] at h1
        exact Or.inl h1
    · exact Or.inr h1

/-! ### Index lemmas -/

theorem idxFind_insert_self (idx : List (String × List Nat)) (b : String)
    (i : Nat) :
    idxFind (idxInsert idx b i) b = some (((idxFind idx b).getD []) ++ [i]) := by
  induction idx with
  | nil => simp [idxInsert, idxFind]
  | cons e rest ih =>
    by_cases h : e.1 = b
    · simp [idxInsert, idxFind, h]
    · simp [idxInsert, idxFind, h, ih]

theorem idxFind_insert_other (idx : List (String × List Nat)) (b b' : String)
    (i : Nat) (h : b' ≠ b) :
    idxFind (idxInsert idx b i) b' = idxFind idx b' := by
  induction idx with
  | nil => simp [idxInsert, idxFind, Ne.symm h]
  | cons e rest ih =>
    by_cases he : e.1 = b
    · simp [idxInsert, idxFind, he, Ne.symm h]
    · by_cases he' : e.1 = b'
      · simp [idxInsert, idxFind, he, he', h]
      · simp [idxInsert, idxFind, he, he', ih]

theorem idxFind_eq_none_of_not_mem_keys (idx : List (String × List Nat))
    (b : String) (h : b ∉ idx.map Prod.fst) : idxFind idx b = none := by
  induction idx with
  | nil => rfl
  | cons e rest ih =>
    simp only [List.map_cons, List.mem_cons] at h
    push_neg at h
    rw [idxFind, if_neg (Ne.symm h.1)]
    exact ih h.2

theorem idxFind_erase_other (idx : List (String × List Nat)) (b b' : String)
    (i : Nat) (h : b' ≠ b) :
    idxFind (idxErase idx b i) b' = idxFind idx b' := by
  induction idx with
  | nil => simp [idxErase, idxFind]
  | cons e rest ih =>
    by_cases he : e.1 = b
    · rcases e with ⟨k, l⟩
      simp only at he
      subst he
      by_cases hl : l.erase i = []
      · simp [idxErase, idxFind, hl, Ne.symm h]
      · simp [idxErase, idxFind, hl, Ne.symm h]
    · rcases e with ⟨k, l⟩
      simp only at he
      by_cases he' : k = b'
      · simp [idxErase, idxFind, he, he', h]
      · simp [idxErase, idxFind, he, he', ih]

theorem idxFind_erase_self (idx : List (String × List Nat)) (b : String)
    (i : Nat) (hkeys : (idx.map Prod.fst).Nodup) :
    idxFind (idxErase idx b i) b =
      match idxFind idx b with
      | none => none
      | some l => if l.erase i = [] then none else some (l.erase i) := by
  induction idx with
  | nil => simp [idxErase, idxFind]
  | cons e rest ih =>
    rcases e with ⟨k, l⟩
    simp only [List.map_cons, List.nodup_cons] at hkeys
    by_cases he : k = b
    · subst he
      by_cases hl : l.erase i = []
      · have hap : idxErase ((k, l) :: rest) k i = rest := by
          simp [idxErase, hl]
        rw [hap, idxFind_eq_none_of_not_mem_keys rest k hkeys.1]
        have hfk : idxFind ((k, l) :: rest) k = some l := by simp [idxFind]
        rw [hfk]
        simp [hl]
      · have hap : idxErase ((k, l) :: rest) k i = (k, l.erase i) :: rest := by
          simp [idxErase, hl]
        have hfk : idxFind ((k, l) :: rest) k = some l := by simp [idxFind]
        rw [hap, hfk]
        simp [idxFind, hl]
    · have hap : idxErase ((k, l) :: rest) b i = (k, l) :: idxErase rest b i := by
        simp [idxErase, he]
      have hfk : idxFind ((k, l) :: rest) b = idxFind rest b := by
        simp [idxFind, he]
      rw [hap, hfk, idxFind, if_neg he]
      exact ih hkeys.2

theorem idxErase_keys_sublist (idx : List (String × List Nat)) (b : String)
    (i : Nat) :
    ((idxErase idx b i).map Prod.fst).Sublist (idx.map Prod.fst) := by
  induction idx with
  | nil => simp [idxErase]
  | cons e rest ih =>
    rcases e with ⟨k, l⟩
    by_cases he : k = b
    · subst he
      by_cases hl : l.erase i = []
      · simp only [idxErase, if_pos rfl, hl]
        exact (List.sublist_cons_self _ _)
      · simp [idxErase, hl]
    · simp only [idxErase, if_neg he, List.map_cons]
      exact ih.cons₂ k

theorem idxErase_mem (idx : List (String × List Nat)) (b : String) (i : Nat)
    (e : String × List Nat) (h : e ∈ idxErase idx b i) :
    e ∈ idx ∨ ∃ l, (b, l) ∈ idx ∧ e = (b, l.erase i) := by
  induction idx with
  | nil => simp [idxErase] at h
  | cons e0 rest ih =>
    rcases e0 with ⟨k, l⟩
    by_cases he : k = b
    · subst he
      by_cases hl : l.erase i = []
      · simp only [idxErase, if_pos rfl, hl] at h
        exact Or.inl (List.mem_cons_of_mem _ h)
      · simp only [idxErase, if_pos rfl, hl] at h
        rcases List.mem_cons.1 h with h1 | h1
        · exact Or.inr ⟨l, by simp, h1⟩
        · exact Or.inl (List.mem_cons_of_mem _ h1)
    · simp only [idxErase, if_neg he] at h
      rcases List.mem_cons.1 h with h1 | h1
      · exact Or.inl (h1 ▸ List.mem_cons_self _ _)
      · rcases ih h1 with h2 | ⟨l', hl', he'⟩
        · exact Or.inl (List.mem_cons_of_mem _ h2)
        · exact Or.inr ⟨l', List.mem_cons_of_mem _ hl', he'⟩

theorem idxInsert_keys (idx : List (String × List Nat)) (b : String) (i : Nat) :
    (idxInsert idx b i).map Prod.fst =
      if b ∈ idx.map Prod.fst then idx.map Prod.fst
      else idx.map Prod.fst ++ [b] := by
  induction idx with
  | nil => simp [idxInsert]
  | cons e rest ih =>
    rcases e with ⟨k, l⟩
    by_cases he : k = b
    · subst he
      simp [idxInsert]
    · simp only [idxInsert, if_neg he, List.map_cons, ih]
      by_cases hb : b ∈ rest.map Prod.fst
      · simp [hb, Ne.symm he]
      · simp [hb, Ne.symm he]

theorem idxInsert_mem (idx : List (String × List Nat)) (b : String) (i : Nat)
    (e : String × List Nat) (h : e ∈ idxInsert idx b i) :
    e ∈ idx ∨ e = (b, [i]) ∨ ∃ l, (b, l) ∈ idx ∧ e = (b, l ++ [i]) := by
  induction idx with
  | nil => simp [idxInsert] at h; exact Or.inr (Or.inl h)
  | cons e0 rest ih =>
    rcases e0 with ⟨k, l⟩
    by_cases he : k = b
    · subst he
      simp only [idxInsert, if_pos rfl] at h
      rcases List.mem_cons.1 h with h1 | h1
      · exact Or.inr (Or.inr ⟨l, by simp, h1⟩)
      · exact Or.inl (List.mem_cons_of_mem _ h1)
    · simp only [idxInsert, if_neg he] at h
      rcases List.mem_cons.1 h with h1 | h1
      · exact Or.inl (h1 ▸ List.mem_cons_self _ _)
      · rcases ih h1 with h2 | h2 | ⟨l', hl', he'⟩
        · exact Or.inl (List.mem_cons_of_mem _ h2)
        · exact Or.inr (Or.inl h2)
        · exact Or.inr (Or.inr ⟨l', List.mem_cons_of_mem _ hl', he'⟩)

/-- Entries of `idxErase` under duplicate-free keys: an untouched entry
of a different key, or the shortened (still nonempty) bucket of `b`. -/
theorem idxErase_mem' (idx : List (String × List Nat)) (b : String) (i : Nat)
    (hkeys : (idx.map Prod.fst).Nodup) (e : String × List Nat)
    (h : e ∈ idxErase idx b i) :
    (e ∈ idx ∧ e.1 ≠ b) ∨
      ∃ l, (b, l) ∈ idx ∧ e = (b, l.erase i) ∧ l.erase i ≠ [] := by
  induction idx with
  | nil => simp [idxErase] at h
  | cons e0 rest ih =>
    rcases e0 with ⟨k, l⟩
    simp only [List.map_cons, List.nodup_cons] at hkeys
    by_cases he : k = b
    · subst he
      by_cases hl : l.erase i = []
      · rw [show idxErase ((k, l) :: rest) k i = rest by simp [idxErase, hl]] at h
        refine Or.inl ⟨List.mem_cons_of_mem _ h, ?_⟩
        intro hc
        exact hkeys.1 (hc ▸ List.mem_map_of_mem Prod.fst h)
      · rw [show idxErase ((k, l) :: rest) k i = (k, l.erase i) :: rest by
          simp [idxErase, hl]] at h
        rcases List.mem_cons.1 h with h1 | h1
        · exact Or.inr ⟨l, by simp, h1, hl⟩
        · refine Or.inl ⟨List.mem_cons_of_mem _ h1, ?_⟩
          intro hc
          exact hkeys.1 (hc ▸ List.mem_map_of_mem Prod.fst h1)
    · rw [show idxErase ((k, l) :: rest) b i = (k, l) :: idxErase rest b i by
        simp [idxErase, he]] at h
      rcases List.mem_cons.1 h with h1 | h1
      · exact Or.inl ⟨h1 ▸ List.mem_cons_self _ _, by simp [h1, he]⟩
      · rcases ih hkeys.2 h1 with ⟨h2, h3⟩ | ⟨l', hl', he', hne⟩
        · exact Or.inl ⟨List.mem_cons_of_mem _ h2, h3⟩
        · exact Or.inr ⟨l', List.mem_cons_of_mem _ hl', he', hne⟩

/-! ### Generic WF-preservation lemmas -/

/-- A store change that keeps names and kinds, edge symmetry over the
live nodes, and the id bounds, keeps `WF`. -/
theorem WF_storeChange (g : Graph) (h : WF g) (s' : Store)
    (hnk : sameNameKind g.store s')
    (hsym : ∀ a ∈ g.nodes, ∀ b ∈ g.nodes,
      (s' a).outputs.count b = (s' b).inputs.count a)
    (hbound : ∀ i ∈ g.nodes, (∀ j ∈ (s' i).outputs, j < g.fresh) ∧
      ∀ j ∈ (s' i).inputs, j < g.fresh) :
    WF { g with store := s' } := by
  refine ⟨h.nodesNodup, h.keysNodup, h.listsNodup, h.noEmpty, ?_, ?_, ?_, ?_⟩
  · intro e he i hi
    have := h.idxSound e he i hi
    simpa [(hnk i).1] using this
  · intro i hi
    have := h.idxComplete i hi
    simpa [(hnk i).1] using this
  · exact hsym
  · intro i hi
    exact ⟨(h.idBound i hi).1, (hbound i hi).1, (hbound i hi).2⟩

/-- Removing a node from `nodes` and from the index under its own base
name keeps `WF` (whether or not the node was present). -/
theorem WF_removeNode (g : Graph) (h : WF g) (n : Nat) (key : String)
    (hkey : baseName (g.store n).name = key) :
    WF { g with nodes := g.nodes.erase n, index := idxErase g.index key n } := by
  have hne' : ∀ e ∈ idxErase g.index key n,
      (e ∈ g.index ∧ e.1 ≠ key) ∨
        ∃ l, (key, l) ∈ g.index ∧ e = (key, l.erase n) ∧ l.erase n ≠ [] :=
    fun e he => idxErase_mem' g.index key n h.keysNodup e he
  refine ⟨h.nodesNodup.erase n,
    ((idxErase_keys_sublist g.index key n).nodup h.keysNodup), ?_, ?_, ?_, ?_, ?_, ?_⟩
  · intro e he
    rcases hne' e he with ⟨h1, _⟩ | ⟨l, hl, he', _⟩
    · exact h.listsNodup e h1
    · rw [he']
      exact (h.listsNodup (key, l) hl).erase n
  · intro e he
    rcases hne' e he with ⟨h1, _⟩ | ⟨l, _, he', hne⟩
    · exact h.noEmpty e h1
    · rw [he']
      exact hne
  · intro e he i hi
    dsimp only at he hi ⊢
    rcases hne' e he with ⟨h1, h2⟩ | ⟨l, hl, he', _⟩
    · obtain ⟨hin, hbase⟩ := h.idxSound e h1 i hi
      refine ⟨(List.mem_erase_of_ne ?_).2 hin, hbase⟩
      intro hc
      exact h2 (by rw [← hbase, hc, hkey])
    · rw [he'] at hi
      simp only at hi
      have hin' := ((h.listsNodup (key, l) hl).mem_erase_iff).1 hi
      obtain ⟨hin, hbase⟩ := h.idxSound (key, l) hl i hin'.2
      exact ⟨(List.mem_erase_of_ne hin'.1).2 hin, by rw [he']; exact hbase⟩
  · intro i hi
    dsimp only at hi ⊢
    have hii := List.mem_of_mem_erase hi
    have hine : i ≠ n := fun hc => (h.nodesNodup.mem_erase_iff.1 hi).1 (by rw [hc])
    have hc := h.idxComplete i hii
    by_cases hb : baseName (g.store i).name = key
    · rw [hb, idxFind_erase_self g.index key n h.keysNodup]
      rw [hb] at hc
      cases hf : idxFind g.index key with
      | none => rw [hf] at hc; simp at hc
      | some l =>
        rw [hf] at hc
        simp only [Option.getD_some] at hc
        have hmem : i ∈ l.erase n := (List.mem_erase_of_ne hine).2 hc
        have hnonempty : l.erase n ≠ [] := fun hc2 => by
          rw [hc2] at hmem; simp at hmem
        simp [hnonempty, hmem]
    · rw [idxFind_erase_other g.index key _ n hb]
      exact hc
  · intro a ha b hb
    exact h.symCount a (List.mem_of_mem_erase ha) b (List.mem_of_mem_erase hb)
  · intro i hi
    exact h.idBound i (List.mem_of_mem_erase hi)

theorem WF_setOutputNodes (g : Graph) (h : WF g) (l : List Nat) :
    WF { g with outputNodes := l } :=
  ⟨h.nodesNodup, h.keysNodup, h.listsNodup, h.noEmpty, h.idxSound,
   h.idxComplete, h.symCount, h.idBound⟩

theorem idxFind_mem (idx : List (String × List Nat)) (b : String) (l : List Nat)
    (h : idxFind idx b = some l) : (b, l) ∈ idx := by
  induction idx with
  | nil => simp [idxFind] at h
  | cons e rest ih =>
    rcases e with ⟨k, l0⟩
    by_cases he : k = b
    · subst he
      rw [idxFind, if_pos rfl] at h
      simp only [Option.some.injEq] at h
      exact h ▸ List.mem_cons_self _ _
    · rw [idxFind, if_neg he] at h
      exact List.mem_cons_of_mem _ (ih h)

/-- An id found in a bucket of the index is a live node whose base
name is the bucket's key. -/
theorem WF.idx_node {g : Graph} (h : WF g) {key : String} {i : Nat}
    (hi : i ∈ (idxFind g.index key).getD []) :
    i ∈ g.nodes ∧ baseName (g.store i).name = key := by
  cases hf : idxFind g.index key with
  | none => rw [hf] at hi; simp at hi
  | some l =>
    rw [hf] at hi
    simp only [Option.getD_some] at hi
    exact h.idxSound (key, l) (idxFind_mem g.index key l hf) i hi

theorem WF_removeDeadInput (n : Nat) (g : Graph) (h : WF g)
    (hn : n ∉ g.nodes) (r : Nat) :
    WF (removeDeadInput n g r) ∧ n ∉ (removeDeadInput n g r).nodes := by
  have hstore :
      WF { g with store := setOutputsS g.store r ((g.store r).outputs.erase n) } := by
    refine WF_storeChange g h _ (setOutputsS_nameKind _ _ _) ?_ ?_
    · intro a ha b hb
      rw [setOutputsS_inputs]
      rw [setOutputsS_outputs]
      by_cases har : a = r
      · subst har
        rw [if_pos rfl]
        have hbn : b ≠ n := fun hc => hn (hc ▸ hb)
        rw [List.count_erase_of_ne hbn]
        exact h.symCount a ha b hb
      · rw [if_neg har]
        exact h.symCount a ha b hb
    · intro i hi
      constructor
      · intro j hj
        rw [setOutputsS_outputs] at hj
        by_cases hir : i = r
        · rw [if_pos hir] at hj
          exact (h.idBound i hi).2.1 j (hir ▸ List.mem_of_mem_erase hj)
        · rw [if_neg hir] at hj
          exact (h.idBound i hi).2.1 j hj
      · intro j hj
        rw [setOutputsS_inputs] at hj
        exact (h.idBound i hi).2.2 j hj
  unfold removeDeadInput
  by_cases hemp : ((setOutputsS g.store r ((g.store r).outputs.erase n)) r).outputs = []
  · rw [if_pos hemp]
    refine ⟨WF_removeNode _ hstore r _ rfl, fun hc => hn ?_⟩
    exact List.mem_of_mem_erase hc
  · rw [if_neg hemp]
    exact ⟨hstore, hn⟩

theorem WF_removeDeadInputs (n : Nat) (rs : List Nat) (g : Graph) (h : WF g)
    (hn : n ∉ g.nodes) :
    WF (removeDeadInputs n g rs) ∧ n ∉ (removeDeadInputs n g rs).nodes := by
  induction rs generalizing g with
  | nil => exact ⟨h, hn⟩
  | cons r rest ih =>
    have h1 := WF_removeDeadInput n g h hn r
    exact ih (removeDeadInput n g r) h1.1 h1.2

theorem WF_spliceOut (key : String) (g : Graph) (h : WF g) (n keep : Nat)
    (rem : List Nat) (hn : n ∈ g.nodes)
    (hkey : baseName (g.store n).name = key) (hkeep : keep < g.fresh) :
    WF (spliceOut key g n keep rem) ∧ n ∉ (spliceOut key g n keep rem).nodes := by
  have hB :
      WF { g with nodes := g.nodes.erase n, index := idxErase g.index key n } :=
    WF_removeNode g h n key hkey
  have hnmem : n ∉ g.nodes.erase n := fun hc =>
    ((h.nodesNodup.mem_erase_iff).1 hc).1 rfl
  unfold spliceOut
  set s1 := redirectAll n keep ((g.store n).outputs) g.store with hs1
  set outs1 := if n ∈ g.outputNodes ∧ keep ∉ g.outputNodes then
    g.outputNodes ++ [keep] else g.outputNodes with houts1
  set outs2 := if n ∈ outs1 then outs1.erase n else outs1 with houts2
  have hg1 :
      WF { g with store := s1, outputNodes := outs2, nodes := g.nodes.erase n, index := idxErase g.index key n } := by
    have hBO :
        WF { g with nodes := g.nodes.erase n, index := idxErase g.index key n, outputNodes := outs2 } :=
      WF_setOutputNodes _ hB outs2
    refine WF_storeChange _ hBO s1 (redirectAll_nameKind _ _ _ _) ?_ ?_
    · intro a ha b hb
      dsimp only at ha hb
      have han : a ≠ n := fun hc => hnmem (hc ▸ ha)
      have ha' := List.mem_of_mem_erase ha
      have hb' := List.mem_of_mem_erase hb
      have hd := redirectAll_delta n keep ((g.store n).outputs) g.store a b han
      rw [← hs1] at hd
      have hpre := h.symCount a ha' b hb'
      omega
    · intro i hi
      dsimp only at hi ⊢
      have hi' := List.mem_of_mem_erase hi
      constructor
      · intro j hj
        rcases redirectAll_out_sub n keep _ g.store i j hj with h1 | h1
        · exact (h.idBound i hi').2.1 j h1
        · exact (h.idBound n hn).2.1 j h1
      · intro j hj
        rcases redirectAll_in_sub n keep _ g.store i j hj with h1 | h1
        · exact (h.idBound i hi').2.2 j h1
        · exact h1 ▸ hkeep
  exact WF_removeDeadInputs n rem _ hg1 hnmem

/-- Adding a node with a fresh id and no edges (as `consteval` does)
keeps `WF` once the bound is bumped. -/
theorem WF_addFresh (g : Graph) (h : WF g) (nd : NodeData)
    (hin : nd.inputs = []) (hout : nd.outputs = []) :
    WF { g.addNode g.fresh nd with fresh := g.fresh + 1 } := by
  have hfreshnot : g.fresh ∉ g.nodes := fun hc =>
    absurd (h.idBound g.fresh hc).1 (by omega)
  have hname : ∀ i ∈ g.nodes, (updStore g.store g.fresh nd i) = g.store i := by
    intro i hi
    exact updStore_other _ _ _ (by
      intro hc
      exact absurd (h.idBound i hi).1 (by omega))
  refine ⟨?_, ?_, ?_, ?_, ?_, ?_, ?_, ?_⟩
  · dsimp only [Graph.addNode]
    rw [List.nodup_append]
    refine ⟨h.nodesNodup, List.nodup_singleton _, ?_⟩
    intro x hx hy
    simp at hy
    subst hy
    exact hfreshnot hx
  · dsimp only [Graph.addNode]
    rw [idxInsert_keys]
    by_cases hbk : baseName nd.name ∈ g.index.map Prod.fst
    · rw [if_pos hbk]; exact h.keysNodup
    · rw [if_neg hbk]
      rw [List.nodup_append]
      refine ⟨h.keysNodup, List.nodup_singleton _, ?_⟩
      intro x hx hy
      simp at hy
      subst hy
      exact hbk hx
  · intro e he
    dsimp only [Graph.addNode] at he
    rcases idxInsert_mem _ _ _ e he with h1 | h1 | ⟨l, hl, he'⟩
    · exact h.listsNodup e h1
    · rw [h1]; exact List.nodup_singleton _
    · rw [he']
      rw [List.nodup_append]
      refine ⟨h.listsNodup (baseName nd.name, l) hl, List.nodup_singleton _, ?_⟩
      intro x hx hy
      simp at hy
      subst hy
      exact hfreshnot (h.idxSound (baseName nd.name, l) hl _ hx).1
  · intro e he
    dsimp only [Graph.addNode] at he
    rcases idxInsert_mem _ _ _ e he with h1 | h1 | ⟨l, hl, he'⟩
    · exact h.noEmpty e h1
    · rw [h1]; simp
    · rw [he']; simp
  · intro e he i hi
    dsimp only [Graph.addNode] at he hi ⊢
    rcases idxInsert_mem _ _ _ e he with h1 | h1 | ⟨l, hl, he'⟩
    · obtain ⟨hmem, hbase⟩ := h.idxSound e h1 i hi
      rw [hname i hmem]
      exact ⟨List.mem_append_left _ hmem, hbase⟩
    · rw [h1] at hi ⊢
      simp at hi
      subst hi
      rw [updStore_self]
      exact ⟨List.mem_append_right _ (by simp), rfl⟩
    · rw [he'] at hi ⊢
      simp only at hi ⊢
      rcases List.mem_append.1 hi with h2 | h2
      · obtain ⟨hmem, hbase⟩ := h.idxSound (baseName nd.name, l) hl i h2
        rw [hname i hmem]
        exact ⟨List.mem_append_left _ hmem, hbase⟩
      · simp at h2
        subst h2
        rw [updStore_self]
        exact ⟨List.mem_append_right _ (by simp), rfl⟩
  · intro i hi
    dsimp only [Graph.addNode] at hi ⊢
    rcases List.mem_append.1 hi with h1 | h1
    · rw [hname i h1]
      by_cases hb : baseName (g.store i).name = baseName nd.name
      · rw [hb, idxFind_insert_self]
        simp only [Option.getD_some]
        refine List.mem_append_left _ ?_
        have := h.idxComplete i h1
        rw [hb] at this
        exact this
      · rw [idxFind_insert_other _ _ _ _ hb]
        exact h.idxComplete i h1
    · simp at h1
      subst h1
      rw [updStore_self, idxFind_insert_self]
      simp
  · intro a ha b hb
    dsimp only [Graph.addNode] at ha hb ⊢
    rcases List.mem_append.1 ha with ha1 | ha1 <;>
      rcases List.mem_append.1 hb with hb1 | hb1
    · rw [hname a ha1, hname b hb1]
      exact h.symCount a ha1 b hb1
    · simp at hb1
      subst hb1
      rw [hname a ha1, updStore_self, hin]
      have hnm : g.fresh ∉ (g.store a).outputs := by
        intro hc
        have := (h.idBound a ha1).2.1 _ hc
        omega
      rw [List.count_eq_zero_of_not_mem hnm]
      simp
    · simp at ha1
      subst ha1
      rw [hname b hb1, updStore_self, hout]
      have hnm : g.fresh ∉ (g.store b).inputs := by
        intro hc
        have := (h.idBound b hb1).2.2 _ hc
        omega
      rw [List.count_eq_zero_of_not_mem hnm]
      simp
    · simp at ha1 hb1
      subst ha1; subst hb1
      rw [updStore_self, hin, hout]
  · intro i hi
    dsimp only [Graph.addNode] at hi ⊢
    rcases List.mem_append.1 hi with h1 | h1
    · rw [hname i h1]
      obtain ⟨hb1, hb2, hb3⟩ := h.idBound i h1
      exact ⟨by omega, fun j hj => by have := hb2 j hj; omega,
        fun j hj => by have := hb3 j hj; omega⟩
    · simp at h1
      subst h1
      rw [updStore_self, hin, hout]
      simp

theorem WF_constevalRewrite (g : Graph) (h : WF g) (n : Nat) (result : Tensor)
    (hn : n ∈ g.nodes) :
    WF (constevalRewrite g n result) ∧ n ∉ (constevalRewrite g n result).nodes := by
  have hnlt : n < g.fresh := (h.idBound n hn).1
  set nm := (g.store n).name with hnm
  set cname : String :=
    ⟨(splitUnderscore nm.data).headD [] ++ "_const_".data ++ intToChars (derivedId nm)⟩
    with hcname
  set nd : NodeData := ⟨cname, mkData .CONSTANT (some result), [], [], none, none⟩
    with hnd
  have hA : WF { g.addNode g.fresh nd with fresh := g.fresh + 1 } :=
    WF_addFresh g h nd rfl rfl
  set gA : Graph := { g.addNode g.fresh nd with fresh := g.fresh + 1 } with hgA
  have hstoreN : gA.store n = g.store n := by
    dsimp only [Graph.addNode]
    exact updStore_other _ _ _ (by omega)
  have hnA : n ∈ gA.nodes := by
    dsimp only [Graph.addNode]
    exact List.mem_append_left _ hn
  have hB :
      WF { gA with nodes := gA.nodes.erase n, index := idxErase gA.index (baseName nm) n } :=
    WF_removeNode gA hA n (baseName nm) (by rw [hstoreN])
  have hnmem : n ∉ gA.nodes.erase n := fun hc =>
    ((hA.nodesNodup.mem_erase_iff).1 hc).1 rfl
  set s2 := redirectAll n g.fresh ((gA.store n).outputs) gA.store with hs2
  set outs1 := if n ∈ gA.outputNodes then
      (let o1 := gA.outputNodes.erase n
       if g.fresh ∈ o1 then o1 else o1 ++ [g.fresh])
    else gA.outputNodes with houts1
  have hg2 :
      WF { gA with store := s2, outputNodes := outs1, nodes := gA.nodes.erase n, index := idxErase gA.index (baseName nm) n } := by
    have hBO :
        WF { gA with nodes := gA.nodes.erase n, index := idxErase gA.index (baseName nm) n, outputNodes := outs1 } :=
      WF_setOutputNodes _ hB outs1
    refine WF_storeChange _ hBO s2 (redirectAll_nameKind _ _ _ _) ?_ ?_
    · intro a ha b hb
      dsimp only at ha hb
      have han : a ≠ n := fun hc => hnmem (hc ▸ ha)
      have ha' := List.mem_of_mem_erase ha
      have hb' := List.mem_of_mem_erase hb
      have hd := redirectAll_delta n g.fresh ((gA.store n).outputs) gA.store a b han
      rw [← hs2] at hd
      have hpre := hA.symCount a ha' b hb'
      omega
    · intro i hi
      dsimp only at hi ⊢
      have hi' := List.mem_of_mem_erase hi
      constructor
      · intro j hj
        rcases redirectAll_out_sub n g.fresh _ gA.store i j hj with h1 | h1
        · exact (hA.idBound i hi').2.1 j h1
        · exact (hA.idBound n hnA).2.1 j h1
      · intro j hj
        rcases redirectAll_in_sub n g.fresh _ gA.store i j hj with h1 | h1
        · exact (hA.idBound i hi').2.2 j h1
        · have : gA.fresh = g.fresh + 1 := rfl
          omega
  exact WF_removeDeadInputs n _ _ hg2 hnmem

theorem WF_transposeRewrite (g : Graph) (h : WF g) (t1 t2 orig : Nat)
    (ht2 : t2 ∈ (idxFind g.index "transpose").getD [])
    (ht1 : t1 ∈ (idxFind g.index "transpose").getD [])
    (horig : orig < g.fresh) :
    WF (transposeRewrite g t1 t2 orig) ∧
      t2 ∉ (transposeRewrite g t1 t2 orig).nodes := by
  obtain ⟨ht2n, ht2k⟩ := h.idx_node ht2
  obtain ⟨ht1n, ht1k⟩ := h.idx_node ht1
  refine ⟨?_, fun hc => ((h.nodesNodup.erase t1).mem_erase_iff.1 hc).1 rfl⟩
  have hB1 :
      WF { g with nodes := g.nodes.erase t1, index := idxErase g.index "transpose" t1 } :=
    WF_removeNode g h t1 "transpose" ht1k
  have hB2 :
      WF { g with nodes := (g.nodes.erase t1).erase t2, index := idxErase (idxErase g.index "transpose" t1) "transpose" t2 } :=
    WF_removeNode _ hB1 t2 "transpose" ht2k
  set s1 := redirectAll t2 orig ((g.store t2).outputs) g.store with hs1
  set s2 := setOutputsS s1 orig ((s1 orig).outputs.erase t1) with hs2
  set outs1 := if t2 ∈ g.outputNodes ∧ orig ∉ g.outputNodes then
    g.outputNodes ++ [orig] else g.outputNodes with houts1
  have hBO :
      WF { g with nodes := (g.nodes.erase t1).erase t2, index := idxErase (idxErase g.index "transpose" t1) "transpose" t2, outputNodes := (outs1.erase t1).erase t2 } :=
    WF_setOutputNodes _ hB2 _
  have hmem3 : ∀ a, a ∈ (g.nodes.erase t1).erase t2 →
      a ≠ t1 ∧ a ≠ t2 ∧ a ∈ g.nodes := by
    intro a ha
    have h2 := ((h.nodesNodup.erase t1).mem_erase_iff).1 ha
    have h1 := (h.nodesNodup.mem_erase_iff).1 h2.2
    exact ⟨h1.1, h2.1, h1.2⟩
  refine WF_storeChange _ hBO s2 ?_ ?_ ?_
  · exact sameNameKind_trans (redirectAll_nameKind _ _ _ _)
      (setOutputsS_nameKind _ _ _)
  · intro a ha b hb
    dsimp only at ha hb
    obtain ⟨hat1, hat2, haN⟩ := hmem3 a ha
    obtain ⟨hbt1, hbt2, hbN⟩ := hmem3 b hb
    have hout2 : (s2 a).outputs.count b = (s1 a).outputs.count b := by
      rw [hs2, setOutputsS_outputs]
      by_cases hao : a = orig
      · rw [if_pos hao, List.count_erase_of_ne hbt1, hao]
      · rw [if_neg hao]
    have hin2 : (s2 b).inputs = (s1 b).inputs := by
      rw [hs2, setOutputsS_inputs]
    have hd := redirectAll_delta t2 orig ((g.store t2).outputs) g.store a b hat2
    rw [← hs1] at hd
    have hpre := h.symCount a haN b hbN
    rw [hout2, hin2]
    omega
  · intro i hi
    dsimp only at hi ⊢
    obtain ⟨hit1, hit2, hiN⟩ := hmem3 i hi
    constructor
    · intro j hj
      have hj1 : j ∈ (s1 i).outputs := by
        rw [hs2, setOutputsS_outputs] at hj
        by_cases hio : i = orig
        · rw [if_pos hio] at hj
          exact hio ▸ List.mem_of_mem_erase hj
        · rw [if_neg hio] at hj
          exact hj
      rw [hs1] at hj1
      rcases redirectAll_out_sub t2 orig _ g.store i j hj1 with h1 | h1
      · exact (h.idBound i hiN).2.1 j h1
      · exact (h.idBound t2 ht2n).2.1 j h1
    · intro j hj
      have hj1 : j ∈ (s1 i).inputs := by
        rw [hs2, setOutputsS_inputs] at hj
        exact hj
      rw [hs1] at hj1
      rcases redirectAll_in_sub t2 orig _ g.store i j hj1 with h1 | h1
      · exact (h.idBound i hiN).2.2 j h1
      · exact h1 ▸ horig

/-! ### WF is preserved by every scan and every pass -/

theorem sumScanAux_WF (l : List Nat) : ∀ (g : Graph), WF g →
    (∀ x ∈ l, x ∈ (idxFind g.index "add").getD []) →
    (∀ g', sumScanAux g l = .fix g' → WF g') ∧
    (∀ g' n k rem, sumScanAux g l = .rew g' n k rem → WF g' ∧ n ∉ g'.nodes) := by
  induction l with
  | nil =>
    intro g hWF _
    constructor
    · intro g' hfix
      simp only [sumScanAux] at hfix
      cases hfix
      exact hWF
    · intro g' n k rem hrew
      simp only [sumScanAux] at hrew
      simp at hrew
  | cons c rest ih =>
    intro g hWF hl
    have hl' : ∀ x ∈ rest, x ∈ (idxFind g.index "add").getD [] :=
      fun x hx => hl x (List.mem_cons_of_mem c hx)
    cases hins : (g.store c).inputs with
    | nil =>
      have heq : sumScanAux g (c :: rest) = sumScanAux g rest := by
        simp only [sumScanAux, hins]
      rw [heq]
      exact ih g hWF hl'
    | cons p t =>
      cases t with
      | nil =>
        have heq : sumScanAux g (c :: rest) = sumScanAux g rest := by
          simp only [sumScanAux, hins]
        rw [heq]
        exact ih g hWF hl'
      | cons q t2 =>
        cases t2 with
        | cons x t3 =>
          have heq : sumScanAux g (c :: rest) = sumScanAux g rest := by
            simp only [sumScanAux, hins]
          rw [heq]
          exact ih g hWF hl'
        | nil =>
          have hst : sameStruct g.store (isZeroTensorChk
              (isZeroTensorChk g.store p).1 q).1 :=
            sameStruct_trans (isZeroTensorChk_struct g.store p)
              (isZeroTensorChk_struct (isZeroTensorChk g.store p).1 q)
          have hWF'' : WF { g with store :=
              (isZeroTensorChk (isZeroTensorChk g.store p).1 q).1 } :=
            hWF.transferStruct _ hst
          have heq : sumScanAux g (c :: rest) =
              (if (isZeroTensorChk g.store p).2 ||
                  (isZeroTensorChk (isZeroTensorChk g.store p).1 q).2 then
                (let keep := if !(isZeroTensorChk g.store p).2 then p
                  else if !(isZeroTensorChk (isZeroTensorChk g.store p).1 q).2
                  then q else p
                 let rem := [p, q].filter (· ≠ keep)
                 ScanRes.rew (spliceOut "add"
                   { g with store := (isZeroTensorChk
                     (isZeroTensorChk g.store p).1 q).1 } c keep rem) c keep rem)
              else sumScanAux { g with store :=
                (isZeroTensorChk (isZeroTensorChk g.store p).1 q).1 } rest) := by
            simp only [sumScanAux, hins]
          rw [heq]
          by_cases hz : (isZeroTensorChk g.store p).2 ||
              (isZeroTensorChk (isZeroTensorChk g.store p).1 q).2
          · rw [if_pos hz]
            constructor
            · intro g' hfix
              simp at hfix
            · intro g' n k rem hrew
              simp only [ScanRes.rew.injEq] at hrew
              obtain ⟨hg', hn', hk', hrem'⟩ := hrew
              subst hn'
              obtain ⟨hcN, hckey⟩ := hWF''.idx_node
                (show c ∈ (idxFind ({ g with store := (isZeroTensorChk
                  (isZeroTensorChk g.store p).1 q).1 } : Graph).index
                  "add").getD [] from hl c (List.mem_cons_self c rest))
              have hkeepmem : (if !(isZeroTensorChk g.store p).2 then p
                  else if !(isZeroTensorChk (isZeroTensorChk g.store p).1 q).2
                  then q else p) ∈ [p, q] := by
                by_cases h1 : (isZeroTensorChk g.store p).2 <;>
                  by_cases h2 : (isZeroTensorChk (isZeroTensorChk g.store p).1 q).2 <;>
                  simp [h1, h2]
              have hkeeplt : (if !(isZeroTensorChk g.store p).2 then p
                  else if !(isZeroTensorChk (isZeroTensorChk g.store p).1 q).2
                  then q else p) < g.fresh := by
                have hinputs : (({ g with store := (isZeroTensorChk
                    (isZeroTensorChk g.store p).1 q).1 } : Graph).store c).inputs
                    = [p, q] := by
                  rw [(hst c).2.2.1, hins]
                have := (hWF''.idBound c hcN).2.2
                rw [hinputs] at this
                exact this _ hkeepmem
              rw [← hg']
              exact WF_spliceOut "add" _ hWF'' c _ _ hcN hckey hkeeplt
          · rw [if_neg hz]
            exact ih _ hWF'' hl'

theorem sumScan_WF (g : Graph) (hWF : WF g) :
    (∀ g', sumScan g = .fix g' → WF g') ∧
    (∀ g' n k rem, sumScan g = .rew g' n k rem → WF g' ∧ n ∉ g'.nodes) := by
  unfold sumScan
  cases hf : idxFind g.index "add" with
  | none =>
    constructor
    · intro g' hfix; cases hfix; exact hWF
    · intro g' n k rem hrew; simp at hrew
  | some l =>
    exact sumScanAux_WF l g hWF (fun x hx => by rw [hf]; exact hx)

theorem passLoop_WF (scan : Graph → ScanRes)
    (hscan : ∀ g, WF g →
      (∀ g', scan g = .fix g' → WF g') ∧
      (∀ g' n k rem, scan g = .rew g' n k rem → WF g')) :
    ∀ (fuel : Nat) (g : Graph), WF g →
      ∀ gf, passLoop scan fuel g = some gf → WF gf := by
  intro fuel
  induction fuel with
  | zero =>
    intro g _ gf h
    simp [passLoop] at h
  | succ fuel ih =>
    intro g hWF gf h
    cases hs : scan g with
    | err =>
      simp only [passLoop, hs] at h
      simp at h
    | fix g' =>
      simp only [passLoop, hs, Option.some.injEq] at h
      exact h ▸ (hscan g hWF).1 g' hs
    | rew g' n k rem =>
      simp only [passLoop, hs] at h
      exact ih g' ((hscan g hWF).2 g' n k rem hs) gf h

/-- WF obligations attached to a scan result. -/
def ScanWF (r : ScanRes) : Prop :=
  (∀ g', r = .fix g' → WF g') ∧
  (∀ g' n k rem, r = .rew g' n k rem → WF g' ∧ n ∉ g'.nodes)

theorem scanWF_err : ScanWF .err :=
  ⟨fun _ h => by simp at h, fun _ _ _ _ h => by simp at h⟩

theorem scanWF_fix (g : Graph) (h : WF g) : ScanWF (.fix g) :=
  ⟨fun g' hf => by cases hf; exact h, fun _ _ _ _ hr => by simp at hr⟩

theorem scanWF_rew (g : Graph) (n k : Nat) (rem : List Nat) (h : WF g)
    (hn : n ∉ g.nodes) : ScanWF (.rew g n k rem) := by
  refine ⟨fun _ hf => by simp at hf, fun g' n' k' rem' hr => ?_⟩
  simp only [ScanRes.rew.injEq] at hr
  obtain ⟨h1, h2, _, _⟩ := hr
  exact ⟨h1 ▸ h, h1 ▸ h2 ▸ hn⟩

theorem matmulScanAux_WF (l : List Nat) : ∀ (g : Graph), WF g →
    (∀ x ∈ l, x ∈ (idxFind g.index "matmul").getD []) →
    ScanWF (matmulScanAux g l) := by
  induction l with
  | nil => intro g hWF _; exact scanWF_fix g hWF
  | cons c rest ih =>
    intro g hWF hl
    have hl' : ∀ x ∈ rest, x ∈ (idxFind g.index "matmul").getD [] :=
      fun x hx => hl x (List.mem_cons_of_mem c hx)
    cases hins : (g.store c).inputs with
    | nil =>
      rw [show matmulScanAux g (c :: rest) = matmulScanAux g rest by
        simp only [matmulScanAux, hins]]
      exact ih g hWF hl'
    | cons p t =>
      cases t with
      | nil =>
        rw [show matmulScanAux g (c :: rest) = matmulScanAux g rest by
          simp only [matmulScanAux, hins]]
        exact ih g hWF hl'
      | cons q t2 =>
        cases t2 with
        | cons x t3 =>
          rw [show matmulScanAux g (c :: rest) = matmulScanAux g rest by
            simp only [matmulScanAux, hins]]
          exact ih g hWF hl'
        | nil =>
          have hrewOK : ∀ (s' : Store), sameStruct g.store s' →
              ∀ keep rem, keep ∈ [p, q] →
              ScanWF (ScanRes.rew
                (spliceOut "matmul" { g with store := s' } c keep rem)
                c keep rem) := by
            intro s' hs' keep rem hkeep
            have hWF' : WF { g with store := s' } := hWF.transferStruct _ hs'
            obtain ⟨hcN, hckey⟩ := hWF'.idx_node
              (show c ∈ (idxFind g.index "matmul").getD [] from
                hl c (List.mem_cons_self c rest))
            have hkeeplt : keep < g.fresh := by
              have hinputs :
                  (({ g with store := s' } : Graph).store c).inputs = [p, q] := by
                rw [(hs' c).2.2.1, hins]
              have hb := (hWF'.idBound c hcN).2.2
              rw [hinputs] at hb
              exact hb _ hkeep
            have hres := WF_spliceOut "matmul" _ hWF' c keep rem hcN hckey hkeeplt
            exact scanWF_rew _ _ _ _ hres.1 hres.2
          simp only [matmulScanAux, hins]
          set s2 := (isOneTensorChk (isOneTensorChk g.store p).1 q).1 with hs2
          have hst : sameStruct g.store s2 :=
            sameStruct_trans (isOneTensorChk_struct g.store p)
              (isOneTensorChk_struct (isOneTensorChk g.store p).1 q)
          by_cases h12 : ((isOneTensorChk g.store p).2 ||
              (isOneTensorChk (isOneTensorChk g.store p).1 q).2) = true
          · rw [if_pos h12]
            by_cases hni : (!(isOneTensorChk g.store p).2 ||
                !(isOneTensorChk (isOneTensorChk g.store p).1 q).2) = true
            · rw [if_pos hni]
              refine hrewOK s2 hst _ _ ?_
              by_cases h1 : (isOneTensorChk g.store p).2 <;> simp [h1]
            · rw [if_neg hni]
              cases hg1 : getShape (gsFuel g) s2 p with
              | none => exact scanWF_err
              | some p3 =>
                rcases p3 with ⟨s3, shK⟩
                dsimp only
                have hst3 : sameStruct g.store s3 :=
                  sameStruct_trans hst (getShape_struct _ _ _ _ _ hg1)
                cases hg2 : getShape (gsFuel g) s3 c with
                | none => exact scanWF_err
                | some p4 =>
                  rcases p4 with ⟨s4, shN⟩
                  dsimp only
                  have hst4 : sameStruct g.store s4 :=
                    sameStruct_trans hst3 (getShape_struct _ _ _ _ _ hg2)
                  by_cases hsh : shK ≠ shN
                  · rw [if_pos hsh]
                    exact ih _ (hWF.transferStruct _ hst4) hl'
                  · rw [if_neg hsh]
                    exact hrewOK s4 hst4 p _ (by simp)
          · rw [if_neg h12]
            exact ih _ (hWF.transferStruct _ hst) hl'

theorem matmulScan_WF (g : Graph) (hWF : WF g) : ScanWF (matmulScan g) := by
  unfold matmulScan
  cases hf : idxFind g.index "matmul" with
  | none => exact scanWF_fix g hWF
  | some l =>
    exact matmulScanAux_WF l g hWF (fun x hx => by rw [hf]; exact hx)

theorem constevalScanAux_WF (l : List Nat) : ∀ (g : Graph), WF g →
    (∀ x ∈ l, x ∈ g.nodes) → ScanWF (constevalScanAux g l) := by
  induction l with
  | nil => intro g hWF _; exact scanWF_fix g hWF
  | cons c rest ih =>
    intro g hWF hl
    have hl' : ∀ x ∈ rest, x ∈ g.nodes :=
      fun x hx => hl x (List.mem_cons_of_mem c hx)
    cases hk : (g.store c).kind with
    | data ty v dsh =>
      rw [show constevalScanAux g (c :: rest) = constevalScanAux g rest by
        simp only [constevalScanAux, hk]]
      exact ih g hWF hl'
    | op o =>
      simp only [constevalScanAux, hk]
      by_cases hcand : (g.store c).inputs ≠ [] ∧
          ((g.store c).inputs.all fun j => isConstData (g.store j).kind)
      · rw [if_pos hcand]
        cases hrt : readTensors g.store (g.store c).inputs with
        | mk s' ts =>
          cases ts with
          | none => exact scanWF_err
          | some tl =>
            dsimp only
            cases hop : opForward o tl with
            | none => exact scanWF_err
            | some result =>
              have hst : sameStruct g.store s' := by
                have := readTensors_struct g.store (g.store c).inputs
                rw [hrt] at this
                exact this
              have hWF' : WF { g with store := s' } := hWF.transferStruct _ hst
              have hres := WF_constevalRewrite { g with store := s' } hWF' c
                result (hl c (List.mem_cons_self c rest))
              exact scanWF_rew _ _ _ _ hres.1 hres.2
      · rw [if_neg hcand]
        exact ih g hWF hl'

theorem constevalScan_WF (g : Graph) (hWF : WF g) : ScanWF (constevalScan g) :=
  constevalScanAux_WF g.nodes g hWF (fun _ hx => hx)

theorem transposeInnerAux_WF (ins : List Nat) : ∀ (g : Graph) (t2 : Nat),
    WF g → t2 ∈ (idxFind g.index "transpose").getD [] →
    (∀ r, transposeInnerAux g t2 ins = .inl r → ScanWF r) ∧
    (∀ g', transposeInnerAux g t2 ins = .inr g' →
      WF g' ∧ g'.index = g.index) := by
  induction ins with
  | nil =>
    intro g t2 hWF _
    constructor
    · intro r hr
      simp only [transposeInnerAux] at hr
      simp at hr
    · intro g' hg'
      simp only [transposeInnerAux, Sum.inr.injEq] at hg'
      exact ⟨hg' ▸ hWF, hg' ▸ rfl⟩
  | cons t1 rest ih =>
    intro g t2 hWF ht2
    simp only [transposeInnerAux]
    by_cases h1 : t1 ∈ (idxFind g.index "transpose").getD []
    · rw [if_pos h1]
      by_cases h2 : (g.store t1).outputs = [t2]
      · rw [if_pos h2]
        cases hins : (g.store t1).inputs with
        | nil =>
          dsimp only
          constructor
          · intro r hr
            simp only [Sum.inl.injEq] at hr
            exact hr ▸ scanWF_err
          · intro g' hg'
            simp at hg'
        | cons orig t =>
          dsimp only
          obtain ⟨ht1n, _⟩ := hWF.idx_node h1
          have horiglt : orig < g.fresh := by
            have := (hWF.idBound t1 ht1n).2.2
            rw [hins] at this
            exact this orig (by simp)
          cases hg1 : getShape (gsFuel g) g.store orig with
          | none =>
            constructor
            · intro r hr
              simp only [Sum.inl.injEq] at hr
              exact hr ▸ scanWF_err
            · intro g' hg'
              simp at hg'
          | some p3 =>
            rcases p3 with ⟨s1, shO⟩
            dsimp only
            have hst1 : sameStruct g.store s1 := getShape_struct _ _ _ _ _ hg1
            cases hg2 : getShape (gsFuel g) s1 t2 with
            | none =>
              constructor
              · intro r hr
                simp only [Sum.inl.injEq] at hr
                exact hr ▸ scanWF_err
              · intro g' hg'
                simp at hg'
            | some p4 =>
              rcases p4 with ⟨s2, shF⟩
              dsimp only
              have hst2 : sameStruct g.store s2 :=
                sameStruct_trans hst1 (getShape_struct _ _ _ _ _ hg2)
              have hWF2 : WF { g with store := s2 } := hWF.transferStruct _ hst2
              by_cases hsh : shO = shF
              · rw [if_pos hsh]
                constructor
                · intro r hr
                  simp only [Sum.inl.injEq] at hr
                  subst hr
                  have hres := WF_transposeRewrite { g with store := s2 } hWF2
                    t1 t2 orig ht2 h1 (by
                      have hb := (hWF2.idBound t1 ht1n).2.2
                      have hinputs :
                          (({ g with store := s2 } : Graph).store t1).inputs =
                            orig :: t := by rw [(hst2 t1).2.2.1, hins]
                      rw [hinputs] at hb
                      exact hb orig (by simp))
                  exact scanWF_rew _ _ _ _ hres.1 hres.2
                · intro g' hg'
                  simp at hg'
              · rw [if_neg hsh]
                have hihres := ih { g with store := s2 } t2 hWF2 ht2
                exact ⟨hihres.1, fun g' hg' =>
                  ⟨(hihres.2 g' hg').1, (hihres.2 g' hg').2⟩⟩
      · rw [if_neg h2]
        exact ih g t2 hWF ht2
    · rw [if_neg h1]
      exact ih g t2 hWF ht2

theorem transposeScanAux_WF (l : List Nat) : ∀ (g : Graph), WF g →
    (∀ x ∈ l, x ∈ (idxFind g.index "transpose").getD []) →
    ScanWF (transposeScanAux g l) := by
  induction l with
  | nil => intro g hWF _; exact scanWF_fix g hWF
  | cons t2 rest ih =>
    intro g hWF hl
    simp only [transposeScanAux]
    have ht2 : t2 ∈ (idxFind g.index "transpose").getD [] := hl t2 (by simp)
    have hinner := transposeInnerAux_WF ((g.store t2).inputs) g t2 hWF ht2
    cases hres : transposeInnerAux g t2 ((g.store t2).inputs) with
    | inl r => exact hinner.1 r hres
    | inr g' =>
      obtain ⟨hWF', hidx⟩ := hinner.2 g' hres
      exact ih g' hWF' (fun x hx => by rw [hidx]; exact hl x (by simp [hx]))

theorem transposeScan_WF (g : Graph) (hWF : WF g) : ScanWF (transposeScan g) := by
  unfold transposeScan
  cases hf : idxFind g.index "transpose" with
  | none => exact scanWF_fix g hWF
  | some l => exact transposeScanAux_WF l g hWF (fun x hx => by rw [hf]; exact hx)

theorem sum_identity_WF (g : Graph) (hWF : WF g) (gf : Graph)
    (h : sum_identity g = some gf) : WF gf :=
  passLoop_WF sumScan
    (fun g' hg' => ⟨(sumScan_WF g' hg').1,
      fun gr n k rem hr => ((sumScan_WF g' hg').2 gr n k rem hr).1⟩)
    _ g hWF gf h

theorem matmul_identity_WF (g : Graph) (hWF : WF g) (gf : Graph)
    (h : matmul_identity g = some gf) : WF gf :=
  passLoop_WF matmulScan
    (fun g' hg' => ⟨(matmulScan_WF g' hg').1,
      fun gr n k rem hr => ((matmulScan_WF g' hg').2 gr n k rem hr).1⟩)
    _ g hWF gf h

theorem consteval_WF (g : Graph) (hWF : WF g) (gf : Graph)
    (h : consteval g = some gf) : WF gf :=
  passLoop_WF constevalScan
    (fun g' hg' => ⟨(constevalScan_WF g' hg').1,
      fun gr n k rem hr => ((constevalScan_WF g' hg').2 gr n k rem hr).1⟩)
    _ g hWF gf h

theorem transpose_cancelation_WF (g : Graph) (hWF : WF g) (gf : Graph)
    (h : transpose_cancelation g = some gf) : WF gf :=
  passLoop_WF transposeScan
    (fun g' hg' => ⟨(transposeScan_WF g' hg').1,
      fun gr n k rem hr => ((transposeScan_WF g' hg').2 gr n k rem hr).1⟩)
    _ g hWF gf h

/-- C2 (amended, index half): after any of the four optimization passes
completes on a well-formed graph, the base-name index `nodes_by_name`
contains exactly the nodes of `graph.nodes`, each listed under its own
base name - every index entry points at a live node with the right base
name, and every live node is found under its base name.  (The
reachability half of the claim is refuted separately by
`C2_counterexample`.) -/
theorem C2_index_exact_after_passes (g : Graph) (hWF : WF g) :
    (∀ gf, sum_identity g = some gf → IdxExact gf) ∧
    (∀ gf, matmul_identity g = some gf → IdxExact gf) ∧
    (∀ gf, consteval g = some gf → IdxExact gf) ∧
    (∀ gf, transpose_cancelation g = some gf → IdxExact gf) :=
  ⟨fun gf h => (sum_identity_WF g hWF gf h).idxExact,
   fun gf h => (matmul_identity_WF g hWF gf h).idxExact,
   fun gf h => (consteval_WF g hWF gf h).idxExact,
   fun gf h => (transpose_cancelation_WF g hWF gf h).idxExact⟩

/-- Witness for C2: the concrete graph `sumG` is well-formed, so the
amended index-exactness conclusion applies to it. -/
theorem C2_index_exact_witness : WF sumG ∧
    ((∀ gf, sum_identity sumG = some gf → IdxExact gf) ∧
     (∀ gf, matmul_identity sumG = some gf → IdxExact gf) ∧
     (∀ gf, consteval sumG = some gf → IdxExact gf) ∧
     (∀ gf, transpose_cancelation sumG = some gf → IdxExact gf)) :=
  have hWF : WF sumG := ⟨by decide, by decide, by decide, by decide,
    by decide, by decide, by decide, by decide⟩
  ⟨hWF, C2_index_exact_after_passes sumG hWF⟩

/-! ## C9: the frame effect of the splice on edge lists -/

theorem redirectAll_outputs_other (n repl : Nat) (cs : List Nat) :
    ∀ (s : Store) (j : Nat), j ≠ n → j ≠ repl →
    ((redirectAll n repl cs s) j).outputs = (s j).outputs := by
  induction cs with
  | nil => intro s j _ _; rfl
  | cons c rest ih =>
    intro s j hjn hjr
    have hall : redirectAll n repl (c :: rest) s =
        redirectAll n repl rest (redirectStep n repl s c) := rfl
    rw [hall, ih _ j hjn hjr, redirectStep_outputs, if_neg hjr, if_neg hjn]

theorem redirectAll_outputs_mem (n repl : Nat) (cs : List Nat) :
    ∀ (s : Store) (j x : Nat), j ≠ n → x ∈ (s j).outputs →
    x ∈ ((redirectAll n repl cs s) j).outputs := by
  induction cs with
  | nil => intro s j x _ hx; exact hx
  | cons c rest ih =>
    intro s j x hjn hx
    have hall : redirectAll n repl (c :: rest) s =
        redirectAll n repl rest (redirectStep n repl s c) := rfl
    rw [hall]
    refine ih _ j x hjn ?_
    rw [redirectStep_outputs]
    by_cases hjr : j = repl
    · rw [if_pos hjr]
      have hrn : ¬ repl = n := fun h => hjn (hjr.trans h)
      rw [if_neg hrn]
      exact List.mem_append_left _ (hjr ▸ hx)
    · rw [if_neg hjr, if_neg hjn]
      exact hx

theorem removeDeadInput_store_other (n : Nat) (g : Graph) (r j : Nat)
    (h : j ≠ r) : (removeDeadInput n g r).store j = g.store j := by
  unfold removeDeadInput
  dsimp only
  split
  · exact updStore_other _ _ _ h
  · exact updStore_other _ _ _ h

theorem removeDeadInputs_store_other (n : Nat) (rs : List Nat) :
    ∀ (g : Graph) (j : Nat), j ∉ rs →
    (removeDeadInputs n g rs).store j = g.store j := by
  induction rs with
  | nil => intro g j _; rfl
  | cons r rest ih =>
    intro g j hj
    have hall : removeDeadInputs n g (r :: rest) =
        removeDeadInputs n (removeDeadInput n g r) rest := rfl
    rw [hall, ih _ j (fun h => hj (List.mem_cons_of_mem r h)),
      removeDeadInput_store_other n g r j
        (fun h => hj (h ▸ List.mem_cons_self r rest))]

theorem removeDeadInput_outputs_self (n : Nat) (g : Graph) (r : Nat) :
    ((removeDeadInput n g r).store r).outputs = (g.store r).outputs.erase n := by
  unfold removeDeadInput
  dsimp only
  split
  · show ((setOutputsS g.store r ((g.store r).outputs.erase n)) r).outputs = _
    rw [setOutputsS_outputs, if_pos rfl]
  · show ((setOutputsS g.store r ((g.store r).outputs.erase n)) r).outputs = _
    rw [setOutputsS_outputs, if_pos rfl]

theorem spliceOut_store_eq (key : String) (g : Graph) (n keep : Nat)
    (rem : List Nat) :
    ∃ g1 : Graph, spliceOut key g n keep rem = removeDeadInputs n g1 rem ∧
      g1.store = redirectAll n keep ((g.store n).outputs) g.store :=
  ⟨_, rfl, rfl⟩

theorem spliceOut_keep_mem (key : String) (g : Graph) (n keep : Nat)
    (rem : List Nat) (hmem : n ∈ (g.store keep).outputs)
    (hkn : keep ≠ n) (hkrem : keep ∉ rem) :
    n ∈ ((spliceOut key g n keep rem).store keep).outputs := by
  obtain ⟨g1, heq, hst⟩ := spliceOut_store_eq key g n keep rem
  rw [heq, removeDeadInputs_store_other n rem g1 keep hkrem, hst]
  exact redirectAll_outputs_mem n keep _ g.store keep n hkn hmem

theorem spliceOut_rem_notmem (key : String) (g : Graph) (n keep r : Nat)
    (hcount : ((g.store r).outputs).count n ≤ 1)
    (hrn : r ≠ n) (hrk : r ≠ keep) :
    n ∉ ((spliceOut key g n keep [r]).store r).outputs := by
  obtain ⟨g1, heq, hst⟩ := spliceOut_store_eq key g n keep [r]
  rw [heq]
  have h1 : removeDeadInputs n g1 [r] = removeDeadInput n g1 r := rfl
  rw [h1, removeDeadInput_outputs_self]
  have h2 : (g1.store r).outputs = (g.store r).outputs := by
    rw [hst]
    exact redirectAll_outputs_other n keep _ g.store r hrn hrk
  rw [h2]
  intro hmem
  have h3 := List.count_erase_self n ((g.store r).outputs)
  have hpos : 0 < ((g.store r).outputs.erase n).count n :=
    List.count_pos_iff.2 hmem
  omega

/-- Common core of the C9 frame analysis: a rewrite that splices out
`n` keeping `k` leaves `n` dangling in `k.outputs` while scrubbing it
from the outputs of the removed input. -/
theorem splice_rew_frame (key : String) (g g' : Graph) (n k : Nat)
    (rem : List Nat) (s2 : Store) (p q : Nat)
    (hWF : WF g) (hst : sameStruct g.store s2)
    (hins : (g.store n).inputs = [p, q]) (hkpq : k = p ∨ k = q)
    (hrem : rem = [p, q].filter (· ≠ k))
    (hg' : g' = spliceOut key { g with store := s2 } n k rem)
    (hnN : n ∈ g.nodes)
    (hself : n ∉ (g.store n).inputs) (hkN : k ∈ g.nodes)
    (hremN : ∀ r ∈ rem, r ∈ g.nodes) :
    (∀ r ∈ rem, n ∉ (g'.store r).outputs) ∧ n ∈ (g'.store k).outputs := by
  subst hg'
  have hnpq : n ∉ [p, q] := by rw [← hins]; exact hself
  have hkn : k ≠ n := by
    intro hEq
    subst hEq
    rcases hkpq with h | h <;> exact hnpq (by rw [h]; simp)
  have hkrem : k ∉ rem := by
    rw [hrem]
    simp
  have hkmem : n ∈ (g.store k).outputs := by
    have hc := hWF.symCount k hkN n hnN
    rw [hins] at hc
    have hpos : 0 < List.count k [p, q] :=
      List.count_pos_iff.2 (by rcases hkpq with h | h <;> simp [h])
    exact List.count_pos_iff.1 (by rw [hc]; exact hpos)
  constructor
  · intro r hr
    have hr' := hr
    rw [hrem] at hr'
    have hrf := List.mem_filter.1 hr'
    have hrpq : r ∈ [p, q] := hrf.1
    have hrk : r ≠ k := by simpa using hrf.2
    have hrn : r ≠ n := by
      intro hEq
      subst hEq
      exact hself (by rw [hins]; exact hrpq)
    have hrN := hremN r hr
    have hc := hWF.symCount r hrN n hnN
    rw [hins] at hc
    obtain ⟨hcnt, hremr⟩ : List.count r [p, q] = 1 ∧ rem = [r] := by
      rcases hkpq with hk | hk
      · subst hk
        have hrq : r = q := by
          rcases (by simpa using hrpq : r = k ∨ r = q) with h | h
          · exact absurd h hrk
          · exact h
        subst hrq
        constructor
        · simp [List.count_cons, hrk]
        · rw [hrem]
          simp [List.filter, hrk]
      · subst hk
        have hrp : r = p := by
          rcases (by simpa using hrpq : r = p ∨ r = k) with h | h
          · exact h
          · exact absurd h hrk
        subst hrp
        constructor
        · simp [List.count_cons, hrk]
        · rw [hrem]
          simp [List.filter, hrk]
    rw [hremr]
    refine spliceOut_rem_notmem key _ n k r ?_ hrn hrk
    show ((s2 r).outputs).count n ≤ 1
    rw [(hst r).2.2.2, hc, hcnt]
  · refine spliceOut_keep_mem key _ n k rem ?_ hkn hkrem
    show n ∈ (s2 k).outputs
    rw [(hst k).2.2.2]
    exact hkmem

theorem sumScanAux_rew_inv (l : List Nat) : ∀ (g g' : Graph) (n k : Nat)
    (rem : List Nat), sumScanAux g l = .rew g' n k rem →
    n ∈ l ∧ ∃ (s2 : Store) (p q : Nat), sameStruct g.store s2 ∧
      (g.store n).inputs = [p, q] ∧ (k = p ∨ k = q) ∧
      rem = [p, q].filter (· ≠ k) ∧
      g' = spliceOut "add" { g with store := s2 } n k rem := by
  induction l with
  | nil =>
    intro g g' n k rem h
    simp [sumScanAux] at h
  | cons c rest ih =>
    intro g g' n k rem h
    cases hins : (g.store c).inputs with
    | nil =>
      rw [show sumScanAux g (c :: rest) = sumScanAux g rest by
        simp only [sumScanAux, hins]] at h
      obtain ⟨hnl, hrest⟩ := ih g g' n k rem h
      exact ⟨List.mem_cons_of_mem c hnl, hrest⟩
    | cons p t =>
      cases t with
      | nil =>
        rw [show sumScanAux g (c :: rest) = sumScanAux g rest by
          simp only [sumScanAux, hins]] at h
        obtain ⟨hnl, hrest⟩ := ih g g' n k rem h
        exact ⟨List.mem_cons_of_mem c hnl, hrest⟩
      | cons q t2 =>
        cases t2 with
        | cons x t3 =>
          rw [show sumScanAux g (c :: rest) = sumScanAux g rest by
            simp only [sumScanAux, hins]] at h
          obtain ⟨hnl, hrest⟩ := ih g g' n k rem h
          exact ⟨List.mem_cons_of_mem c hnl, hrest⟩
        | nil =>
          have hst : sameStruct g.store (isZeroTensorChk
              (isZeroTensorChk g.store p).1 q).1 :=
            sameStruct_trans (isZeroTensorChk_struct g.store p)
              (isZeroTensorChk_struct (isZeroTensorChk g.store p).1 q)
          simp only [sumScanAux, hins] at h
          by_cases hz : (isZeroTensorChk g.store p).2 ||
              (isZeroTensorChk (isZeroTensorChk g.store p).1 q).2
          · rw [if_pos hz] at h
            simp only [ScanRes.rew.injEq] at h
            obtain ⟨hg', hn', hk', hrem'⟩ := h
            subst hn'
            refine ⟨List.mem_cons_self c rest,
              (isZeroTensorChk (isZeroTensorChk g.store p).1 q).1, p, q,
              hst, hins, ?_, ?_, ?_⟩
            · rw [← hk']
              by_cases h1 : !(isZeroTensorChk g.store p).2
              · rw [if_pos h1]
                exact Or.inl rfl
              · rw [if_neg h1]
                by_cases h2 : !(isZeroTensorChk (isZeroTensorChk g.store p).1 q).2
                · rw [if_pos h2]
                  exact Or.inr rfl
                · rw [if_neg h2]
                  exact Or.inl rfl
            · rw [← hrem', ← hk']
            · rw [← hg', hrem', hk']
          · rw [if_neg hz] at h
            obtain ⟨hnl, s2, p', q', hst2, hins2, hk2, hrem2, hg2⟩ :=
              ih _ g' n k rem h
            dsimp only at hins2
            refine ⟨List.mem_cons_of_mem c hnl, s2, p', q',
              sameStruct_trans hst hst2, ?_, hk2, hrem2, ?_⟩
            · rw [← (hst n).2.2.1]
              exact hins2
            · exact hg2

theorem matmulScanAux_rew_inv (l : List Nat) : ∀ (g g' : Graph) (n k : Nat)
    (rem : List Nat), matmulScanAux g l = .rew g' n k rem →
    n ∈ l ∧ ∃ (s2 : Store) (p q : Nat), sameStruct g.store s2 ∧
      (g.store n).inputs = [p, q] ∧ (k = p ∨ k = q) ∧
      rem = [p, q].filter (· ≠ k) ∧
      g' = spliceOut "matmul" { g with store := s2 } n k rem := by
  induction l with
  | nil =>
    intro g g' n k rem h
    simp [matmulScanAux] at h
  | cons c rest ih =>
    intro g g' n k rem h
    cases hins : (g.store c).inputs with
    | nil =>
      rw [show matmulScanAux g (c :: rest) = matmulScanAux g rest by
        simp only [matmulScanAux, hins]] at h
      obtain ⟨hnl, hrest⟩ := ih g g' n k rem h
      exact ⟨List.mem_cons_of_mem c hnl, hrest⟩
    | cons p t =>
      cases t with
      | nil =>
        rw [show matmulScanAux g (c :: rest) = matmulScanAux g rest by
          simp only [matmulScanAux, hins]] at h
        obtain ⟨hnl, hrest⟩ := ih g g' n k rem h
        exact ⟨List.mem_cons_of_mem c hnl, hrest⟩
      | cons q t2 =>
        cases t2 with
        | cons x t3 =>
          rw [show matmulScanAux g (c :: rest) = matmulScanAux g rest by
            simp only [matmulScanAux, hins]] at h
          obtain ⟨hnl, hrest⟩ := ih g g' n k rem h
          exact ⟨List.mem_cons_of_mem c hnl, hrest⟩
        | nil =>
          have hst : sameStruct g.store (isOneTensorChk
              (isOneTensorChk g.store p).1 q).1 :=
            sameStruct_trans (isOneTensorChk_struct g.store p)
              (isOneTensorChk_struct (isOneTensorChk g.store p).1 q)
          simp only [matmulScanAux, hins] at h
          by_cases h12 : (isOneTensorChk g.store p).2 ||
              (isOneTensorChk (isOneTensorChk g.store p).1 q).2
          · rw [if_pos h12] at h
            by_cases hni : !(isOneTensorChk g.store p).2 ||
                !(isOneTensorChk (isOneTensorChk g.store p).1 q).2
            · rw [if_pos hni] at h
              simp only [ScanRes.rew.injEq] at h
              obtain ⟨hg', hn', hk', hrem'⟩ := h
              subst hn'
              refine ⟨List.mem_cons_self c rest,
                (isOneTensorChk (isOneTensorChk g.store p).1 q).1, p, q,
                hst, hins, ?_, ?_, ?_⟩
              · rw [← hk']
                by_cases h1 : !(isOneTensorChk g.store p).2
                · rw [if_pos h1]
                  exact Or.inl rfl
                · rw [if_neg h1]
                  exact Or.inr rfl
              · rw [← hrem', ← hk']
              · rw [← hg', hrem', hk']
            · rw [if_neg hni] at h
              revert h
              cases hg1 : getShape (gsFuel g)
                  (isOneTensorChk (isOneTensorChk g.store p).1 q).1 p with
              | none =>
                intro h
                exact absurd h (by simp)
              | some p3 =>
                rcases p3 with ⟨s3, shK⟩
                intro h
                dsimp only at h
                have hst3 : sameStruct g.store s3 :=
                  sameStruct_trans hst (getShape_struct _ _ _ _ _ hg1)
                revert h
                cases hg2 : getShape (gsFuel g) s3 c with
                | none =>
                  intro h
                  exact absurd h (by simp)
                | some p4 =>
                  rcases p4 with ⟨s4, shN⟩
                  intro h
                  dsimp only at h
                  have hst4 : sameStruct g.store s4 :=
                    sameStruct_trans hst3 (getShape_struct _ _ _ _ _ hg2)
                  by_cases hsh : shK ≠ shN
                  · rw [if_pos hsh] at h
                    obtain ⟨hnl, s5, p', q', hst5, hins5, hk5, hrem5, hg5⟩ :=
                      ih _ g' n k rem h
                    dsimp only at hins5
                    refine ⟨List.mem_cons_of_mem c hnl, s5, p', q',
                      sameStruct_trans hst4 hst5, ?_, hk5, hrem5, ?_⟩
                    · rw [← (hst4 n).2.2.1]
                      exact hins5
                    · exact hg5
                  · rw [if_neg hsh] at h
                    simp only [ScanRes.rew.injEq] at h
                    obtain ⟨hg', hn', hk', hrem'⟩ := h
                    subst hn'
                    refine ⟨List.mem_cons_self c rest, s4, p, q,
                      hst4, hins, Or.inl hk'.symm, ?_, ?_⟩
                    · rw [← hrem', ← hk']
                    · rw [← hg', hrem', hk']
          · rw [if_neg h12] at h
            obtain ⟨hnl, s2, p', q', hst2, hins2, hk2, hrem2, hg2⟩ :=
              ih _ g' n k rem h
            dsimp only at hins2
            refine ⟨List.mem_cons_of_mem c hnl, s2, p', q',
              sameStruct_trans hst hst2, ?_, hk2, hrem2, ?_⟩
            · rw [← (hst n).2.2.1]
              exact hins2
            · exact hg2

/-- C9: for every rewrite performed by a `sum_identity` or
`matmul_identity` scan on a well-formed graph that splices out an
operation node `n` keeping input `k`: afterwards `n` is gone from
`graph.nodes`, from every bucket of the base-name index and from the
outputs list of the non-kept input, yet `n` is still an element of
`k.outputs` - the kept input retains a dangling reference to the
deleted node. -/
theorem C9_splice_dangling_keep :
    (∀ (g g' : Graph) (n k : Nat) (rem : List Nat), WF g →
      sumScan g = ScanRes.rew g' n k rem →
      n ∉ (g.store n).inputs → k ∈ g.nodes → (∀ r ∈ rem, r ∈ g.nodes) →
      n ∉ g'.nodes ∧ (∀ e ∈ g'.index, n ∉ e.2) ∧
        (∀ r ∈ rem, n ∉ (g'.store r).outputs) ∧ n ∈ (g'.store k).outputs) ∧
    (∀ (g g' : Graph) (n k : Nat) (rem : List Nat), WF g →
      matmulScan g = ScanRes.rew g' n k rem →
      n ∉ (g.store n).inputs → k ∈ g.nodes → (∀ r ∈ rem, r ∈ g.nodes) →
      n ∉ g'.nodes ∧ (∀ e ∈ g'.index, n ∉ e.2) ∧
        (∀ r ∈ rem, n ∉ (g'.store r).outputs) ∧ n ∈ (g'.store k).outputs) := by
  constructor
  · intro g g' n k rem hWF hscan hself hkN hremN
    obtain ⟨hWF', hnn'⟩ := (sumScan_WF g hWF).2 g' n k rem hscan
    unfold sumScan at hscan
    revert hscan
    cases hf : idxFind g.index "add" with
    | none =>
      intro hscan
      exact absurd hscan (by simp)
    | some l =>
      intro hscan
      obtain ⟨hnl, s2, p, q, hst, hins, hkpq, hrem, hg'⟩ :=
        sumScanAux_rew_inv l g g' n k rem hscan
      have hnN : n ∈ g.nodes :=
        (hWF.idx_node (show n ∈ (idxFind g.index "add").getD [] by
          rw [hf]; exact hnl)).1
      have hframe := splice_rew_frame "add" g g' n k rem s2 p q hWF hst
        hins hkpq hrem hg' hnN hself hkN hremN
      exact ⟨hnn', fun e he hmem => hnn' (hWF'.idxSound e he n hmem).1,
        hframe.1, hframe.2⟩
  · intro g g' n k rem hWF hscan hself hkN hremN
    obtain ⟨hWF', hnn'⟩ := (matmulScan_WF g hWF).2 g' n k rem hscan
    unfold matmulScan at hscan
    revert hscan
    cases hf : idxFind g.index "matmul" with
    | none =>
      intro hscan
      exact absurd hscan (by simp)
    | some l =>
      intro hscan
      obtain ⟨hnl, s2, p, q, hst, hins, hkpq, hrem, hg'⟩ :=
        matmulScanAux_rew_inv l g g' n k rem hscan
      have hnN : n ∈ g.nodes :=
        (hWF.idx_node (show n ∈ (idxFind g.index "matmul").getD [] by
          rw [hf]; exact hnl)).1
      have hframe := splice_rew_frame "matmul" g g' n k rem s2 p q hWF hst
        hins hkpq hrem hg' hnN hself hkN hremN
      exact ⟨hnn', fun e he hmem => hnn' (hWF'.idxSound e he n hmem).1,
        hframe.1, hframe.2⟩

/-- Concrete splice result of the `sum_identity` scan on `sumG`
(used only by the C9 witness). -/
def sumGsplice : Graph :=
  spliceOut "add" { sumG with store :=
    (isZeroTensorChk (isZeroTensorChk sumG.store 0).1 1).1 } 2 0 [1]

/-- Concrete splice result of the `matmul_identity` scan on `matG`
(used only by the C9 witness). -/
def matGsplice : Graph :=
  spliceOut "matmul" { matG with store :=
    (isOneTensorChk (isOneTensorChk matG.store 0).1 1).1 } 2 0 [1]

/-- Witness for C9: on the concrete graphs `sumG` and `matG` both
scans fire (splicing node 2, keeping input 0, removing input 1) and
every hypothesis of `C9_splice_dangling_keep` is discharged. -/
theorem C9_witness :
    WF sumG ∧ sumScan sumG = ScanRes.rew sumGsplice 2 0 [1] ∧
    WF matG ∧ matmulScan matG = ScanRes.rew matGsplice 2 0 [1] ∧
    (2 ∉ sumGsplice.nodes ∧ (∀ e ∈ sumGsplice.index, 2 ∉ e.2) ∧
      (∀ r ∈ ([1] : List Nat), 2 ∉ (sumGsplice.store r).outputs) ∧
      2 ∈ (sumGsplice.store 0).outputs) ∧
    (2 ∉ matGsplice.nodes ∧ (∀ e ∈ matGsplice.index, 2 ∉ e.2) ∧
      (∀ r ∈ ([1] : List Nat), 2 ∉ (matGsplice.store r).outputs) ∧
      2 ∈ (matGsplice.store 0).outputs) :=
  have hWFs : WF sumG := ⟨by decide, by decide, by decide, by decide,
    by decide, by decide, by decide, by decide⟩
  have hWFm : WF matG := ⟨by decide, by decide, by decide, by decide,
    by decide, by decide, by decide, by decide⟩
  have hs : sumScan sumG = ScanRes.rew sumGsplice 2 0 [1] := rfl
  have hm : matmulScan matG = ScanRes.rew matGsplice 2 0 [1] := rfl
  ⟨hWFs, hs, hWFm, hm,
    C9_splice_dangling_keep.1 sumG sumGsplice 2 0 [1] hWFs hs
      (by decide) (by decide) (by decide),
    C9_splice_dangling_keep.2 matG matGsplice 2 0 [1] hWFm hm
      (by decide) (by decide) (by decide)⟩

/-! ## C8: termination of the fixed-point loops -/

theorem idxCount_erase_lt (idx : List (String × List Nat)) (b : String)
    (i : Nat) (hkeys : (idx.map Prod.fst).Nodup)
    (hi : i ∈ (idxFind idx b).getD []) :
    ((idxFind (idxErase idx b i) b).getD []).length <
      ((idxFind idx b).getD []).length := by
  rw [idxFind_erase_self idx b i hkeys]
  cases hf : idxFind idx b with
  | none => rw [hf] at hi; simp at hi
  | some l =>
    rw [hf] at hi
    simp only [Option.getD_some] at hi ⊢
    have hpos : 0 < l.length := List.length_pos.2 (List.ne_nil_of_mem hi)
    by_cases hl : l.erase i = []
    · rw [if_pos hl]
      simpa using hpos
    · rw [if_neg hl]
      simp only [Option.getD_some]
      have hlen := List.length_erase_of_mem hi
      omega

theorem idxCount_erase_le (idx : List (String × List Nat)) (b b' : String)
    (i : Nat) (hkeys : (idx.map Prod.fst).Nodup) :
    ((idxFind (idxErase idx b i) b').getD []).length ≤
      ((idxFind idx b').getD []).length := by
  by_cases h : b' = b
  · subst h
    rw [idxFind_erase_self idx b' i hkeys]
    cases hf : idxFind idx b' with
    | none => simp
    | some l =>
      dsimp only
      by_cases hl : l.erase i = []
      · rw [if_pos hl]
        simp
      · rw [if_neg hl]
        simp only [Option.getD_some]
        exact (List.erase_sublist i l).length_le
  · rw [idxFind_erase_other idx b b' i h]

theorem idxErase_keys_nodup (idx : List (String × List Nat)) (b : String)
    (i : Nat) (hkeys : (idx.map Prod.fst).Nodup) :
    ((idxErase idx b i).map Prod.fst).Nodup :=
  List.Nodup.sublist (idxErase_keys_sublist idx b i) hkeys

theorem removeDeadInput_idx_le (n : Nat) (g : Graph) (r : Nat) (b : String)
    (hkeys : (g.index.map Prod.fst).Nodup) :
    idxCount (removeDeadInput n g r) b ≤ idxCount g b ∧
      ((removeDeadInput n g r).index.map Prod.fst).Nodup := by
  unfold removeDeadInput idxCount
  dsimp only
  split
  · exact ⟨idxCount_erase_le g.index _ b r hkeys,
      idxErase_keys_nodup g.index _ r hkeys⟩
  · exact ⟨le_refl _, hkeys⟩

theorem removeDeadInputs_idx_le (n : Nat) (rs : List Nat) :
    ∀ (g : Graph) (b : String), (g.index.map Prod.fst).Nodup →
    idxCount (removeDeadInputs n g rs) b ≤ idxCount g b := by
  induction rs with
  | nil => intro g b _; exact le_refl _
  | cons r rest ih =>
    intro g b hkeys
    have hall : removeDeadInputs n g (r :: rest) =
        removeDeadInputs n (removeDeadInput n g r) rest := rfl
    rw [hall]
    obtain ⟨hle, hk'⟩ := removeDeadInput_idx_le n g r b hkeys
    exact le_trans (ih _ b hk') hle

theorem spliceOut_index_eq (key : String) (g : Graph) (n keep : Nat)
    (rem : List Nat) :
    ∃ g1 : Graph, spliceOut key g n keep rem = removeDeadInputs n g1 rem ∧
      g1.index = idxErase g.index key n :=
  ⟨_, rfl, rfl⟩

theorem spliceOut_idxCount_lt (key : String) (g : Graph) (n keep : Nat)
    (rem : List Nat) (hkeys : (g.index.map Prod.fst).Nodup)
    (hn : n ∈ (idxFind g.index key).getD []) :
    idxCount (spliceOut key g n keep rem) key < idxCount g key := by
  obtain ⟨g1, heq, hidx⟩ := spliceOut_index_eq key g n keep rem
  rw [heq]
  have hk1 : (g1.index.map Prod.fst).Nodup := by
    rw [hidx]
    exact idxErase_keys_nodup g.index key n hkeys
  have h1 := removeDeadInputs_idx_le n rem g1 key hk1
  have h2 : idxCount g1 key < idxCount g key := by
    unfold idxCount
    rw [hidx]
    exact idxCount_erase_lt g.index key n hkeys hn
  omega

theorem sumScan_measure (g : Graph) (hWF : WF g) (g' : Graph) (n k : Nat)
    (rem : List Nat) (h : sumScan g = .rew g' n k rem) :
    idxCount g' "add" < idxCount g "add" := by
  unfold sumScan at h
  revert h
  cases hf : idxFind g.index "add" with
  | none =>
    intro h
    exact absurd h (by simp)
  | some l =>
    intro h
    obtain ⟨hnl, s2, p, q, hst, hins, hkpq, hrem, hg'⟩ :=
      sumScanAux_rew_inv l g g' n k rem h
    subst hg'
    have hbkt : n ∈ (idxFind (({ g with store := s2 } : Graph).index) "add").getD [] := by
      dsimp only
      rw [hf]
      exact hnl
    have := spliceOut_idxCount_lt "add" { g with store := s2 } n k rem
      hWF.keysNodup hbkt
    exact this

theorem matmulScan_measure (g : Graph) (hWF : WF g) (g' : Graph) (n k : Nat)
    (rem : List Nat) (h : matmulScan g = .rew g' n k rem) :
    idxCount g' "matmul" < idxCount g "matmul" := by
  unfold matmulScan at h
  revert h
  cases hf : idxFind g.index "matmul" with
  | none =>
    intro h
    exact absurd h (by simp)
  | some l =>
    intro h
    obtain ⟨hnl, s2, p, q, hst, hins, hkpq, hrem, hg'⟩ :=
      matmulScanAux_rew_inv l g g' n k rem h
    subst hg'
    have hbkt : n ∈ (idxFind (({ g with store := s2 } : Graph).index) "matmul").getD [] := by
      dsimp only
      rw [hf]
      exact hnl
    exact spliceOut_idxCount_lt "matmul" { g with store := s2 } n k rem
      hWF.keysNodup hbkt

theorem passLoop_stable (scan : Graph → ScanRes) (μ : Graph → Nat)
    (hdec : ∀ g g' n k rem, WF g → scan g = .rew g' n k rem → μ g' < μ g)
    (hpres : ∀ g g' n k rem, WF g → scan g = .rew g' n k rem → WF g') :
    ∀ (f : Nat) (g : Graph), WF g → μ g < f →
      passLoop scan f g = passLoop scan (μ g + 1) g := by
  intro f
  induction f using Nat.strong_induction_on with
  | _ f ih =>
    intro g hWF hlt
    cases f with
    | zero => omega
    | succ fp =>
      have hL : passLoop scan (fp + 1) g = (match scan g with
        | .err => none | .fix g0 => some g0
        | .rew g0 _ _ _ => passLoop scan fp g0) := rfl
      have hR : passLoop scan (μ g + 1) g = (match scan g with
        | .err => none | .fix g0 => some g0
        | .rew g0 _ _ _ => passLoop scan (μ g) g0) := rfl
      rw [hL, hR]
      cases hs : scan g with
      | err => rfl
      | fix g0 => rfl
      | rew g0 n k rem =>
        dsimp only
        have hd := hdec g g0 n k rem hWF hs
        have hp := hpres g g0 n k rem hWF hs
        have h1 : passLoop scan fp g0 = passLoop scan (μ g0 + 1) g0 :=
          ih fp (by omega) g0 hp (by omega)
        have h2 : passLoop scan (μ g) g0 = passLoop scan (μ g0 + 1) g0 :=
          ih (μ g) (by omega) g0 hp (by omega)
        rw [h1, h2]

theorem transposeInnerAux_inr_index (ins : List Nat) : ∀ (g : Graph) (t2 : Nat)
    (g' : Graph), transposeInnerAux g t2 ins = .inr g' → g'.index = g.index := by
  induction ins with
  | nil =>
    intro g t2 g' h
    simp only [transposeInnerAux, Sum.inr.injEq] at h
    rw [← h]
  | cons t1 rest ih =>
    intro g t2 g' h
    simp only [transposeInnerAux] at h
    by_cases h1 : t1 ∈ (idxFind g.index "transpose").getD []
    · rw [if_pos h1] at h
      by_cases h2 : (g.store t1).outputs = [t2]
      · rw [if_pos h2] at h
        revert h
        cases hi : (g.store t1).inputs with
        | nil =>
          intro h
          exact absurd h (by simp)
        | cons orig t =>
          intro h
          dsimp only at h
          revert h
          cases hg1 : getShape (gsFuel g) g.store orig with
          | none =>
            intro h
            exact absurd h (by simp)
          | some p1 =>
            rcases p1 with ⟨s1, shO⟩
            intro h
            dsimp only at h
            revert h
            cases hg2 : getShape (gsFuel g) s1 t2 with
            | none =>
              intro h
              exact absurd h (by simp)
            | some p2 =>
              rcases p2 with ⟨s2, shF⟩
              intro h
              dsimp only at h
              by_cases hsh : shO = shF
              · rw [if_pos hsh] at h
                exact absurd h (by simp)
              · rw [if_neg hsh] at h
                exact ih { g with store := s2 } t2 g' h
      · rw [if_neg h2] at h
        exact ih g t2 g' h
    · rw [if_neg h1] at h
      exact ih g t2 g' h

theorem transposeInnerAux_rew_measure (ins : List Nat) : ∀ (g : Graph)
    (t2 : Nat) (g' : Graph) (n k : Nat) (rem : List Nat),
    (g.index.map Prod.fst).Nodup →
    transposeInnerAux g t2 ins = .inl (.rew g' n k rem) →
    idxCount g' "transpose" < idxCount g "transpose" := by
  induction ins with
  | nil =>
    intro g t2 g' n k rem _ h
    simp [transposeInnerAux] at h
  | cons t1 rest ih =>
    intro g t2 g' n k rem hkeys h
    simp only [transposeInnerAux] at h
    by_cases h1 : t1 ∈ (idxFind g.index "transpose").getD []
    · rw [if_pos h1] at h
      by_cases h2 : (g.store t1).outputs = [t2]
      · rw [if_pos h2] at h
        revert h
        cases hi : (g.store t1).inputs with
        | nil =>
          intro h
          exact absurd h (by simp)
        | cons orig t =>
          intro h
          dsimp only at h
          revert h
          cases hg1 : getShape (gsFuel g) g.store orig with
          | none =>
            intro h
            exact absurd h (by simp)
          | some p1 =>
            rcases p1 with ⟨s1, shO⟩
            intro h
            dsimp only at h
            revert h
            cases hg2 : getShape (gsFuel g) s1 t2 with
            | none =>
              intro h
              exact absurd h (by simp)
            | some p2 =>
              rcases p2 with ⟨s2, shF⟩
              intro h
              dsimp only at h
              by_cases hsh : shO = shF
              · rw [if_pos hsh] at h
                simp only [Sum.inl.injEq, ScanRes.rew.injEq] at h
                obtain ⟨hg', hn', hk', hrem'⟩ := h
                rw [← hg']
                unfold idxCount transposeRewrite
                dsimp only
                have hlt := idxCount_erase_lt g.index "transpose" t1 hkeys h1
                have hle := idxCount_erase_le (idxErase g.index "transpose" t1)
                  "transpose" "transpose" t2
                  (idxErase_keys_nodup g.index "transpose" t1 hkeys)
                omega
              · rw [if_neg hsh] at h
                exact ih { g with store := s2 } t2 g' n k rem hkeys h
      · rw [if_neg h2] at h
        exact ih g t2 g' n k rem hkeys h
    · rw [if_neg h1] at h
      exact ih g t2 g' n k rem hkeys h

theorem transposeScanAux_measure (l : List Nat) : ∀ (g g' : Graph)
    (n k : Nat) (rem : List Nat), (g.index.map Prod.fst).Nodup →
    transposeScanAux g l = .rew g' n k rem →
    idxCount g' "transpose" < idxCount g "transpose" := by
  induction l with
  | nil =>
    intro g g' n k rem _ h
    simp [transposeScanAux] at h
  | cons t2 rest ih =>
    intro g g' n k rem hkeys h
    simp only [transposeScanAux] at h
    revert h
    cases hres : transposeInnerAux g t2 ((g.store t2).inputs) with
    | inl r =>
      intro h
      dsimp only at h
      subst h
      exact transposeInnerAux_rew_measure _ g t2 g' n k rem hkeys hres
    | inr g2 =>
      intro h
      dsimp only at h
      have hidx := transposeInnerAux_inr_index _ g t2 g2 hres
      have h2 := ih g2 g' n k rem (by rw [hidx]; exact hkeys) h
      have h3 : idxCount g2 "transpose" = idxCount g "transpose" := by
        unfold idxCount
        rw [hidx]
      omega

theorem transposeScan_measure (g : Graph) (hWF : WF g) (g' : Graph) (n k : Nat)
    (rem : List Nat) (h : transposeScan g = .rew g' n k rem) :
    idxCount g' "transpose" < idxCount g "transpose" := by
  unfold transposeScan at h
  revert h
  cases hf : idxFind g.index "transpose" with
  | none =>
    intro h
    exact absurd h (by simp)
  | some l =>
    intro h
    exact transposeScanAux_measure l g g' n k rem hWF.keysNodup h

theorem constevalScanAux_rew_inv (l : List Nat) : ∀ (g g' : Graph) (n k : Nat)
    (rem : List Nat), constevalScanAux g l = .rew g' n k rem →
    n ∈ l ∧ ∃ (s' : Store) (result : Tensor), sameStruct g.store s' ∧
      isOpKind (g.store n).kind = true ∧
      g' = constevalRewrite { g with store := s' } n result := by
  induction l with
  | nil =>
    intro g g' n k rem h
    simp [constevalScanAux] at h
  | cons c rest ih =>
    intro g g' n k rem h
    cases hk : (g.store c).kind with
    | data ty v dsh =>
      simp only [constevalScanAux, hk] at h
      obtain ⟨hnl, hrest⟩ := ih g g' n k rem h
      exact ⟨List.mem_cons_of_mem c hnl, hrest⟩
    | op o =>
      simp only [constevalScanAux, hk] at h
      by_cases hcand : (g.store c).inputs ≠ [] ∧
          ((g.store c).inputs.all fun j => isConstData (g.store j).kind)
      · rw [if_pos hcand] at h
        revert h
        cases hrt : readTensors g.store (g.store c).inputs with
        | mk s' ts =>
          cases ts with
          | none =>
            intro h
            exact absurd h (by simp)
          | some tl =>
            intro h
            dsimp only at h
            revert h
            cases hop : opForward o tl with
            | none =>
              intro h
              exact absurd h (by simp)
            | some result =>
              intro h
              dsimp only at h
              simp only [ScanRes.rew.injEq] at h
              obtain ⟨hg', hn', hk', hrem'⟩ := h
              subst hn'
              refine ⟨List.mem_cons_self c rest, s', result, ?_, ?_, hg'.symm⟩
              · have hrs := readTensors_struct g.store (g.store c).inputs
                rw [hrt] at hrs
                exact hrs
              · rw [hk]
                rfl
      · rw [if_neg hcand] at h
        obtain ⟨hnl, hrest⟩ := ih g g' n k rem h
        exact ⟨List.mem_cons_of_mem c hnl, hrest⟩

theorem filter_kind_congr (s s' : Store) (h : ∀ i, (s' i).kind = (s i).kind)
    (l : List Nat) :
    l.filter (fun i => isOpKind (s' i).kind) =
      l.filter (fun i => isOpKind (s i).kind) :=
  List.filter_congr (fun i _ => by rw [h i])

theorem opCount_removeDeadInput_le (n : Nat) (g : Graph) (r : Nat) :
    opCount (removeDeadInput n g r) ≤ opCount g := by
  have hkind : ∀ i, ((setOutputsS g.store r ((g.store r).outputs.erase n)) i).kind
      = (g.store i).kind := by
    intro i
    by_cases hir : i = r
    · subst hir
      simp [setOutputsS, updStore_self]
    · simp [setOutputsS, updStore_other _ _ _ hir]
  unfold removeDeadInput opCount
  dsimp only
  split
  · rw [filter_kind_congr _ _ hkind]
    exact List.Sublist.length_le (List.Sublist.filter _ (List.erase_sublist r g.nodes))
  · rw [filter_kind_congr _ _ hkind]

theorem opCount_removeDeadInputs_le (n : Nat) (rs : List Nat) :
    ∀ g : Graph, opCount (removeDeadInputs n g rs) ≤ opCount g := by
  induction rs with
  | nil =>
    intro g
    exact le_refl _
  | cons r rest ih =>
    intro g
    have hall : removeDeadInputs n g (r :: rest) =
        removeDeadInputs n (removeDeadInput n g r) rest := rfl
    rw [hall]
    exact le_trans (ih _) (opCount_removeDeadInput_le n g r)

theorem constevalRewrite_opCount (g : Graph) (hWF : WF g) (n : Nat)
    (result : Tensor) (hn : n ∈ g.nodes)
    (ho : isOpKind (g.store n).kind = true) :
    opCount (constevalRewrite g n result) < opCount g := by
  obtain ⟨g2, rs, heq, hnodes, hko, hkf⟩ :
      ∃ (g2 : Graph) (rs : List Nat),
        constevalRewrite g n result = removeDeadInputs n g2 rs ∧
        g2.nodes = (g.nodes ++ [g.fresh]).erase n ∧
        (∀ i, i ≠ g.fresh → (g2.store i).kind = (g.store i).kind) ∧
        isOpKind (g2.store g.fresh).kind = false := by
    refine ⟨_, _, rfl, rfl, ?_, ?_⟩
    · intro i hif
      dsimp only [Graph.addNode]
      rw [(redirectAll_nameKind _ _ _ _ i).2, updStore_other _ _ _ hif]
    · dsimp only [Graph.addNode]
      rw [(redirectAll_nameKind _ _ _ _ g.fresh).2, updStore_self]
      rfl
  rw [heq]
  have hle := opCount_removeDeadInputs_le n rs g2
  have h2 : opCount g2 < opCount g := by
    unfold opCount
    rw [hnodes, List.erase_append_left _ hn, List.filter_append]
    have hf0 : List.filter (fun i => isOpKind (g2.store i).kind) [g.fresh] = [] := by
      simp [hkf]
    rw [hf0]
    simp only [List.append_nil]
    have hcg : (g.nodes.erase n).filter (fun i => isOpKind (g2.store i).kind)
        = (g.nodes.erase n).filter (fun i => isOpKind (g.store i).kind) := by
      apply List.filter_congr
      intro i hi
      have hiN : i ∈ g.nodes := List.mem_of_mem_erase hi
      have hlt := (hWF.idBound i hiN).1
      rw [hko i (by omega)]
    rw [hcg]
    have hperm : g.nodes.Perm (n :: g.nodes.erase n) := List.perm_cons_erase hn
    have hlen := (hperm.filter (fun i => isOpKind (g.store i).kind)).length_eq
    simp [List.filter_cons, ho] at hlen
    omega
  omega

theorem constevalScan_measure (g : Graph) (hWF : WF g) (g' : Graph) (n k : Nat)
    (rem : List Nat) (h : constevalScan g = .rew g' n k rem) :
    opCount g' < opCount g := by
  unfold constevalScan at h
  obtain ⟨hnl, s', result, hst, hop, hg'⟩ :=
    constevalScanAux_rew_inv g.nodes g g' n k rem h
  subst hg'
  have hWF2 : WF { g with store := s' } := hWF.transferStruct _ hst
  have ho2 : isOpKind (({ g with store := s' } : Graph).store n).kind = true := by
    dsimp only
    rw [(hst n).2.1]
    exact hop
  have hlt := constevalRewrite_opCount { g with store := s' } hWF2 n result hnl ho2
  have heqc : opCount ({ g with store := s' } : Graph) = opCount g := by
    unfold opCount
    dsimp only
    rw [filter_kind_congr _ _ (fun i => (hst i).2.1)]
  omega

/-- C8: each of the four passes terminates.  On a well-formed graph
every rewrite strictly decreases the pass's candidate measure (the
length of the scanned index bucket, resp. the number of operation
nodes for `consteval`), so the fuel each pass supplies is always
enough: adding any amount of extra fuel to the fixed-point loop does
not change the result. -/
theorem C8_passes_terminate :
    (∀ g : Graph, WF g →
      (∀ g' n k rem, sumScan g = ScanRes.rew g' n k rem →
        idxCount g' "add" < idxCount g "add") ∧
      ∀ extra, passLoop sumScan (idxCount g "add" + 1 + extra) g =
        sum_identity g) ∧
    (∀ g : Graph, WF g →
      (∀ g' n k rem, matmulScan g = ScanRes.rew g' n k rem →
        idxCount g' "matmul" < idxCount g "matmul") ∧
      ∀ extra, passLoop matmulScan (idxCount g "matmul" + 1 + extra) g =
        matmul_identity g) ∧
    (∀ g : Graph, WF g →
      (∀ g' n k rem, transposeScan g = ScanRes.rew g' n k rem →
        idxCount g' "transpose" < idxCount g "transpose") ∧
      ∀ extra, passLoop transposeScan (idxCount g "transpose" + 1 + extra) g =
        transpose_cancelation g) ∧
    (∀ g : Graph, WF g →
      (∀ g' n k rem, constevalScan g = ScanRes.rew g' n k rem →
        opCount g' < opCount g) ∧
      ∀ extra, passLoop constevalScan (opCount g + 1 + extra) g =
        consteval g) := by
  refine ⟨fun g hWF => ⟨fun g' n k rem hs =>
      sumScan_measure g hWF g' n k rem hs, fun extra => ?_⟩,
    fun g hWF => ⟨fun g' n k rem hs =>
      matmulScan_measure g hWF g' n k rem hs, fun extra => ?_⟩,
    fun g hWF => ⟨fun g' n k rem hs =>
      transposeScan_measure g hWF g' n k rem hs, fun extra => ?_⟩,
    fun g hWF => ⟨fun g' n k rem hs =>
      constevalScan_measure g hWF g' n k rem hs, fun extra => ?_⟩⟩
  · unfold sum_identity
    exact passLoop_stable sumScan (fun g0 => idxCount g0 "add")
      (fun g0 g1 n k rem hw hs => sumScan_measure g0 hw g1 n k rem hs)
      (fun g0 g1 n k rem hw hs => ((sumScan_WF g0 hw).2 g1 n k rem hs).1)
      _ g hWF (by dsimp only; omega)
  · unfold matmul_identity
    exact passLoop_stable matmulScan (fun g0 => idxCount g0 "matmul")
      (fun g0 g1 n k rem hw hs => matmulScan_measure g0 hw g1 n k rem hs)
      (fun g0 g1 n k rem hw hs => ((matmulScan_WF g0 hw).2 g1 n k rem hs).1)
      _ g hWF (by dsimp only; omega)
  · unfold transpose_cancelation
    exact passLoop_stable transposeScan (fun g0 => idxCount g0 "transpose")
      (fun g0 g1 n k rem hw hs => transposeScan_measure g0 hw g1 n k rem hs)
      (fun g0 g1 n k rem hw hs => ((transposeScan_WF g0 hw).2 g1 n k rem hs).1)
      _ g hWF (by dsimp only; omega)
  · unfold consteval
    exact passLoop_stable constevalScan opCount
      (fun g0 g1 n k rem hw hs => constevalScan_measure g0 hw g1 n k rem hs)
      (fun g0 g1 n k rem hw hs => ((constevalScan_WF g0 hw).2 g1 n k rem hs).1)
      _ g hWF (by omega)

/-- Witness for C8: the concrete graph `sumG` is well-formed, so every
pass's fuel-stability conclusion holds on it. -/
theorem C8_witness : WF sumG ∧
    (∀ extra, passLoop sumScan (idxCount sumG "add" + 1 + extra) sumG =
      sum_identity sumG) ∧
    (∀ extra, passLoop matmulScan (idxCount sumG "matmul" + 1 + extra) sumG =
      matmul_identity sumG) ∧
    (∀ extra, passLoop transposeScan (idxCount sumG "transpose" + 1 + extra) sumG =
      transpose_cancelation sumG) ∧
    (∀ extra, passLoop constevalScan (opCount sumG + 1 + extra) sumG =
      consteval sumG) :=
  have hWF : WF sumG := ⟨by decide, by decide, by decide, by decide,
    by decide, by decide, by decide, by decide⟩
  ⟨hWF, (C8_passes_terminate.1 sumG hWF).2, (C8_passes_terminate.2.1 sumG hWF).2,
    (C8_passes_terminate.2.2.1 sumG hWF).2, (C8_passes_terminate.2.2.2 sumG hWF).2⟩

/-! ## C3: edge symmetry at every point between operations -/

theorem connectS_outputs (s : Store) (i j a : Nat) :
    ((connectS s i j) a).outputs =
      if a = i then (s i).outputs ++ [j] else (s a).outputs := by
  unfold connectS
  rw [setInputsS_outputs, setOutputsS_outputs]

theorem connectS_inputs (s : Store) (i j b : Nat) :
    ((connectS s i j) b).inputs =
      if b = j then (s j).inputs ++ [i] else (s b).inputs := by
  unfold connectS
  rw [setInputsS_inputs]
  simp only [setOutputsS_inputs]

theorem connectG_edgeSym (g : Graph) (i j : Nat) (h : EdgeSym g) :
    EdgeSym (g.connectG i j) := by
  intro a ha b hb
  have hab := h a ha b hb
  show b ∈ ((connectS g.store i j) a).outputs ↔
    a ∈ ((connectS g.store i j) b).inputs
  rw [connectS_outputs, connectS_inputs]
  by_cases hai : a = i
  · rw [if_pos hai]
    by_cases hbj : b = j
    · rw [if_pos hbj]
      subst hai
      subst hbj
      simp
    · rw [if_neg hbj]
      subst hai
      simp only [List.mem_append, List.mem_singleton]
      constructor
      · rintro (hx | hx)
        · exact hab.1 hx
        · exact absurd hx hbj
      · intro hx
        exact Or.inl (hab.2 hx)
  · rw [if_neg hai]
    by_cases hbj : b = j
    · rw [if_pos hbj]
      subst hbj
      simp only [List.mem_append, List.mem_singleton]
      constructor
      · intro hx
        exact Or.inl (hab.1 hx)
      · rintro (hx | hx)
        · exact hab.2 hx
        · exact absurd hx hai
    · rw [if_neg hbj]
      exact hab

theorem clearShapes_struct (l : List Nat) : ∀ s : Store,
    sameStruct s (l.foldl (fun s i => setShapeS s i none) s) := by
  induction l with
  | nil => intro s; exact sameStruct_refl s
  | cons i rest ih =>
    intro s
    exact sameStruct_trans (sameStruct_setShape s i none) (ih _)

theorem foldl_addIfNew_subset (xs : List Nat) : ∀ (acc N : List Nat),
    (∀ i ∈ acc, i ∈ N) → (∀ i ∈ xs, i ∈ N) →
    ∀ i ∈ xs.foldl (fun acc j => if j ∈ acc then acc else acc ++ [j]) acc,
      i ∈ N := by
  induction xs with
  | nil =>
    intro acc N hacc _ i hi
    exact hacc i hi
  | cons x rest ih =>
    intro acc N hacc hxs i hi
    simp only [List.foldl_cons] at hi
    by_cases hx : x ∈ acc
    · rw [if_pos hx] at hi
      exact ih acc N hacc (fun j hj => hxs j (List.mem_cons_of_mem x hj)) i hi
    · rw [if_neg hx] at hi
      refine ih _ N ?_ (fun j hj => hxs j (List.mem_cons_of_mem x hj)) i hi
      intro j hj
      rcases List.mem_append.1 hj with hj | hj
      · exact hacc j hj
      · rw [List.mem_singleton.1 hj]
        exact hxs x (List.mem_cons_self x rest)

theorem inferShapesBfs_inv (gf : Nat) (N : List Nat) :
    ∀ (fuel : Nat) (s : Store) (queue processed : List Nat)
    (s' : Store) (proc' : List Nat),
    (∀ i ∈ N, ∀ j ∈ (s i).outputs, j ∈ N) →
    (∀ i ∈ N, ∀ j ∈ (s i).inputs, j ∈ N) →
    (∀ i ∈ queue, i ∈ N) → (∀ i ∈ processed, i ∈ N) →
    inferShapesBfs gf s fuel queue processed = some (s', proc') →
    sameStruct s s' ∧ (∀ i ∈ proc', i ∈ N) := by
  intro fuel
  induction fuel with
  | zero =>
    intro s queue processed s' proc' _ _ _ _ h
    simp [inferShapesBfs] at h
  | succ fuel ih =>
    intro s queue processed s' proc' houtC hinC hq hp h
    cases queue with
    | nil =>
      simp only [inferShapesBfs, Option.some.injEq, Prod.mk.injEq] at h
      exact ⟨h.1 ▸ sameStruct_refl s, h.2 ▸ hp⟩
    | cons i rest =>
      simp only [inferShapesBfs] at h
      by_cases hip : i ∈ processed
      · rw [if_pos hip] at h
        exact ih s rest processed s' proc' houtC hinC
          (fun x hx => hq x (List.mem_cons_of_mem i hx)) hp h
      · rw [if_neg hip] at h
        revert h
        cases hg1 : getShape gf s i with
        | none =>
          intro h
          exact absurd h (by simp)
        | some p1 =>
          rcases p1 with ⟨s2, sh⟩
          intro h
          dsimp only at h
          have hst2 : sameStruct s s2 := getShape_struct _ _ _ _ _ hg1
          have hiN : i ∈ N := hq i (List.mem_cons_self i rest)
          have houtC2 : ∀ a ∈ N, ∀ j ∈ (s2 a).outputs, j ∈ N :=
            fun a ha j hj => houtC a ha j ((hst2 a).2.2.2 ▸ hj)
          have hinC2 : ∀ a ∈ N, ∀ j ∈ (s2 a).inputs, j ∈ N :=
            fun a ha j hj => hinC a ha j ((hst2 a).2.2.1 ▸ hj)
          have hq2 : ∀ x ∈ rest ++ (s2 i).outputs, x ∈ N := by
            intro x hx
            rcases List.mem_append.1 hx with hx | hx
            · exact hq x (List.mem_cons_of_mem i hx)
            · exact houtC2 i hiN x hx
          have hp1 : ∀ x ∈ processed ++ [i], x ∈ N := by
            intro x hx
            rcases List.mem_append.1 hx with hx | hx
            · exact hp x hx
            · rw [List.mem_singleton.1 hx]
              exact hiN
          have hp2 : ∀ x ∈ (s2 i).inputs.foldl
              (fun acc j => if j ∈ acc then acc else acc ++ [j])
              (processed ++ [i]), x ∈ N :=
            foldl_addIfNew_subset _ _ N hp1 (fun j hj => hinC2 i hiN j hj)
          obtain ⟨hst3, hpr⟩ := ih s2 _ _ s' proc' houtC2 hinC2 hq2 hp2 h
          exact ⟨sameStruct_trans hst2 hst3, hpr⟩

theorem inferShapes_edgeSym (g g' : Graph) (hsym : EdgeSym g)
    (hinN : ∀ i ∈ g.inputNodes, i ∈ g.nodes)
    (houtC : ∀ i ∈ g.nodes, ∀ j ∈ (g.store i).outputs, j ∈ g.nodes)
    (hinC : ∀ i ∈ g.nodes, ∀ j ∈ (g.store i).inputs, j ∈ g.nodes)
    (h : inferShapes g = some g') : EdgeSym g' := by
  unfold inferShapes at h
  dsimp only at h
  revert h
  cases hb : inferShapesBfs (gsFuel g)
      (g.nodes.foldl (fun s i => setShapeS s i none) g.store)
      (bfsFuel g) g.inputNodes [] with
  | none =>
    intro h
    exact absurd h (by simp)
  | some p =>
    rcases p with ⟨s', processed⟩
    intro h
    dsimp only at h
    simp only [Option.some.injEq] at h
    have hst0 : sameStruct g.store
        (g.nodes.foldl (fun s i => setShapeS s i none) g.store) :=
      clearShapes_struct g.nodes g.store
    have hinv := inferShapesBfs_inv (gsFuel g) g.nodes (bfsFuel g) _
      g.inputNodes [] s' processed
      (fun a ha j hj => houtC a ha j ((hst0 a).2.2.2 ▸ hj))
      (fun a ha j hj => hinC a ha j ((hst0 a).2.2.1 ▸ hj))
      hinN (fun x hx => absurd hx (List.not_mem_nil x)) hb
    obtain ⟨hst1, hproc⟩ := hinv
    have hst : sameStruct g.store s' := sameStruct_trans hst0 hst1
    intro a ha b hb'
    rw [← h]
    rw [← h] at ha hb'
    dsimp only at ha hb' ⊢
    rw [(hst a).2.2.2, (hst b).2.2.1]
    exact hsym a (hproc a ha) b (hproc b hb')

/-- C3: edge symmetry (`b ∈ a.outputs ⟺ a ∈ b.inputs` over the live
nodes) holds at every point between operations: `connect` preserves
it, adding a fresh unconnected node to a well-formed graph preserves
it, `infer_shapes` preserves it on input/edge-closed graphs, and each
of the four optimization passes preserves it on well-formed graphs. -/
theorem C3_edge_symmetry :
    (∀ (g : Graph) (i j : Nat), EdgeSym g → EdgeSym (g.connectG i j)) ∧
    (∀ (g : Graph) (nd : NodeData), WF g → nd.inputs = [] → nd.outputs = [] →
      EdgeSym { g.addNode g.fresh nd with fresh := g.fresh + 1 }) ∧
    (∀ g g' : Graph, EdgeSym g →
      (∀ i ∈ g.inputNodes, i ∈ g.nodes) →
      (∀ i ∈ g.nodes, ∀ j ∈ (g.store i).outputs, j ∈ g.nodes) →
      (∀ i ∈ g.nodes, ∀ j ∈ (g.store i).inputs, j ∈ g.nodes) →
      inferShapes g = some g' → EdgeSym g') ∧
    (∀ g g' : Graph, WF g → sum_identity g = some g' → EdgeSym g') ∧
    (∀ g g' : Graph, WF g → matmul_identity g = some g' → EdgeSym g') ∧
    (∀ g g' : Graph, WF g → consteval g = some g' → EdgeSym g') ∧
    (∀ g g' : Graph, WF g → transpose_cancelation g = some g' → EdgeSym g') :=
  ⟨fun g i j h => connectG_edgeSym g i j h,
   fun g nd hWF hin hout => (WF_addFresh g hWF nd hin hout).edgeSym,
   fun g g' hsym hinN houtC hinC h =>
     inferShapes_edgeSym g g' hsym hinN houtC hinC h,
   fun g g' hWF h => (sum_identity_WF g hWF g' h).edgeSym,
   fun g g' hWF h => (matmul_identity_WF g hWF g' h).edgeSym,
   fun g g' hWF h => (consteval_WF g hWF g' h).edgeSym,
   fun g g' hWF h => (transpose_cancelation_WF g hWF g' h).edgeSym⟩

/-- Witness for C3: all hypotheses are discharged on the concrete
graph `sumG` (and a fresh probe node for the `add_node` part). -/
theorem C3_witness :
    EdgeSym sumG ∧ WF sumG ∧
    EdgeSym (sumG.connectG 0 2) ∧
    EdgeSym { sumG.addNode sumG.fresh
      ⟨"probe_3", mkData .INPUT none, [], [], none, none⟩ with
      fresh := sumG.fresh + 1 } ∧
    (∀ g', inferShapes sumG = some g' → EdgeSym g') ∧
    (∀ g', sum_identity sumG = some g' → EdgeSym g') ∧
    (∀ g', matmul_identity sumG = some g' → EdgeSym g') ∧
    (∀ g', consteval sumG = some g' → EdgeSym g') ∧
    (∀ g', transpose_cancelation sumG = some g' → EdgeSym g') :=
  have hWF : WF sumG := ⟨by decide, by decide, by decide, by decide,
    by decide, by decide, by decide, by decide⟩
  have hsym : EdgeSym sumG := by unfold EdgeSym; decide
  ⟨hsym, hWF,
   C3_edge_symmetry.1 sumG 0 2 hsym,
   C3_edge_symmetry.2.1 sumG ⟨"probe_3", mkData .INPUT none, [], [], none, none⟩
     hWF rfl rfl,
   fun g' h => C3_edge_symmetry.2.2.1 sumG g' hsym (by decide) (by decide)
     (by decide) h,
   fun g' h => C3_edge_symmetry.2.2.2.1 sumG g' hWF h,
   fun g' h => C3_edge_symmetry.2.2.2.2.1 sumG g' hWF h,
   fun g' h => C3_edge_symmetry.2.2.2.2.2.1 sumG g' hWF h,
   fun g' h => C3_edge_symmetry.2.2.2.2.2.2 sumG g' hWF h⟩

/-! ## C7: idempotence of the passes

The fix-path of a scan only reads memos and writes missing ones; on
the scan's own result every check hits the memo and the store is
unchanged, so a second run returns the same fixed point. -/

/-- The static tensor payload of a node kind (`data.value`). -/
def kindData : Kind → Option Tensor
  | .data _ v _ => v
  | .op _ => none

/-- Evolution relation of the memo stores along a scan: structure is
preserved, set memos persist, and a missing tensor memo can only be
filled with the node's own static payload. -/
def MemoPersist (s s' : Store) : Prop :=
  sameStruct s s' ∧
  (∀ i t, (s i).tensor = some t → (s' i).tensor = some t) ∧
  (∀ i sh, (s i).shape = some sh → (s' i).shape = some sh) ∧
  (∀ i, (s i).tensor = none →
    (s' i).tensor = none ∨ (s' i).tensor = kindData (s i).kind)

theorem MemoPersist_refl (s : Store) : MemoPersist s s :=
  ⟨sameStruct_refl s, fun _ _ h => h, fun _ _ h => h, fun _ h => Or.inl h⟩

theorem MemoPersist_trans {s t u : Store} (h1 : MemoPersist s t)
    (h2 : MemoPersist t u) : MemoPersist s u := by
  obtain ⟨hs1, ht1, hsh1, hn1⟩ := h1
  obtain ⟨hs2, ht2, hsh2, hn2⟩ := h2
  refine ⟨sameStruct_trans hs1 hs2, fun i t0 h => ht2 i t0 (ht1 i t0 h),
    fun i sh h => hsh2 i sh (hsh1 i sh h), fun i h => ?_⟩
  rcases hn1 i h with h1 | h1
  · rcases hn2 i h1 with h2 | h2
    · exact Or.inl h2
    · rw [(hs1 i).2.1] at h2
      exact Or.inr h2
  · cases hk : kindData (s i).kind with
    | none =>
      rw [hk] at h1
      rcases hn2 i h1 with h2 | h2
      · exact Or.inl h2
      · rw [(hs1 i).2.1, hk] at h2
        exact Or.inl h2
    | some t0 =>
      rw [hk] at h1
      rw [ht2 i t0 h1, ← hk]
      exact Or.inr rfl

theorem setTensorS_eq_self (s : Store) (i : Nat) (v : Option Tensor)
    (h : (s i).tensor = v) : setTensorS s i v = s := by
  funext j
  by_cases hji : j = i
  · subst hji
    show updStore s j { s j with tensor := v } j = s j
    rw [updStore_self, ← h]
  · exact updStore_other _ _ _ hji

theorem readDataTensor_persist (s : Store) (i : Nat) :
    MemoPersist s (readDataTensor s i).1 := by
  unfold readDataTensor
  cases hm : (s i).tensor with
  | some t => exact MemoPersist_refl s
  | none =>
    cases hk : (s i).kind with
    | op o => exact MemoPersist_refl s
    | data ty v dsh =>
      dsimp only
      refine ⟨sameStruct_setTensor s i v, fun j t0 hj => ?_, fun j sh hj => ?_,
        fun j hj => ?_⟩
      · by_cases hji : j = i
        · subst hji
          rw [hm] at hj
          exact absurd hj (by simp)
        · show (updStore s i { s i with tensor := v } j).tensor = some t0
          rw [updStore_other _ _ _ hji]
          exact hj
      · by_cases hji : j = i
        · subst hji
          show (updStore s j { s j with tensor := v } j).shape = some sh
          rw [updStore_self]
          exact hj
        · show (updStore s i { s i with tensor := v } j).shape = some sh
          rw [updStore_other _ _ _ hji]
          exact hj
      · by_cases hji : j = i
        · subst hji
          show (updStore s j { s j with tensor := v } j).tensor = none ∨
            (updStore s j { s j with tensor := v } j).tensor = kindData (s j).kind
          rw [updStore_self, hk]
          exact Or.inr rfl
        · show (updStore s i { s i with tensor := v } j).tensor = none ∨ _
          rw [updStore_other _ _ _ hji]
          exact Or.inl hj

theorem setTensorS_kind (s : Store) (i : Nat) (v : Option Tensor) (j : Nat) :
    ((setTensorS s i v) j).kind = (s j).kind := by
  by_cases hji : j = i
  · subst hji
    show (updStore s j { s j with tensor := v } j).kind = (s j).kind
    rw [updStore_self]
  · show (updStore s i { s i with tensor := v } j).kind = (s j).kind
    rw [updStore_other _ _ _ hji]

theorem readDataTensor_stable (s s2 : Store) (i : Nat)
    (hp : MemoPersist (readDataTensor s i).1 s2) :
    readDataTensor s2 i = (s2, (readDataTensor s i).2) := by
  unfold readDataTensor at hp ⊢
  cases hm : (s i).tensor with
  | some t =>
    rw [hm] at hp
    dsimp only at hp
    have h2 : (s2 i).tensor = some t := hp.2.1 i t hm
    rw [h2]
  | none =>
    rw [hm] at hp
    cases hk : (s i).kind with
    | op o =>
      rw [hk] at hp
      dsimp only at hp
      have hink : (s2 i).kind = .op o := by rw [(hp.1 i).2.1, hk]
      have h2 : (s2 i).tensor = none := by
        rcases hp.2.2.2 i hm with h | h
        · exact h
        · rw [hk] at h
          exact h
      rw [h2, hink]
    | data ty v dsh =>
      rw [hk] at hp
      dsimp only at hp
      have hink : (s2 i).kind = .data ty v dsh := by
        rw [(hp.1 i).2.1, setTensorS_kind, hk]
      have hwf : ((setTensorS s i v) i).tensor = v := by
        show (updStore s i { s i with tensor := v } i).tensor = v
        rw [updStore_self]
      cases hv : v with
      | some t =>
        have h2 : (s2 i).tensor = some t := hp.2.1 i t (by rw [hwf, hv])
        rw [h2]
      | none =>
        have h2 : (s2 i).tensor = none := by
          rcases hp.2.2.2 i (by rw [hwf, hv]) with h | h
          · exact h
          · rw [setTensorS_kind, hk] at h
            rw [h, hv]
            rfl
        rw [h2, hink]
        dsimp only
        rw [hv, setTensorS_eq_self s2 i none h2]

theorem isZeroTensorChk_persist (s : Store) (i : Nat) :
    MemoPersist s (isZeroTensorChk s i).1 := by
  unfold isZeroTensorChk
  cases hk : (s i).kind with
  | op o => exact MemoPersist_refl s
  | data ty v dsh =>
    cases ty with
    | CONSTANT =>
      dsimp only
      have hper := readDataTensor_persist s i
      cases hrd : readDataTensor s i with
      | mk s' t =>
        rw [hrd] at hper
        cases t with
        | none => exact hper
        | some t0 => exact hper
    | INPUT => exact MemoPersist_refl s
    | VARIABLE => exact MemoPersist_refl s
    | PARAMETER => exact MemoPersist_refl s

theorem isZeroTensorChk_stable (s s2 : Store) (i : Nat)
    (hp : MemoPersist (isZeroTensorChk s i).1 s2) :
    isZeroTensorChk s2 i = (s2, (isZeroTensorChk s i).2) := by
  unfold isZeroTensorChk at hp ⊢
  cases hk : (s i).kind with
  | op o =>
    rw [hk] at hp
    dsimp only at hp
    have hink : (s2 i).kind = .op o := by rw [(hp.1 i).2.1, hk]
    rw [hink]
  | data ty v dsh =>
    cases ty with
    | INPUT =>
      rw [hk] at hp
      dsimp only at hp
      have hink : (s2 i).kind = .data .INPUT v dsh := by rw [(hp.1 i).2.1, hk]
      rw [hink]
    | VARIABLE =>
      rw [hk] at hp
      dsimp only at hp
      have hink : (s2 i).kind = .data .VARIABLE v dsh := by rw [(hp.1 i).2.1, hk]
      rw [hink]
    | PARAMETER =>
      rw [hk] at hp
      dsimp only at hp
      have hink : (s2 i).kind = .data .PARAMETER v dsh := by rw [(hp.1 i).2.1, hk]
      rw [hink]
    | CONSTANT =>
      rw [hk] at hp
      dsimp only at hp
      cases hrd : readDataTensor s i with
      | mk s' t =>
        rw [hrd] at hp
        have hp' : MemoPersist (readDataTensor s i).1 s2 := by
          rw [hrd]
          cases t with
          | none => exact hp
          | some t0 => exact hp
        have hink : (s2 i).kind = .data .CONSTANT v dsh := by
          rw [((MemoPersist_trans (readDataTensor_persist s i) hp').1 i).2.1, hk]
        have hstab := readDataTensor_stable s s2 i hp'
        rw [hink]
        dsimp only
        rw [hstab, hrd]
        cases t with
        | none => rfl
        | some t0 => rfl

theorem isOneTensorChk_persist (s : Store) (i : Nat) :
    MemoPersist s (isOneTensorChk s i).1 := by
  unfold isOneTensorChk
  cases hk : (s i).kind with
  | op o => exact MemoPersist_refl s
  | data ty v dsh =>
    cases ty with
    | CONSTANT =>
      dsimp only
      have hper := readDataTensor_persist s i
      cases hrd : readDataTensor s i with
      | mk s' t =>
        rw [hrd] at hper
        cases t with
        | none => exact hper
        | some t0 => exact hper
    | INPUT => exact MemoPersist_refl s
    | VARIABLE => exact MemoPersist_refl s
    | PARAMETER => exact MemoPersist_refl s

theorem isOneTensorChk_stable (s s2 : Store) (i : Nat)
    (hp : MemoPersist (isOneTensorChk s i).1 s2) :
    isOneTensorChk s2 i = (s2, (isOneTensorChk s i).2) := by
  unfold isOneTensorChk at hp ⊢
  cases hk : (s i).kind with
  | op o =>
    rw [hk] at hp
    dsimp only at hp
    have hink : (s2 i).kind = .op o := by rw [(hp.1 i).2.1, hk]
    rw [hink]
  | data ty v dsh =>
    cases ty with
    | INPUT =>
      rw [hk] at hp
      dsimp only at hp
      have hink : (s2 i).kind = .data .INPUT v dsh := by rw [(hp.1 i).2.1, hk]
      rw [hink]
    | VARIABLE =>
      rw [hk] at hp
      dsimp only at hp
      have hink : (s2 i).kind = .data .VARIABLE v dsh := by rw [(hp.1 i).2.1, hk]
      rw [hink]
    | PARAMETER =>
      rw [hk] at hp
      dsimp only at hp
      have hink : (s2 i).kind = .data .PARAMETER v dsh := by rw [(hp.1 i).2.1, hk]
      rw [hink]
    | CONSTANT =>
      rw [hk] at hp
      dsimp only at hp
      cases hrd : readDataTensor s i with
      | mk s' t =>
        rw [hrd] at hp
        have hp' : MemoPersist (readDataTensor s i).1 s2 := by
          rw [hrd]
          cases t with
          | none => exact hp
          | some t0 => exact hp
        have hink : (s2 i).kind = .data .CONSTANT v dsh := by
          rw [((MemoPersist_trans (readDataTensor_persist s i) hp').1 i).2.1, hk]
        have hstab := readDataTensor_stable s s2 i hp'
        rw [hink]
        dsimp only
        rw [hstab, hrd]
        cases t with
        | none => rfl
        | some t0 => rfl

theorem setShapeS_tensor (s : Store) (i : Nat) (sh : Option (List Nat))
    (j : Nat) : ((setShapeS s i sh) j).tensor = (s j).tensor := by
  by_cases hji : j = i
  · subst hji
    show (updStore s j { s j with shape := sh } j).tensor = (s j).tensor
    rw [updStore_self]
  · show (updStore s i { s i with shape := sh } j).tensor = (s j).tensor
    rw [updStore_other _ _ _ hji]

theorem setShapeS_shape (s : Store) (i : Nat) (sh : Option (List Nat))
    (j : Nat) : ((setShapeS s i sh) j).shape =
      if j = i then sh else (s j).shape := by
  by_cases hji : j = i
  · subst hji
    rw [if_pos rfl]
    show (updStore s j { s j with shape := sh } j).shape = sh
    rw [updStore_self]
  · rw [if_neg hji]
    show (updStore s i { s i with shape := sh } j).shape = (s j).shape
    rw [updStore_other _ _ _ hji]

theorem MemoPersist_setShape (s s2 : Store) (i : Nat) (sh : List Nat)
    (h : MemoPersist s s2) (h0 : (s i).shape = none) :
    MemoPersist s (setShapeS s2 i (some sh)) := by
  refine ⟨sameStruct_trans h.1 (sameStruct_setShape s2 i (some sh)),
    fun j t hj => ?_, fun j sh0 hj => ?_, fun j hj => ?_⟩
  · rw [setShapeS_tensor]
    exact h.2.1 j t hj
  · rw [setShapeS_shape]
    by_cases hji : j = i
    · subst hji
      rw [h0] at hj
      exact absurd hj (by simp)
    · rw [if_neg hji]
      exact h.2.2.1 j sh0 hj
  · rw [setShapeS_tensor]
    exact h.2.2.2 j hj

theorem getShape_persist (fuel : Nat) (s : Store) (i : Nat) :
    ∀ s' sh, getShape fuel s i = some (s', sh) → MemoPersist s s' := by
  induction fuel generalizing s i with
  | zero => intro s' sh h; exact absurd h (by simp [getShape])
  | succ fuel ih =>
    intro s' sh h
    unfold getShape at h
    cases hm : (s i).shape with
    | some sh0 =>
      simp [hm] at h
      obtain ⟨h1, _⟩ := h
      exact h1 ▸ MemoPersist_refl s
    | none =>
      simp only [hm] at h
      cases hk : (s i).kind with
      | data ty v dsh =>
        simp only [hk] at h
        cases dsh with
        | none => simp at h
        | some sh1 =>
          simp at h
          obtain ⟨h1, _⟩ := h
          exact h1 ▸ MemoPersist_setShape s s i sh1 (MemoPersist_refl s) hm
      | op o =>
        simp only [hk] at h
        have h2 : (match (s i).inputs.foldl (shapeFoldStep fuel) (some (s, [])) with
            | none => none
            | some (s', shs) =>
              match opInferShape o shs with
              | none => none
              | some sh => some (setShapeS s' i (some sh), sh)) = some (s', sh) := h
        clear h
        have hfold : ∀ (l : List Nat) (acc : Store × List (List Nat)),
            MemoPersist s acc.1 →
            ∀ r, l.foldl (shapeFoldStep fuel) (some acc) = some r →
              MemoPersist s r.1 := by
          intro l
          induction l with
          | nil => intro acc hacc r hr; simp at hr; exact hr ▸ hacc
          | cons j rest ihl =>
            intro acc hacc r hr
            simp only [List.foldl_cons] at hr
            cases hg : getShape fuel acc.1 j with
            | none =>
              rw [show shapeFoldStep fuel (some acc) j = none by
                  simp [shapeFoldStep, hg]] at hr
              rw [shapeFold_none] at hr
              exact absurd hr (by simp)
            | some q =>
              have hq := ih acc.1 j q.1 q.2 (by rw [hg])
              rw [show shapeFoldStep fuel (some acc) j =
                  some (q.1, acc.2 ++ [q.2]) by simp [shapeFoldStep, hg]] at hr
              exact ihl (q.1, acc.2 ++ [q.2]) (MemoPersist_trans hacc hq) r hr
        cases hfr : (s i).inputs.foldl (shapeFoldStep fuel) (some (s, [])) with
        | none => simp [hfr] at h2
        | some p =>
          have hp := hfold (s i).inputs (s, []) (MemoPersist_refl s) p hfr
          simp only [hfr] at h2
          cases hos : opInferShape o p.2 with
          | none => simp [hos] at h2
          | some sh1 =>
            simp [hos] at h2
            obtain ⟨h1, _⟩ := h2
            exact h1 ▸ MemoPersist_setShape s p.1 i sh1 hp hm

theorem getShape_writes_top (fuel : Nat) (s : Store) (i : Nat) (s' : Store)
    (sh : List Nat) (h : getShape fuel s i = some (s', sh)) :
    (s' i).shape = some sh := by
  cases fuel with
  | zero => exact absurd h (by simp [getShape])
  | succ fuel =>
    unfold getShape at h
    cases hm : (s i).shape with
    | some sh0 =>
      simp [hm] at h
      obtain ⟨h1, h2⟩ := h
      rw [← h1, hm, h2]
    | none =>
      simp only [hm] at h
      cases hk : (s i).kind with
      | data ty v dsh =>
        simp only [hk] at h
        cases dsh with
        | none => simp at h
        | some sh1 =>
          simp at h
          obtain ⟨h1, h2⟩ := h
          rw [← h1, setShapeS_shape, if_pos rfl, h2]
      | op o =>
        simp only [hk] at h
        have h2 : (match (s i).inputs.foldl (shapeFoldStep fuel) (some (s, [])) with
            | none => none
            | some (s', shs) =>
              match opInferShape o shs with
              | none => none
              | some sh => some (setShapeS s' i (some sh), sh)) = some (s', sh) := h
        clear h
        cases hfr : (s i).inputs.foldl (shapeFoldStep fuel) (some (s, [])) with
        | none => simp [hfr] at h2
        | some p =>
          simp only [hfr] at h2
          cases hos : opInferShape o p.2 with
          | none => simp [hos] at h2
          | some sh1 =>
            simp [hos] at h2
            obtain ⟨h1, h3⟩ := h2
            rw [← h1, setShapeS_shape, if_pos rfl, h3]

theorem getShape_stable (fuel : Nat) (s : Store) (i : Nat) (s1 : Store)
    (sh : List Nat) (h : getShape fuel s i = some (s1, sh)) (s2 : Store)
    (hp : MemoPersist s1 s2) (f2 : Nat) :
    getShape (f2 + 1) s2 i = some (s2, sh) := by
  have hmemo : (s2 i).shape = some sh :=
    hp.2.2.1 i sh (getShape_writes_top fuel s i s1 sh h)
  unfold getShape
  rw [hmemo]

theorem sumScanAux_fix_inv (l : List Nat) : ∀ (g g' : Graph),
    sumScanAux g l = .fix g' →
    MemoPersist g.store g'.store ∧ g' = { g with store := g'.store } := by
  induction l with
  | nil =>
    intro g g' h
    simp only [sumScanAux, ScanRes.fix.injEq] at h
    subst h
    exact ⟨MemoPersist_refl g.store, rfl⟩
  | cons c rest ih =>
    intro g g' h
    cases hins : (g.store c).inputs with
    | nil =>
      rw [show sumScanAux g (c :: rest) = sumScanAux g rest by
        simp only [sumScanAux, hins]] at h
      exact ih g g' h
    | cons p t =>
      cases t with
      | nil =>
        rw [show sumScanAux g (c :: rest) = sumScanAux g rest by
          simp only [sumScanAux, hins]] at h
        exact ih g g' h
      | cons q t2 =>
        cases t2 with
        | cons x t3 =>
          rw [show sumScanAux g (c :: rest) = sumScanAux g rest by
            simp only [sumScanAux, hins]] at h
          exact ih g g' h
        | nil =>
          simp only [sumScanAux, hins] at h
          by_cases hz : (isZeroTensorChk g.store p).2 ||
              (isZeroTensorChk (isZeroTensorChk g.store p).1 q).2
          · rw [if_pos hz] at h
            simp at h
          · rw [if_neg hz] at h
            have hmid := ih _ g' h
            refine ⟨MemoPersist_trans (MemoPersist_trans
              (isZeroTensorChk_persist g.store p)
              (isZeroTensorChk_persist (isZeroTensorChk g.store p).1 q))
              hmid.1, hmid.2⟩

theorem sumScanAux_refix (l : List Nat) : ∀ (g g' : Graph),
    sumScanAux g l = .fix g' → sumScanAux g' l = .fix g' := by
  induction l with
  | nil =>
    intro g g' h
    simp only [sumScanAux, ScanRes.fix.injEq] at h
    subst h
    rfl
  | cons c rest ih =>
    intro g g' h
    cases hins : (g.store c).inputs with
    | nil =>
      rw [show sumScanAux g (c :: rest) = sumScanAux g rest by
        simp only [sumScanAux, hins]] at h
      have hinv := sumScanAux_fix_inv rest g g' h
      have hins' : (g'.store c).inputs = [] := by
        rw [(hinv.1.1 c).2.2.1, hins]
      rw [show sumScanAux g' (c :: rest) = sumScanAux g' rest by
        simp only [sumScanAux, hins']]
      exact ih g g' h
    | cons p t =>
      cases t with
      | nil =>
        rw [show sumScanAux g (c :: rest) = sumScanAux g rest by
          simp only [sumScanAux, hins]] at h
        have hinv := sumScanAux_fix_inv rest g g' h
        have hins' : (g'.store c).inputs = [p] := by
          rw [(hinv.1.1 c).2.2.1, hins]
        rw [show sumScanAux g' (c :: rest) = sumScanAux g' rest by
          simp only [sumScanAux, hins']]
        exact ih g g' h
      | cons q t2 =>
        cases t2 with
        | cons x t3 =>
          rw [show sumScanAux g (c :: rest) = sumScanAux g rest by
            simp only [sumScanAux, hins]] at h
          have hinv := sumScanAux_fix_inv rest g g' h
          have hins' : (g'.store c).inputs = p :: q :: x :: t3 := by
            rw [(hinv.1.1 c).2.2.1, hins]
          rw [show sumScanAux g' (c :: rest) = sumScanAux g' rest by
            simp only [sumScanAux, hins']]
          exact ih g g' h
        | nil =>
          simp only [sumScanAux, hins] at h
          by_cases hz : (isZeroTensorChk g.store p).2 ||
              (isZeroTensorChk (isZeroTensorChk g.store p).1 q).2
          · rw [if_pos hz] at h
            simp at h
          · rw [if_neg hz] at h
            have hinv := sumScanAux_fix_inv rest
              { g with store := (isZeroTensorChk (isZeroTensorChk g.store p).1 q).1 }
              g' h
            have hper2 : MemoPersist
                (isZeroTensorChk (isZeroTensorChk g.store p).1 q).1 g'.store :=
              hinv.1
            have hstab1 : isZeroTensorChk g'.store p =
                (g'.store, (isZeroTensorChk g.store p).2) :=
              isZeroTensorChk_stable g.store g'.store p
                (MemoPersist_trans
                  (isZeroTensorChk_persist (isZeroTensorChk g.store p).1 q) hper2)
            have hstab2 : isZeroTensorChk g'.store q =
                (g'.store, (isZeroTensorChk (isZeroTensorChk g.store p).1 q).2) :=
              isZeroTensorChk_stable (isZeroTensorChk g.store p).1 g'.store q hper2
            have hins' : (g'.store c).inputs = [p, q] := by
              have hst : sameStruct g.store g'.store :=
                sameStruct_trans (sameStruct_trans
                  (isZeroTensorChk_struct g.store p)
                  (isZeroTensorChk_struct (isZeroTensorChk g.store p).1 q))
                  hper2.1
              rw [(hst c).2.2.1, hins]
            simp only [sumScanAux, hins', hstab1, hstab2]
            rw [if_neg hz]
            exact ih _ g' h

theorem sumScan_refix (g g' : Graph) (h : sumScan g = .fix g') :
    sumScan g' = .fix g' := by
  unfold sumScan at h ⊢
  revert h
  cases hf : idxFind g.index "add" with
  | none =>
    intro h
    simp only [ScanRes.fix.injEq] at h
    subst h
    rw [hf]
  | some l =>
    intro h
    have hinv := sumScanAux_fix_inv l g g' h
    have hidx : g'.index = g.index := by rw [hinv.2]
    rw [hidx, hf]
    exact sumScanAux_refix l g g' h

theorem matmulScanAux_fix_inv (l : List Nat) : ∀ (g g' : Graph),
    matmulScanAux g l = .fix g' →
    MemoPersist g.store g'.store ∧ g' = { g with store := g'.store } := by
  induction l with
  | nil =>
    intro g g' h
    simp only [matmulScanAux, ScanRes.fix.injEq] at h
    subst h
    exact ⟨MemoPersist_refl g.store, rfl⟩
  | cons c rest ih =>
    intro g g' h
    cases hins : (g.store c).inputs with
    | nil =>
      rw [show matmulScanAux g (c :: rest) = matmulScanAux g rest by
        simp only [matmulScanAux, hins]] at h
      exact ih g g' h
    | cons p t =>
      cases t with
      | nil =>
        rw [show matmulScanAux g (c :: rest) = matmulScanAux g rest by
          simp only [matmulScanAux, hins]] at h
        exact ih g g' h
      | cons q t2 =>
        cases t2 with
        | cons x t3 =>
          rw [show matmulScanAux g (c :: rest) = matmulScanAux g rest by
            simp only [matmulScanAux, hins]] at h
          exact ih g g' h
        | nil =>
          have hper12 : MemoPersist g.store
              (isOneTensorChk (isOneTensorChk g.store p).1 q).1 :=
            MemoPersist_trans (isOneTensorChk_persist g.store p)
              (isOneTensorChk_persist (isOneTensorChk g.store p).1 q)
          simp only [matmulScanAux, hins] at h
          by_cases h12 : (isOneTensorChk g.store p).2 ||
              (isOneTensorChk (isOneTensorChk g.store p).1 q).2
          · rw [if_pos h12] at h
            by_cases hni : !(isOneTensorChk g.store p).2 ||
                !(isOneTensorChk (isOneTensorChk g.store p).1 q).2
            · rw [if_pos hni] at h
              simp at h
            · rw [if_neg hni] at h
              revert h
              cases hg1 : getShape (gsFuel g)
                  (isOneTensorChk (isOneTensorChk g.store p).1 q).1 p with
              | none =>
                intro h
                exact absurd h (by simp)
              | some p3 =>
                rcases p3 with ⟨s3, shK⟩
                intro h
                dsimp only at h
                revert h
                cases hg2 : getShape (gsFuel g) s3 c with
                | none =>
                  intro h
                  exact absurd h (by simp)
                | some p4 =>
                  rcases p4 with ⟨s4, shN⟩
                  intro h
                  dsimp only at h
                  by_cases hsh : shK ≠ shN
                  · rw [if_pos hsh] at h
                    have hmid := ih _ g' h
                    refine ⟨MemoPersist_trans (MemoPersist_trans
                      (MemoPersist_trans hper12
                        (getShape_persist _ _ _ _ _ hg1))
                      (getShape_persist _ _ _ _ _ hg2)) hmid.1, hmid.2⟩
                  · rw [if_neg hsh] at h
                    simp at h
          · rw [if_neg h12] at h
            have hmid := ih _ g' h
            exact ⟨MemoPersist_trans hper12 hmid.1, hmid.2⟩

theorem matmulScanAux_refix (l : List Nat) : ∀ (g g' : Graph),
    matmulScanAux g l = .fix g' → matmulScanAux g' l = .fix g' := by
  induction l with
  | nil =>
    intro g g' h
    simp only [matmulScanAux, ScanRes.fix.injEq] at h
    subst h
    rfl
  | cons c rest ih =>
    intro g g' h
    cases hins : (g.store c).inputs with
    | nil =>
      rw [show matmulScanAux g (c :: rest) = matmulScanAux g rest by
        simp only [matmulScanAux, hins]] at h
      have hinv := matmulScanAux_fix_inv rest g g' h
      have hins' : (g'.store c).inputs = [] := by
        rw [(hinv.1.1 c).2.2.1, hins]
      rw [show matmulScanAux g' (c :: rest) = matmulScanAux g' rest by
        simp only [matmulScanAux, hins']]
      exact ih g g' h
    | cons p t =>
      cases t with
      | nil =>
        rw [show matmulScanAux g (c :: rest) = matmulScanAux g rest by
          simp only [matmulScanAux, hins]] at h
        have hinv := matmulScanAux_fix_inv rest g g' h
        have hins' : (g'.store c).inputs = [p] := by
          rw [(hinv.1.1 c).2.2.1, hins]
        rw [show matmulScanAux g' (c :: rest) = matmulScanAux g' rest by
          simp only [matmulScanAux, hins']]
        exact ih g g' h
      | cons q t2 =>
        cases t2 with
        | cons x t3 =>
          rw [show matmulScanAux g (c :: rest) = matmulScanAux g rest by
            simp only [matmulScanAux, hins]] at h
          have hinv := matmulScanAux_fix_inv rest g g' h
          have hins' : (g'.store c).inputs = p :: q :: x :: t3 := by
            rw [(hinv.1.1 c).2.2.1, hins]
          rw [show matmulScanAux g' (c :: rest) = matmulScanAux g' rest by
            simp only [matmulScanAux, hins']]
          exact ih g g' h
        | nil =>
          have hper1 : MemoPersist (isOneTensorChk g.store p).1
              (isOneTensorChk (isOneTensorChk g.store p).1 q).1 :=
            isOneTensorChk_persist (isOneTensorChk g.store p).1 q
          simp only [matmulScanAux, hins] at h
          by_cases h12 : (isOneTensorChk g.store p).2 ||
              (isOneTensorChk (isOneTensorChk g.store p).1 q).2
          · rw [if_pos h12] at h
            by_cases hni : !(isOneTensorChk g.store p).2 ||
                !(isOneTensorChk (isOneTensorChk g.store p).1 q).2
            · rw [if_pos hni] at h
              simp at h
            · rw [if_neg hni] at h
              revert h
              cases hg1 : getShape (gsFuel g)
                  (isOneTensorChk (isOneTensorChk g.store p).1 q).1 p with
              | none =>
                intro h
                exact absurd h (by simp)
              | some p3 =>
                rcases p3 with ⟨s3, shK⟩
                intro h
                dsimp only at h
                revert h
                cases hg2 : getShape (gsFuel g) s3 c with
                | none =>
                  intro h
                  exact absurd h (by simp)
                | some p4 =>
                  rcases p4 with ⟨s4, shN⟩
                  intro h
                  dsimp only at h
                  by_cases hsh : shK ≠ shN
                  · rw [if_pos hsh] at h
                    have hinv := matmulScanAux_fix_inv rest
                      { g with store := s4 } g' h
                    have hper4 : MemoPersist s4 g'.store := hinv.1
                    have hper3 : MemoPersist s3 g'.store :=
                      MemoPersist_trans (getShape_persist _ _ _ _ _ hg2) hper4
                    have hper2 : MemoPersist
                        (isOneTensorChk (isOneTensorChk g.store p).1 q).1
                        g'.store :=
                      MemoPersist_trans (getShape_persist _ _ _ _ _ hg1) hper3
                    have hstab1 : isOneTensorChk g'.store p =
                        (g'.store, (isOneTensorChk g.store p).2) :=
                      isOneTensorChk_stable g.store g'.store p
                        (MemoPersist_trans hper1 hper2)
                    have hstab2 : isOneTensorChk g'.store q =
                        (g'.store,
                          (isOneTensorChk (isOneTensorChk g.store p).1 q).2) :=
                      isOneTensorChk_stable (isOneTensorChk g.store p).1
                        g'.store q hper2
                    have hgs1 : getShape (gsFuel g') g'.store p =
                        some (g'.store, shK) :=
                      getShape_stable _ _ _ _ _ hg1 g'.store hper3 g'.fresh
                    have hgs2 : getShape (gsFuel g') g'.store c =
                        some (g'.store, shN) :=
                      getShape_stable _ _ _ _ _ hg2 g'.store hper4 g'.fresh
                    have hins' : (g'.store c).inputs = [p, q] := by
                      have hst : sameStruct g.store g'.store :=
                        sameStruct_trans (isOneTensorChk_struct g.store p)
                          (sameStruct_trans hper1.1 hper2.1)
                      rw [(hst c).2.2.1, hins]
                    simp only [matmulScanAux, hins', hstab1, hstab2]
                    rw [if_pos h12, if_neg hni]
                    rw [hgs1]
                    dsimp only
                    rw [hgs2]
                    dsimp only
                    rw [if_pos hsh]
                    exact ih _ g' h
                  · rw [if_neg hsh] at h
                    simp at h
          · rw [if_neg h12] at h
            have hinv := matmulScanAux_fix_inv rest
              { g with store :=
                (isOneTensorChk (isOneTensorChk g.store p).1 q).1 } g' h
            have hper2 : MemoPersist
                (isOneTensorChk (isOneTensorChk g.store p).1 q).1 g'.store :=
              hinv.1
            have hstab1 : isOneTensorChk g'.store p =
                (g'.store, (isOneTensorChk g.store p).2) :=
              isOneTensorChk_stable g.store g'.store p
                (MemoPersist_trans hper1 hper2)
            have hstab2 : isOneTensorChk g'.store q =
                (g'.store, (isOneTensorChk (isOneTensorChk g.store p).1 q).2) :=
              isOneTensorChk_stable (isOneTensorChk g.store p).1 g'.store q hper2
            have hins' : (g'.store c).inputs = [p, q] := by
              have hst : sameStruct g.store g'.store :=
                sameStruct_trans (isOneTensorChk_struct g.store p)
                  (sameStruct_trans hper1.1 hper2.1)
              rw [(hst c).2.2.1, hins]
            simp only [matmulScanAux, hins', hstab1, hstab2]
            rw [if_neg h12]
            exact ih _ g' h

theorem matmulScan_refix (g g' : Graph) (h : matmulScan g = .fix g') :
    matmulScan g' = .fix g' := by
  unfold matmulScan at h ⊢
  revert h
  cases hf : idxFind g.index "matmul" with
  | none =>
    intro h
    simp only [ScanRes.fix.injEq] at h
    subst h
    rw [hf]
  | some l =>
    intro h
    have hinv := matmulScanAux_fix_inv l g g' h
    have hidx : g'.index = g.index := by rw [hinv.2]
    rw [hidx, hf]
    exact matmulScanAux_refix l g g' h

theorem constevalScanAux_fix_eq (l : List Nat) : ∀ (g g' : Graph),
    constevalScanAux g l = .fix g' → g' = g := by
  induction l with
  | nil =>
    intro g g' h
    simp only [constevalScanAux, ScanRes.fix.injEq] at h
    exact h.symm
  | cons c rest ih =>
    intro g g' h
    cases hk : (g.store c).kind with
    | data ty v dsh =>
      simp only [constevalScanAux, hk] at h
      exact ih g g' h
    | op o =>
      simp only [constevalScanAux, hk] at h
      by_cases hcand : (g.store c).inputs ≠ [] ∧
          ((g.store c).inputs.all fun j => isConstData (g.store j).kind)
      · rw [if_pos hcand] at h
        revert h
        cases hrt : readTensors g.store (g.store c).inputs with
        | mk s' ts =>
          cases ts with
          | none =>
            intro h
            exact absurd h (by simp)
          | some tl =>
            intro h
            dsimp only at h
            revert h
            cases hop : opForward o tl with
            | none =>
              intro h
              exact absurd h (by simp)
            | some result =>
              intro h
              exact absurd h (by simp)
      · rw [if_neg hcand] at h
        exact ih g g' h

theorem constevalScan_refix (g g' : Graph) (h : constevalScan g = .fix g') :
    constevalScan g' = .fix g' := by
  have heq : g' = g := constevalScanAux_fix_eq g.nodes g g' h
  subst heq
  exact h

theorem transposeInnerAux_no_fix (ins : List Nat) : ∀ (g : Graph) (t2 : Nat)
    (g0 : Graph), transposeInnerAux g t2 ins ≠ .inl (.fix g0) := by
  induction ins with
  | nil =>
    intro g t2 g0 h
    simp [transposeInnerAux] at h
  | cons t1 rest ih =>
    intro g t2 g0 h
    simp only [transposeInnerAux] at h
    by_cases h1 : t1 ∈ (idxFind g.index "transpose").getD []
    · rw [if_pos h1] at h
      by_cases h2 : (g.store t1).outputs = [t2]
      · rw [if_pos h2] at h
        revert h
        cases hi : (g.store t1).inputs with
        | nil =>
          intro h
          simp at h
        | cons orig t =>
          intro h
          dsimp only at h
          revert h
          cases hg1 : getShape (gsFuel g) g.store orig with
          | none =>
            intro h
            simp at h
          | some p1 =>
            rcases p1 with ⟨s1, shO⟩
            intro h
            dsimp only at h
            revert h
            cases hg2 : getShape (gsFuel g) s1 t2 with
            | none =>
              intro h
              simp at h
            | some p2 =>
              rcases p2 with ⟨s2, shF⟩
              intro h
              dsimp only at h
              by_cases hsh : shO = shF
              · rw [if_pos hsh] at h
                simp at h
              · rw [if_neg hsh] at h
                exact ih { g with store := s2 } t2 g0 h
      · rw [if_neg h2] at h
        exact ih g t2 g0 h
    · rw [if_neg h1] at h
      exact ih g t2 g0 h

theorem transposeInnerAux_inr_persist (ins : List Nat) : ∀ (g : Graph)
    (t2 : Nat) (g2 : Graph), transposeInnerAux g t2 ins = .inr g2 →
    MemoPersist g.store g2.store ∧ g2 = { g with store := g2.store } := by
  induction ins with
  | nil =>
    intro g t2 g2 h
    simp only [transposeInnerAux, Sum.inr.injEq] at h
    subst h
    exact ⟨MemoPersist_refl g.store, rfl⟩
  | cons t1 rest ih =>
    intro g t2 g2 h
    simp only [transposeInnerAux] at h
    by_cases h1 : t1 ∈ (idxFind g.index "transpose").getD []
    · rw [if_pos h1] at h
      by_cases h2 : (g.store t1).outputs = [t2]
      · rw [if_pos h2] at h
        revert h
        cases hi : (g.store t1).inputs with
        | nil =>
          intro h
          exact absurd h (by simp)
        | cons orig t =>
          intro h
          dsimp only at h
          revert h
          cases hg1 : getShape (gsFuel g) g.store orig with
          | none =>
            intro h
            exact absurd h (by simp)
          | some p1 =>
            rcases p1 with ⟨s1, shO⟩
            intro h
            dsimp only at h
            revert h
            cases hg2 : getShape (gsFuel g) s1 t2 with
            | none =>
              intro h
              exact absurd h (by simp)
            | some p2 =>
              rcases p2 with ⟨s2, shF⟩
              intro h
              dsimp only at h
              by_cases hsh : shO = shF
              · rw [if_pos hsh] at h
                exact absurd h (by simp)
              · rw [if_neg hsh] at h
                have hmid := ih { g with store := s2 } t2 g2 h
                refine ⟨MemoPersist_trans (MemoPersist_trans
                  (getShape_persist _ _ _ _ _ hg1)
                  (getShape_persist _ _ _ _ _ hg2)) hmid.1, hmid.2⟩
      · rw [if_neg h2] at h
        exact ih g t2 g2 h
    · rw [if_neg h1] at h
      exact ih g t2 g2 h

theorem transposeInnerAux_reinr (ins : List Nat) : ∀ (g g2 gF : Graph)
    (t2 : Nat), transposeInnerAux g t2 ins = .inr g2 →
    MemoPersist g2.store gF.store → gF.index = g.index →
    transposeInnerAux gF t2 ins = .inr gF := by
  induction ins with
  | nil =>
    intro g g2 gF t2 _ _ _
    rfl
  | cons t1 rest ih =>
    intro g g2 gF t2 h hper hidx
    simp only [transposeInnerAux] at h
    have hstructg2 := transposeInnerAux_inr_persist (t1 :: rest) g t2 g2
    by_cases h1 : t1 ∈ (idxFind g.index "transpose").getD []
    · rw [if_pos h1] at h
      have h1' : t1 ∈ (idxFind gF.index "transpose").getD [] := by
        rw [hidx]
        exact h1
      by_cases h2 : (g.store t1).outputs = [t2]
      · rw [if_pos h2] at h
        revert h
        cases hi : (g.store t1).inputs with
        | nil =>
          intro h
          exact absurd h (by simp)
        | cons orig t =>
          intro h
          dsimp only at h
          revert h
          cases hg1 : getShape (gsFuel g) g.store orig with
          | none =>
            intro h
            exact absurd h (by simp)
          | some p1 =>
            rcases p1 with ⟨s1, shO⟩
            intro h
            dsimp only at h
            revert h
            cases hg2 : getShape (gsFuel g) s1 t2 with
            | none =>
              intro h
              exact absurd h (by simp)
            | some p2 =>
              rcases p2 with ⟨s2, shF⟩
              intro h
              dsimp only at h
              by_cases hsh : shO = shF
              · rw [if_pos hsh] at h
                exact absurd h (by simp)
              · rw [if_neg hsh] at h
                have hmid := transposeInnerAux_inr_persist rest
                  { g with store := s2 } t2 g2 h
                have hperF : MemoPersist s2 gF.store :=
                  MemoPersist_trans hmid.1 hper
                have hper1 : MemoPersist s1 gF.store :=
                  MemoPersist_trans (getShape_persist _ _ _ _ _ hg2) hperF
                have hstF : sameStruct g.store gF.store :=
                  sameStruct_trans (getShape_persist _ _ _ _ _ hg1).1 hper1.1
                have h2' : (gF.store t1).outputs = [t2] := by
                  rw [(hstF t1).2.2.2, h2]
                have hi' : (gF.store t1).inputs = orig :: t := by
                  rw [(hstF t1).2.2.1, hi]
                have hgs1 : getShape (gsFuel gF) gF.store orig =
                    some (gF.store, shO) :=
                  getShape_stable _ _ _ _ _ hg1 gF.store hper1 gF.fresh
                have hgs2 : getShape (gsFuel gF) gF.store t2 =
                    some (gF.store, shF) :=
                  getShape_stable _ _ _ _ _ hg2 gF.store hperF gF.fresh
                simp only [transposeInnerAux, hi']
                rw [if_pos h1', if_pos h2', hgs1]
                dsimp only
                rw [hgs2]
                dsimp only
                rw [if_neg hsh]
                exact ih { g with store := s2 } g2 gF t2 h hper hidx
      · rw [if_neg h2] at h
        have hmid := transposeInnerAux_inr_persist rest g t2 g2 h
        have hstF : sameStruct g.store gF.store :=
          sameStruct_trans hmid.1.1 hper.1
        have h2' : ¬ (gF.store t1).outputs = [t2] := by
          rw [(hstF t1).2.2.2]
          exact h2
        simp only [transposeInnerAux]
        rw [if_pos h1', if_neg h2']
        exact ih g g2 gF t2 h hper hidx
    · rw [if_neg h1] at h
      have h1' : ¬ t1 ∈ (idxFind gF.index "transpose").getD [] := by
        rw [hidx]
        exact h1
      simp only [transposeInnerAux]
      rw [if_neg h1']
      exact ih g g2 gF t2 h hper hidx

theorem transposeScanAux_fix_inv (l : List Nat) : ∀ (g g' : Graph),
    transposeScanAux g l = .fix g' →
    MemoPersist g.store g'.store ∧ g' = { g with store := g'.store } := by
  induction l with
  | nil =>
    intro g g' h
    simp only [transposeScanAux, ScanRes.fix.injEq] at h
    subst h
    exact ⟨MemoPersist_refl g.store, rfl⟩
  | cons t2 rest ih =>
    intro g g' h
    simp only [transposeScanAux] at h
    revert h
    cases hres : transposeInnerAux g t2 ((g.store t2).inputs) with
    | inl r =>
      intro h
      dsimp only at h
      subst h
      exact absurd hres (transposeInnerAux_no_fix _ g t2 g')
    | inr g2 =>
      intro h
      dsimp only at h
      have hin := transposeInnerAux_inr_persist _ g t2 g2 hres
      have hmid := ih g2 g' h
      have h2 := hmid.2
      rw [hin.2] at h2
      exact ⟨MemoPersist_trans hin.1 hmid.1, h2⟩

theorem transposeScanAux_refix (l : List Nat) : ∀ (g g' : Graph),
    transposeScanAux g l = .fix g' → transposeScanAux g' l = .fix g' := by
  induction l with
  | nil =>
    intro g g' h
    simp only [transposeScanAux, ScanRes.fix.injEq] at h
    subst h
    rfl
  | cons t2 rest ih =>
    intro g g' h
    simp only [transposeScanAux] at h
    revert h
    cases hres : transposeInnerAux g t2 ((g.store t2).inputs) with
    | inl r =>
      intro h
      dsimp only at h
      subst h
      exact absurd hres (transposeInnerAux_no_fix _ g t2 g')
    | inr g2 =>
      intro h
      dsimp only at h
      have hin := transposeInnerAux_inr_persist _ g t2 g2 hres
      have hfix := transposeScanAux_fix_inv rest g2 g' h
      have hstruct : sameStruct g.store g'.store :=
        sameStruct_trans hin.1.1 hfix.1.1
      have hidxg2 : g2.index = g.index := by rw [hin.2]
      have hidx : g'.index = g.index := by
        rw [hfix.2]
        exact hidxg2
      have hins' : (g'.store t2).inputs = (g.store t2).inputs :=
        (hstruct t2).2.2.1
      have hre := transposeInnerAux_reinr _ g g2 g' t2 hres hfix.1 hidx
      simp only [transposeScanAux, hins']
      rw [hre]
      exact ih g2 g' h

theorem transposeScan_refix (g g' : Graph) (h : transposeScan g = .fix g') :
    transposeScan g' = .fix g' := by
  unfold transposeScan at h ⊢
  revert h
  cases hf : idxFind g.index "transpose" with
  | none =>
    intro h
    simp only [ScanRes.fix.injEq] at h
    subst h
    rw [hf]
  | some l =>
    intro h
    have hinv := transposeScanAux_fix_inv l g g' h
    have hidx : g'.index = g.index := by rw [hinv.2]
    rw [hidx, hf]
    exact transposeScanAux_refix l g g' h

theorem passLoop_refix (scan : Graph → ScanRes)
    (hstab : ∀ g g', scan g = .fix g' → scan g' = .fix g') :
    ∀ (fuel : Nat) (g gf : Graph), passLoop scan fuel g = some gf →
      scan gf = .fix gf := by
  intro fuel
  induction fuel with
  | zero =>
    intro g gf h
    simp [passLoop] at h
  | succ f ih =>
    intro g gf h
    have hL : passLoop scan (f + 1) g = (match scan g with
      | .err => none | .fix g0 => some g0
      | .rew g0 _ _ _ => passLoop scan f g0) := rfl
    rw [hL] at h
    cases hs : scan g with
    | err =>
      rw [hs] at h
      simp at h
    | fix g0 =>
      rw [hs] at h
      simp only [Option.some.injEq] at h
      subst h
      exact hstab g g0 hs
    | rew g0 n k rem =>
      rw [hs] at h
      dsimp only at h
      exact ih g0 gf h

/-- C7: each optimization pass is idempotent.  When a pass completes
with result `gf`, the very first scan of a re-run on `gf` already
reaches the fixed point with zero rewrites, and the re-run returns
`gf` unchanged. -/
theorem C7_passes_idempotent :
    (∀ g gf, sum_identity g = some gf →
      sumScan gf = .fix gf ∧ sum_identity gf = some gf) ∧
    (∀ g gf, matmul_identity g = some gf →
      matmulScan gf = .fix gf ∧ matmul_identity gf = some gf) ∧
    (∀ g gf, consteval g = some gf →
      constevalScan gf = .fix gf ∧ consteval gf = some gf) ∧
    (∀ g gf, transpose_cancelation g = some gf →
      transposeScan gf = .fix gf ∧ transpose_cancelation gf = some gf) := by
  refine ⟨fun g gf h => ?_, fun g gf h => ?_, fun g gf h => ?_,
    fun g gf h => ?_⟩
  · have hfix := passLoop_refix sumScan sumScan_refix _ g gf h
    refine ⟨hfix, ?_⟩
    unfold sum_identity
    have hR : passLoop sumScan (idxCount gf "add" + 1) gf =
        (match sumScan gf with
        | .err => none | .fix g0 => some g0
        | .rew g0 _ _ _ => passLoop sumScan (idxCount gf "add") g0) := rfl
    rw [hR, hfix]
  · have hfix := passLoop_refix matmulScan matmulScan_refix _ g gf h
    refine ⟨hfix, ?_⟩
    unfold matmul_identity
    have hR : passLoop matmulScan (idxCount gf "matmul" + 1) gf =
        (match matmulScan gf with
        | .err => none | .fix g0 => some g0
        | .rew g0 _ _ _ => passLoop matmulScan (idxCount gf "matmul") g0) := rfl
    rw [hR, hfix]
  · have hfix := passLoop_refix constevalScan constevalScan_refix _ g gf h
    refine ⟨hfix, ?_⟩
    unfold consteval
    have hR : passLoop constevalScan (opCount gf + 1) gf =
        (match constevalScan gf with
        | .err => none | .fix g0 => some g0
        | .rew g0 _ _ _ => passLoop constevalScan (opCount gf) g0) := rfl
    rw [hR, hfix]
  · have hfix := passLoop_refix transposeScan transposeScan_refix _ g gf h
    refine ⟨hfix, ?_⟩
    unfold transpose_cancelation
    have hR : passLoop transposeScan (idxCount gf "transpose" + 1) gf =
        (match transposeScan gf with
        | .err => none | .fix g0 => some g0
        | .rew g0 _ _ _ => passLoop transposeScan (idxCount gf "transpose") g0) := rfl
    rw [hR, hfix]

/-- Witness for C7: all four passes complete on concrete graphs (they
all rewrite at least once there), and the idempotence conclusion then
applies to each result. -/
theorem C7_witness :
    sum_identity sumG = some (runPass sum_identity sumG) ∧
    sum_identity (runPass sum_identity sumG) =
      some (runPass sum_identity sumG) ∧
    matmul_identity matG = some (runPass matmul_identity matG) ∧
    matmul_identity (runPass matmul_identity matG) =
      some (runPass matmul_identity matG) ∧
    consteval ceG = some (runPass consteval ceG) ∧
    consteval (runPass consteval ceG) = some (runPass consteval ceG) ∧
    transpose_cancelation trG = some (runPass transpose_cancelation trG) ∧
    transpose_cancelation (runPass transpose_cancelation trG) =
      some (runPass transpose_cancelation trG) := by
  have h1 : sum_identity sumG = some (runPass sum_identity sumG) := by
    have hsome : (sum_identity sumG).isSome = true := by decide
    cases ho : sum_identity sumG with
    | none => rw [ho] at hsome; simp at hsome
    | some x => simp [runPass, ho]
  have h2 : matmul_identity matG = some (runPass matmul_identity matG) := by
    have hsome : (matmul_identity matG).isSome = true := by decide
    cases ho : matmul_identity matG with
    | none => rw [ho] at hsome; simp at hsome
    | some x => simp [runPass, ho]
  have h3 : consteval ceG = some (runPass consteval ceG) := by
    have hsome : (consteval ceG).isSome = true := by decide
    cases ho : consteval ceG with
    | none => rw [ho] at hsome; simp at hsome
    | some x => simp [runPass, ho]
  have h4 : transpose_cancelation trG = some (runPass transpose_cancelation trG) := by
    have hsome : (transpose_cancelation trG).isSome = true := by decide
    cases ho : transpose_cancelation trG with
    | none => rw [ho] at hsome; simp at hsome
    | some x => simp [runPass, ho]
  exact ⟨h1, (C7_passes_idempotent.1 sumG _ h1).2,
    h2, (C7_passes_idempotent.2.1 matG _ h2).2,
    h3, (C7_passes_idempotent.2.2.1 ceG _ h3).2,
    h4, (C7_passes_idempotent.2.2.2 trG _ h4).2⟩

end Xand
